import Mathlib

/-! # atom.js — a shallow embedding

The store of `src/atom.js` (property map, listener registry, needs, providers,
validation gate, async queue, entanglement, destruction and the factory) as
explicit state passing.

Modelling conventions
* JavaScript objects used as maps (`props`, `needs`, `providers`, `missing`,
  `config.validation`) are association lists of their own properties, in
  `Object.keys` order.  What these plain objects inherit from `Object.prototype`
  is not represented: the lists are exact for the keys that `ordinaryKey` accepts,
  and the theorems of C1, C5, C6, C8, C10 and C18 are stated for such keys.
* Listener records are mutable objects shared between `nucleus.listeners` and the
  copy made by `performSet`; they live in a heap and the registry holds their ids.
* User callbacks, hooks, producers and tasks are opaque: invoking one appends an
  event to the log.  The callbacks that `entangle` installs are modelled exactly,
  they call `set` on the other instance.
* The recursion that entangled instances can run into is bounded by fuel; running
  out of fuel is the result `Res.outOfFuel`.
* A promise is represented by the state in which it is left (`SetRet`); what runs
  later, when a promise settles, is an operation of its own (`settle`, `atomThen`).
* Instances and configuration objects are numbered; instances made by the same
  `setup` have the same configuration number.  The factory is told which slot the
  new instance takes.
-/

namespace Atom

abbrev Key := String

/-- JavaScript values as far as the store looks at them: `obj` carries the
identity of an object, `nan` is the number that is not `===` to itself. -/
inductive Value where
  | undefined
  | null
  | bool (b : Bool)
  | num (n : Int)
  | nan
  | str (s : String)
  | obj (ref : Nat)
  deriving DecidableEq, Repr

/-- The operator `===`. -/
def strictEq : Value → Value → Bool
  | .nan, _ => false
  | _, .nan => false
  | a, b => decide (a = b)

/-- `isObject(input)`: `input && typeof input === 'object'`. -/
def isObject : Value → Bool
  | .obj _ => true
  | _ => false

/-- `inArray(arr, value)`: `arr.indexOf(value) > -1`, which compares with `===`. -/
def inArray (arr : List Value) (value : Value) : Bool :=
  arr.any (fun x => strictEq x value)

/-- A listener callback: a user function (opaque, logged when called) or one of
the two closures made by `entangle`, `function (value) { target.set(key, value) }`. -/
inductive Cb where
  | user (id : Nat)
  | forward (target : Nat) (key : Key)
  deriving DecidableEq, Repr

/-- The field `calls` of a listener record: `Infinity` or a number. -/
inductive Calls where
  | inf
  | fin (n : Int)
  deriving DecidableEq, Repr

/-- `calls--`. -/
def Calls.dec : Calls → Calls
  | .inf => .inf
  | .fin n => .fin (n - 1)

/-- `!calls`. -/
def Calls.exhausted : Calls → Bool
  | .inf => false
  | .fin n => decide (n = 0)

/-- A listener record `{keys, cb, calls, missing}`. -/
structure Listener where
  keys : List Key
  cb : Cb
  calls : Calls
  missing : Option (List Key)
  deriving DecidableEq, Repr

/-- What a validator's promise does in the end. -/
inductive Settle where
  | resolves (v : Value)
  | rejects
  deriving DecidableEq, Repr

/-- What a validator returns. -/
inductive VRes where
  | bool (b : Bool)
  | promise (s : Settle)
  | other
  deriving DecidableEq, Repr

/-- A validator function. -/
abbrev Validator := Value → VRes

/-- The configuration object: `validation` and `onChange`. -/
structure Config where
  validation : Option (List (Key × List (String × Validator)))
  onChange : Option Nat

/-- A producer given to `provide`: when called it invokes its completion callback
synchronously with each value of `sync`, in order (later invocations are the
operation `callDone`). -/
structure Producer where
  id : Nat
  sync : List Value
  deriving DecidableEq, Repr

/-- The queue `q` of `chain`: the array itself and its fields `pending`, `next`
and `args` (`none` is a falsy field). -/
structure Queue where
  items : List Nat
  pending : Option Nat
  next : Option Nat
  args : Option (List Value)
  deriving DecidableEq, Repr

/-- The state owned by one instance. -/
structure AtomSt where
  props : List (Key × Value)
  needs : List Key
  providers : List (Key × Producer)
  listeners : List Nat
  cfg : Nat
  q : Queue
  destroyed : Bool

/-- What is observable of the callbacks: the calls, in order. -/
inductive Event where
  | cb (id : Nat) (args : List Value)
  | hook (id : Nat)
  | producer (id : Nat) (cell : Nat)
  | task (id : Nat) (cell : Nat) (args : List Value)
  deriving DecidableEq, Repr

/-- The closure state of one `preventMultiCall` wrapper: the flag `ran` and what
the wrapped callback does, `set(config, nucleus, key, result)` of an instance or
`doNext` of an instance. -/
inductive CellKind where
  | setKey (a : Nat) (key : Key)
  | doNext (a : Nat)
  deriving DecidableEq, Repr

/-- One wrapper made by `preventMultiCall`. -/
structure Cell where
  kind : CellKind
  ran : Bool
  deriving DecidableEq, Repr

/-- A `Promise.all(...).then(performSet)` that has not run yet. -/
structure PendingSet where
  a : Nat
  key : Key
  value : Value
  promises : List (String × Settle)
  deriving DecidableEq, Repr

/-- Everything: the instances, the configuration objects, the heap of listener
records, the module-wide `objStack`, the wrappers, the waiting promise
continuations and the log of callback invocations. -/
structure World where
  atoms : Nat → AtomSt
  configs : Nat → Config
  heap : Nat → Listener
  nextRec : Nat
  objStack : List Value
  cells : List Cell
  pendings : List PendingSet
  log : List Event

/-- The value `set` hands back: `undefined`, or a promise that is fulfilled,
rejected with a validator name, rejected with an exception, or still waiting for
validator promises. -/
inductive SetRet where
  | undefined
  | resolved
  | rejected (name : String)
  | rejectedErr
  | pending
  deriving DecidableEq, Repr

/-- Result of running code that may throw or recurse without end. -/
inductive Res where
  | ok (w : World) (r : SetRet)
  | threw (w : World)
  | outOfFuel

/-! ## Property maps -/

/-- `hasOwn.call(props, key)`. -/
def hasOwn (props : List (Key × Value)) (key : Key) : Bool :=
  props.any (fun p => p.1 == key)

/-- `props[key]`, for a key that is an own property or an ordinary name (an absent
name of `Object.prototype` reads as the inherited value in the source). -/
def lookup (props : List (Key × Value)) (key : Key) : Value :=
  match props.find? (fun p => p.1 == key) with
  | some p => p.2
  | none => .undefined

/-- `props[key] = value`, for a key that is an own property or an ordinary name
(for an absent `__proto__` the assignment of the source runs the inherited setter). -/
def assign : List (Key × Value) → Key → Value → List (Key × Value)
  | [], key, value => [(key, value)]
  | p :: ps, key, value =>
    if p.1 == key then (key, value) :: ps else p :: assign ps key value

/-- The object `missing` that `get` fills with `missing[key] = true`: every
requested key that is not an own property, once (exact for ordinary keys). -/
def missingOf (props : List (Key × Value)) : List Key → List Key → List Key
  | acc, [] => acc
  | acc, k :: ks =>
    if !hasOwn props k && !acc.contains k then missingOf props (acc ++ [k]) ks
    else missingOf props acc ks

/-- The array `values` that `get` fills with `values.unshift(props[key])`. -/
def getValues (props : List (Key × Value)) (keys : List Key) : List Value :=
  (keys.map (lookup props)).reverse

/-- `get(nucleus, keyOrList)` without `func`: the result `{values, missing}`;
`missing` is only set when some key is absent. -/
def get (props : List (Key × Value)) (keys : List Key) : List Value × Option (List Key) :=
  (getValues props keys,
    if keys.all (hasOwn props) then none else some (missingOf props [] keys))

/-- The names every plain object inherits from `Object.prototype`. -/
def protoNames : List Key :=
  ["constructor", "__defineGetter__", "__defineSetter__", "hasOwnProperty",
    "__lookupGetter__", "__lookupSetter__", "isPrototypeOf", "propertyIsEnumerable",
    "toString", "valueOf", "__proto__", "toLocaleString"]

/-- A key that is not a name of `Object.prototype`.  For such a key a plain object
behaves as the list of its own properties: reading an absent key gives `undefined`
and writing it makes it an own property.  For the other names reading an absent key
finds the inherited value, and writing `__proto__` runs the inherited setter, which
stores nothing. -/
def ordinaryKey (k : Key) : Bool :=
  !protoNames.contains k

/-! ## State updates -/

/-- Replace the state of instance `a` by `f` of it. -/
def World.updAtom (w : World) (a : Nat) (f : AtomSt → AtomSt) : World :=
  { w with atoms := Function.update w.atoms a (f (w.atoms a)) }

/-- Replace the listener record `r` by `f` of it. -/
def World.updRec (w : World) (r : Nat) (f : Listener → Listener) : World :=
  { w with heap := Function.update w.heap r (f (w.heap r)) }

/-- Append an event to the log. -/
def World.emit (w : World) (e : Event) : World :=
  { w with log := w.log ++ [e] }

/-! ## Listener dispatch -/

/-- `removeListener(listeners)`: going down from the last index, splice out the
first record whose `calls` is falsy. -/
def removeListener (heap : Nat → Listener) (listeners : List Nat) : List Nat :=
  (listeners.reverse.eraseP (fun r => (heap r).calls.exhausted)).reverse

/-- Calling a listener callback with `args`.  The closures of `entangle` call
`set` of the other instance with their first argument; `setF` is that `set`. -/
def invoke (setF : World → Nat → Key → Value → Res) (w : World) (cb : Cb)
    (args : List Value) : Res :=
  match cb with
  | .user id => .ok (w.emit (.cb id args)) .undefined
  | .forward target key => setF w target key (args.headD .undefined)

/-- The two lines `listener.cb.apply({}, get(nucleus, keys).values); listener.calls--;`. -/
def fire (setF : World → Nat → Key → Value → Res) (w : World) (a r : Nat) : Res :=
  let l := w.heap r
  match invoke setF w l.cb (getValues (w.atoms a).props l.keys) with
  | .ok w1 _ => .ok (w1.updRec r (fun l => { l with calls := l.calls.dec })) .undefined
  | e => e

/-- One turn of the `while (i--)` loop of `performSet`, for the record `r`. -/
def step (setF : World → Nat → Key → Value → Res) (a : Nat) (key : Key) (w : World)
    (r : Nat) : Res :=
  let l := w.heap r
  let fired :=
    match l.missing with
    | some m =>
      if m.contains key then
        let m1 := m.filter (fun k => k != key)
        let w1 := w.updRec r (fun l => { l with missing := some m1 })
        if m1.isEmpty then fire setF w1 a r else .ok w1 .undefined
      else .ok w .undefined
    | none => if l.keys.contains key then fire setF w a r else .ok w .undefined
  match fired with
  | .ok w2 _ =>
    if (w2.heap r).calls.exhausted then
      .ok (w2.updAtom a (fun s => { s with listeners := removeListener w2.heap s.listeners }))
        .undefined
    else .ok w2 .undefined
  | e => e

/-- The `while (i--)` loop over the records still to visit. -/
def dispatch (setF : World → Nat → Key → Value → Res) (a : Nat) (key : Key) :
    List Nat → World → Res
  | [], w => .ok w .undefined
  | r :: rs, w =>
    match step setF a key w r with
    | .ok w1 _ => dispatch setF a key rs w1
    | e => e

/-- The closure `performSet` of `set(config, nucleus, key, value)` for instance `a`.
On a destroyed instance `nucleus` is `0` and reading `props[key]` throws. -/
def performSet (setF : World → Nat → Key → Value → Res) (w : World) (a : Nat) (key : Key)
    (value : Value) : Res :=
  let s := w.atoms a
  if s.destroyed then .threw w else
  let listenersCopy := s.listeners
  let oldValue := lookup s.props key
  let had := hasOwn s.props key
  let isObj := isObject value
  let w1 := w.updAtom a (fun s => { s with props := assign s.props key value })
  if !had || !strictEq oldValue value || (isObj && !inArray w.objStack value) then
    let w2 := if isObj then { w1 with objStack := w1.objStack ++ [value] } else w1
    match dispatch setF a key listenersCopy.reverse w2 with
    | .ok w3 _ =>
      let w4 := w3.updAtom a (fun s => { s with needs := s.needs.filter (fun k => k != key) })
      let w5 := if isObj then { w4 with objStack := w4.objStack.dropLast } else w4
      match (w5.configs s.cfg).onChange with
      | some h => .ok (w5.emit (.hook h)) .undefined
      | none => .ok w5 .undefined
    | e => e
  else .ok w1 .undefined

/-! ## The validation gate -/

/-- `config.validation[key]`: the own entry for the key, which is all there is for
an ordinary key. -/
def validationFor (validation : List (Key × List (String × Validator))) (key : Key) :
    Option (List (String × Validator)) :=
  (validation.find? (fun p => p.1 == key)).map (fun p => p.2)

/-- `Object.keys(validation).find(...)`: the validators are called in order until
one returns `false`; the promises met on the way are collected.  `none` is the
`throw` for a result that is neither a boolean nor a promise. -/
def findInvalid (value : Value) :
    List (String × Validator) → List (String × Settle) →
      Option (Option String × List (String × Settle))
  | [], promises => some (none, promises)
  | (validationKey, v) :: rest, promises =>
    match v value with
    | .bool b => if !b then some (some validationKey, promises)
                 else findInvalid value rest promises
    | .promise s => findInvalid value rest (promises ++ [(validationKey, s)])
    | .other => none

/-- `promises.length`: `promises` is an object keyed by validator name, so this is
the entry of a validator called `length`, if any. -/
def promisesLength (promises : List (String × Settle)) : Bool :=
  promises.any (fun p => p.1 == "length")

/-- What a promise executor that ran `body` leaves: an exception inside it
rejects the promise. -/
def inExecutor (body : Res) : Res :=
  match body with
  | .ok w _ => .ok w .resolved
  | .threw w => .ok w .rejectedErr
  | .outOfFuel => .outOfFuel

/-- The body of `set(config, nucleus, key, value)` for instance `a`; `setF` is the
`set` that re-entrant callbacks reach. -/
def setBody (setF : World → Nat → Key → Value → Res) (w : World) (a : Nat) (key : Key)
    (value : Value) : Res :=
  let config := w.configs (w.atoms a).cfg
  match config.validation.bind (fun v => validationFor v key) with
  | some validation =>
    match findInvalid value validation [] with
    | none => .threw w
    | some (validationError, promises) =>
      if promisesLength promises then
        .ok { w with pendings := w.pendings ++ [⟨a, key, value, promises⟩] } .pending
      else
        match validationError with
        | some name =>
          if name != "" then .ok w (.rejected name)
          else inExecutor (performSet setF w a key value)
        | none => inExecutor (performSet setF w a key value)
  | none =>
    match performSet setF w a key value with
    | .ok w1 _ => .ok w1 .undefined
    | e => e

/-- `set(config, nucleus, key, value)`, with fuel for the calls that callbacks of
entangled instances make back into `set`. -/
def set : Nat → World → Nat → Key → Value → Res
  | 0, _, _, _, _ => .outOfFuel
  | fuel + 1, w, a, key, value => setBody (set fuel) w a key value

/-- The continuation of the oldest waiting `Promise.all(values(promises)).then(performSet)`:
it runs `performSet` if every collected promise is fulfilled and is rejected with
the name of a rejected one otherwise. -/
def settle (fuel : Nat) (w : World) : Res :=
  match w.pendings with
  | [] => .ok w .undefined
  | p :: ps =>
    let w1 := { w with pendings := ps }
    match p.promises.find? (fun q => q.2 == Settle.rejects) with
    | some q => .ok w1 (.rejected q.1)
    | none => inExecutor (performSet (set fuel) w1 p.a p.key p.value)

/-! ## The public interface `me` -/

/-- An argument that is a key or a list of keys. -/
inductive KeyOrList where
  | key (k : Key)
  | list (ks : List Key)
  deriving DecidableEq, Repr

/-- `toArray(obj)`. -/
def toArray : KeyOrList → List Key
  | .key k => [k]
  | .list ks => ks

/-- `!keyOrList`: only the empty string is falsy. -/
def KeyOrList.falsy : KeyOrList → Bool
  | .key k => k == ""
  | .list _ => false

/-- `arr + ''` for an array of strings: the elements joined by commas. -/
def joinKeys (ks : List Key) : String :=
  ",".intercalate ks

/-- `keysMatch(keyOrListA, keyOrListB)`: the sorted lists, as strings, are equal
(identical arguments have equal strings).  `sort()` orders by UTF-16 code units and
the sort used here by code points; the two orders agree on keys without surrogate
pairs. -/
def keysMatch (a b : KeyOrList) : Bool :=
  joinKeys ((toArray a).mergeSort (fun x y => decide (x ≤ y))) ==
    joinKeys ((toArray b).mergeSort (fun x y => decide (x ≤ y)))

/-- `listeners.unshift(record)` with a fresh record. -/
def addListener (w : World) (a : Nat) (l : Listener) : World :=
  let r := w.nextRec
  let w1 : World := { w with heap := Function.update w.heap r l, nextRec := r + 1 }
  w1.updAtom a (fun s => { s with listeners := r :: s.listeners })

namespace me

/-- `me.get(keyOrList)` without `func`, for a key given as a string:
`result.values[0]`.  `none` is the exception of a destroyed instance. -/
def get (w : World) (a : Nat) (key : Key) : Option Value :=
  let s := w.atoms a
  if s.destroyed then none else some ((Atom.get s.props [key]).1.headD .undefined)

/-- `me.has(keyOrList)`. -/
def has (w : World) (a : Nat) (keyOrList : KeyOrList) : Bool :=
  let s := w.atoms a
  if s.destroyed then (toArray keyOrList).isEmpty
  else (toArray keyOrList).all (hasOwn s.props)

/-- `me.on(keyOrList, func)`, under its alias `me.bind` (`on` is a reserved word here). -/
def bind (w : World) (a : Nat) (keyOrList : KeyOrList) (func : Cb) : Res :=
  if (w.atoms a).destroyed then .threw w
  else .ok (addListener w a ⟨toArray keyOrList, func, .inf, none⟩) .undefined

/-- `me.next(keyOrList, func)`. -/
def next (w : World) (a : Nat) (keyOrList : KeyOrList) (func : Cb) : Res :=
  if (w.atoms a).destroyed then .threw w
  else .ok (addListener w a ⟨toArray keyOrList, func, .fin 1, none⟩) .undefined

/-- `me.off(keyOrList, func)`; `keyOrList` is `none` in the one-argument form.  The
loop goes down the array and splices the matching records out, which keeps the
others in order. -/
def off (w : World) (a : Nat) (keyOrList : Option KeyOrList) (func : Cb) : Res :=
  if (w.atoms a).destroyed then .ok w .undefined
  else
    let hit (r : Nat) : Bool :=
      let listener := w.heap r
      listener.cb == func &&
        (match keyOrList with
         | none => true
         | some k => k.falsy || keysMatch (.list listener.keys) k)
    .ok (w.updAtom a (fun s => { s with listeners := s.listeners.filter (fun r => !hit r) }))
      .undefined

/-- `me.once(keyOrList, func)`. -/
def once (fuel : Nat) (w : World) (a : Nat) (keyOrList : KeyOrList) (func : Cb) : Res :=
  let s := w.atoms a
  let keys := toArray keyOrList
  if s.destroyed && !keys.isEmpty then .threw w
  else
    let results := Atom.get s.props keys
    match results.2 with
    | some missing => .ok (addListener w a ⟨keys, func, .fin 1, some missing⟩) .undefined
    | none =>
      match invoke (Atom.set fuel) w func results.1 with
      | .ok w1 _ => .ok w1 .undefined
      | e => e

/-- The loop of the batch form of `me.set`: `results[key] = set(...)` and then
`results[key].then(...)`, which throws when `set` returned `undefined`.  The loop
runs inside a promise executor, so an exception ends it and rejects the promise. -/
def setEach (fuel : Nat) (a : Nat) : List (Key × Value) → World → List SetRet → Res
  | [], w, results =>
    match results.find? (fun r => r != SetRet.resolved && r != SetRet.pending) with
    | some r => .ok w r
    | none => if results.contains .pending then .ok w .pending else .ok w .resolved
  | (key, value) :: rest, w, results =>
    match Atom.set fuel w a key value with
    | .ok w1 .undefined => .ok w1 .rejectedErr
    | .ok w1 r => setEach fuel a rest w1 (results ++ [r])
    | .threw w1 => .ok w1 .rejectedErr
    | .outOfFuel => .outOfFuel

/-- The first argument of `me.set`: a key or a map of keys to values. -/
inductive KeyOrMap where
  | key (k : Key)
  | map (m : List (Key × Value))
  deriving DecidableEq, Repr

/-- `me.set(keyOrMap, value)`. -/
def set (fuel : Nat) (w : World) (a : Nat) (keyOrMap : KeyOrMap) (value : Value) : Res :=
  match keyOrMap with
  | .map m => setEach fuel a m w []
  | .key k => Atom.set fuel w a k value

end me

/-! ## Wrappers, providers and the queue -/

/-- `doNext` of instance `a`, called with `args`. -/
def doNext (w : World) (a : Nat) (args : List Value) : World :=
  let s := w.atoms a
  if s.destroyed then w
  else
    let q := s.q
    let shift := q.next.isNone && !q.items.isEmpty
    let pending := if shift then q.items.head? else q.next
    let items := if shift then q.items.tail else q.items
    match pending with
    | some t =>
      let cell := w.cells.length
      let w1 := w.updAtom a (fun s =>
        { s with q := { items := items, pending := some t, next := none, args := some args } })
      ({ w1 with cells := w1.cells ++ [Cell.mk (.doNext a) false] }).emit (.task t cell args)
    | none =>
      w.updAtom a (fun s =>
        { s with q := { items := items, pending := none, next := none, args := some args } })

/-- Calling the function made by `preventMultiCall` that is stored in `cell`. -/
def callDone (fuel : Nat) (w : World) (cell : Nat) (args : List Value) : Res :=
  match w.cells[cell]? with
  | none => .ok w .undefined
  | some c =>
    if c.ran then .ok w .undefined
    else
      let w1 := { w with cells := w.cells.set cell { c with ran := true } }
      match c.kind with
      | .setKey a key =>
        match set fuel w1 a key (args.headD .undefined) with
        | .ok w2 _ => .ok w2 .undefined
        | e => e
      | .doNext a => .ok (doNext w1 a args) .undefined

/-- The synchronous calls a producer makes to its completion callback. -/
def callAll (fuel : Nat) (cell : Nat) : List Value → World → Res
  | [], w => .ok w .undefined
  | v :: vs, w =>
    match callDone fuel w cell [v] with
    | .ok w1 _ => callAll fuel cell vs w1
    | e => e

/-- `provide(config, nucleus, key, provider)`. -/
def provide (fuel : Nat) (w : World) (a : Nat) (key : Key) (provider : Producer) : Res :=
  let cell := w.cells.length
  let w1 := ({ w with cells := w.cells ++ [Cell.mk (.setKey a key) false] }).emit
    (.producer provider.id cell)
  callAll fuel cell provider.sync w1

/-- `providers[key]`: the own entry for the key, which is all there is for an
ordinary key. -/
def providerFor (providers : List (Key × Producer)) (key : Key) : Option Producer :=
  (providers.find? (fun p => p.1 == key)).map (fun p => p.2)

namespace me

/-- The loop of `me.need` over the keys still to visit (it goes down the array). -/
def needLoop (fuel : Nat) (a : Nat) : List Key → World → Res
  | [], w => .ok w .undefined
  | key :: rest, w =>
    let s := w.atoms a
    match (if hasOwn s.props key then none else providerFor s.providers key) with
    | some provider =>
      match provide fuel w a key provider with
      | .ok w1 _ =>
        needLoop fuel a rest (w1.updAtom a (fun s =>
          { s with providers := s.providers.filter (fun p => p.1 != key) }))
      | e => e
    | none =>
      needLoop fuel a rest (w.updAtom a (fun s =>
        { s with needs := if s.needs.contains key then s.needs else s.needs ++ [key] }))

/-- `me.need(keyOrList, func)`; `func` is optional. -/
def need (fuel : Nat) (w : World) (a : Nat) (keyOrList : KeyOrList) (func : Option Cb) : Res :=
  if (w.atoms a).destroyed && !(toArray keyOrList).isEmpty then .threw w
  else
    match needLoop fuel a (toArray keyOrList).reverse w with
    | .ok w1 _ =>
      match func with
      | some f => once fuel w1 a (.list (toArray keyOrList)) f
      | none => .ok w1 .undefined
    | e => e

/-- `me.provide(key, func)`; `needs[key]` and `providers[key]` are read as own
entries, which is exact for ordinary keys. -/
def provide (fuel : Nat) (w : World) (a : Nat) (key : Key) (func : Producer) : Res :=
  let s := w.atoms a
  if s.destroyed then .threw w
  else if s.needs.contains key then Atom.provide fuel w a key func
  else if (providerFor s.providers key).isNone then
    .ok (w.updAtom a (fun s => { s with providers := s.providers ++ [(key, func)] })) .undefined
  else .ok w .undefined

/-- One iteration of the loop of `me.chain`: `q.push(task)` and, when nothing is
pending, `doNext.apply({}, q.args || [])`. -/
def chain1 (w : World) (a : Nat) (task : Nat) : World :=
  let w1 := w.updAtom a (fun s => { s with q := { s.q with items := s.q.items ++ [task] } })
  if (w1.atoms a).q.pending.isNone then doNext w1 a ((w1.atoms a).q.args.getD []) else w1

/-- `me.chain(task, ...)`. -/
def chain (w : World) (a : Nat) (tasks : List Nat) : World :=
  if (w.atoms a).destroyed then w else tasks.foldl (fun w t => chain1 w a t) w

/-- The last argument of `me.entangle`. -/
inductive KeyOrListOrMap where
  | key (k : Key)
  | list (ks : List Key)
  | map (m : List (Key × Key))
  deriving DecidableEq, Repr

/-- The pairs `(key, map[key])` that `me.entangle` walks with `me.each`; for a key
or a list the source writes `map[key] = key` and reads it back, which gives the key
for ordinary keys. -/
def entanglePairs : KeyOrListOrMap → List (Key × Key)
  | .key k => [(k, k)]
  | .list ks => ks.map (fun k => (k, k))
  | .map m => m

/-- The body that `me.entangle` runs for each key: `me.get(key)` for the unused
second argument, then the two `on` calls. -/
def entangleLoop (a other : Nat) : List (Key × Key) → World → Res
  | [], w => .ok w .undefined
  | (key, otherKey) :: rest, w =>
    match get w a key with
    | none => .threw w
    | some _ =>
      match bind w a (.key key) (.forward other otherKey) with
      | .ok w1 _ =>
        match bind w1 other (.key otherKey) (.forward a key) with
        | .ok w2 _ => entangleLoop a other rest w2
        | e => e
      | e => e

/-- `me.entangle(otherAtom, keyOrListOrMap)`. -/
def entangle (w : World) (a other : Nat) (keyOrListOrMap : KeyOrListOrMap) : Res :=
  entangleLoop a other (entanglePairs keyOrListOrMap) w

end me

/-! ## Initial states -/

/-- The state of an instance right after `atom()` built it, with configuration
object `cfg`. -/
def AtomSt.fresh (cfg : Nat) : AtomSt :=
  { props := [], needs := [], providers := [], listeners := [], cfg := cfg,
    q := { items := [], pending := none, next := none, args := none }, destroyed := false }

/-- The empty configuration object `{}`. -/
def Config.none : Config :=
  { validation := Option.none, onChange := Option.none }

/-- A world of fresh instances; instance `i` has the configuration object `configs i`. -/
def World.init (configs : Nat → Config) : World :=
  { atoms := fun i => AtomSt.fresh i, configs := configs,
    heap := fun _ => { keys := [], cb := .user 0, calls := .inf, missing := Option.none },
    nextRec := 0, objStack := [], cells := [], pendings := [], log := [] }

/-- The world a result carries, when there is one. -/
def Res.world? : Res → Option World
  | .ok w _ => some w
  | .threw w => some w
  | .outOfFuel => Option.none

/-- The value a call returned, when it returned. -/
def Res.ret? : Res → Option SetRet
  | .ok _ r => some r
  | _ => Option.none

/-! ## Destruction, the list forms of `get`, and the factory -/

namespace me

/-- `me.destroy()`.  `clear(nucleus, config, q)` deletes every entry of the
configuration object, which all instances made by the same `setup` share; then
`nucleus`, `props`, `needs`, `providers`, `listeners` and `q` become `0`, which is
the state `destroyed` stands for (the number `0` has no own property, hence the
empty maps).  A second call clears the configuration again and then throws at
`q.length = 0`. -/
def destroy (w : World) (a : Nat) : Res :=
  let s := w.atoms a
  let w1 : World := { w with configs := Function.update w.configs s.cfg Config.none }
  if s.destroyed then .threw w1
  else
    .ok (w1.updAtom a (fun s =>
      { s with props := [], needs := [], providers := [], listeners := [],
               q := { items := [], pending := Option.none, next := Option.none,
                      args := Option.none },
               destroyed := true })) .undefined

/-- `me.get(keyOrList)` without `func`, for an array of keys: `result.values`.
`none` is the exception that the first key raises on a destroyed instance. -/
def getList (w : World) (a : Nat) (keys : List Key) : Option (List Value) :=
  let s := w.atoms a
  if s.destroyed && !keys.isEmpty then Option.none else some (Atom.get s.props keys).1

/-- `me.get(keyOrList, func)`: `func.apply({}, values)`. -/
def getWith (fuel : Nat) (w : World) (a : Nat) (keyOrList : KeyOrList) (func : Cb) : Res :=
  let s := w.atoms a
  let keys := toArray keyOrList
  if s.destroyed && !keys.isEmpty then .threw w
  else invoke (Atom.set fuel) w func (getValues s.props keys)

end me

/-- What a call of the factory leaves: the new instance, with the promise of the
initial set on which `.then` registered the continuation that puts the hook
`onChange` back (the state of that promise and the saved hook), or an exception. -/
inductive Made where
  | made (w : World) (waiting : Option (SetRet × Option Nat))
  | raised (w : World)
  | outOfFuel

/-- The factory `atom(...)`, called with the configuration object `cfg` as `this`
(an empty object of its own when there is none); the new instance takes the slot
`a`.  `args` are the arguments, which go to `me.set`. -/
def atom (fuel : Nat) (w : World) (a cfg : Nat) (args : Option (me.KeyOrMap × Value)) :
    Made :=
  let w0 : World := { w with atoms := Function.update w.atoms a (AtomSt.fresh cfg) }
  match args with
  | Option.none => .made w0 Option.none
  | some (keyOrMap, value) =>
    let onChange := (w0.configs cfg).onChange
    let w1 : World :=
      { w0 with configs :=
          Function.update w0.configs cfg { w0.configs cfg with onChange := Option.none } }
    match me.set fuel w1 a keyOrMap value with
    | .ok w2 .undefined => .raised w2
    | .ok w2 r => .made w2 (some (r, onChange))
    | .threw w2 => .raised w2
    | .outOfFuel => .outOfFuel

/-- The continuation `function () { config.onChange = onChange; }` of the factory.
It is the fulfilment handler of the promise of the initial set: it runs when that
promise ends fulfilled and never when it ends rejected.  `outcome` is the state in
which the promise ends. -/
def atomThen (w : World) (cfg : Nat) (onChange : Option Nat) (outcome : SetRet) : World :=
  match outcome with
  | .resolved =>
    { w with configs := Function.update w.configs cfg { w.configs cfg with onChange := onChange } }
  | _ => w

/-- `atom.setup(config)`: the factory bound to the configuration object `cfg`. -/
def setup (cfg : Nat) (fuel : Nat) (w : World) (a : Nat)
    (args : Option (me.KeyOrMap × Value)) : Made :=
  atom fuel w a cfg args

/-- Whether the call of the factory raised an exception. -/
def Made.raises : Made → Bool
  | .raised _ => true
  | _ => false

/-! ## Sample states -/

/-- A validator that accepts numbers only. -/
def isNumber : Validator := fun v =>
  match v with
  | .num _ => .bool true
  | _ => .bool false

/-- A configuration with one synchronous validator for the key `n` and an
`onChange` hook. -/
def sampleConfig : Config :=
  { validation := some [("n", [("isNumber", isNumber)])], onChange := some 0 }

/-- A world without configuration in which instance 0 has one persistent listener,
on key `a`, with the user callback 7. -/
def sampleWorld : World :=
  addListener (World.init (fun _ => Config.none)) 0
    { keys := ["a"], cb := .user 7, calls := .inf, missing := Option.none }

/-- The same listener on instances that share `sampleConfig`. -/
def sampleValidated : World :=
  addListener (World.init (fun _ => sampleConfig)) 0
    { keys := ["n"], cb := .user 7, calls := .inf, missing := Option.none }

/-- A validator that always returns `false`. -/
def never : Validator := fun _ => .bool false

/-- A configuration whose only validator for the key `n` has the empty name and
rejects everything. -/
def unnamedConfig : Config :=
  { validation := some [("n", [("", never)])], onChange := Option.none }

/-- A configuration with two validators for the key `n`: `length` returns a promise
that settles as `s`, `lower` returns `false`. -/
def lengthConfig (s : Settle) : Config :=
  { validation := some [("n", [("length", fun _ => .promise s), ("lower", never)])],
    onChange := Option.none }

/-- A configuration whose only validator for the key `n` returns a promise that
settles as `s`. -/
def asyncConfig (s : Settle) : Config :=
  { validation := some [("n", [("remote", fun _ => .promise s)])], onChange := Option.none }

/-- What `get(key)` of instance `a` returns after a call that returned. -/
def Res.get (r : Res) (a : Nat) (key : Key) : Option Value :=
  r.world?.bind (fun w => me.get w a key)

/-- What `has(key)` of instance `a` returns after a call that returned. -/
def Res.has (r : Res) (a : Nat) (key : Key) : Option Bool :=
  r.world?.map (fun w => me.has w a (.key key))

/-- The log after a call. -/
def Res.log (r : Res) : Option (List Event) :=
  r.world?.map (fun w => w.log)

/-- Running the next operation on the world a call left. -/
def Res.andThen (r : Res) (f : World → Res) : Res :=
  match r with
  | .ok w _ => f w
  | e => e

/-! ## The decision of the validation gate -/

/-- The ways `set(config, nucleus, key, value)` can go before `performSet`. -/
inductive Gate where
  | openPlain
  | openPromise
  | reject (name : String)
  | wait (promises : List (String × Settle))
  | throws
  deriving DecidableEq, Repr

/-- Which way `set` goes for a configuration, a key and a value. -/
def gate (config : Config) (key : Key) (value : Value) : Gate :=
  match config.validation.bind (fun v => validationFor v key) with
  | some validation =>
    match findInvalid value validation [] with
    | Option.none => .throws
    | some (validationError, promises) =>
      if promisesLength promises then .wait promises
      else
        match validationError with
        | some name => if name != "" then .reject name else .openPromise
        | Option.none => .openPromise
  | Option.none => .openPlain

/-- C5 as stated, for one state, key and value: when a first `set(K, V)` returned
and was not rejected, a second one returns without a new log entry and with the
property map, the listener registry, its records and the needs set as the first
call left them. -/
def SecondSetQuiet (fuel : Nat) (w : World) (a : Nat) (K : Key) (V : Value) : Prop :=
  ∀ w1 r1, set fuel w a K V = .ok w1 r1 → (∀ name, r1 ≠ .rejected name) → r1 ≠ .rejectedErr →
    ∃ w2 r2, set fuel w1 a K V = .ok w2 r2 ∧ w2.log = w1.log ∧
      (w2.atoms a).props = (w1.atoms a).props ∧
      (w2.atoms a).listeners = (w1.atoms a).listeners ∧
      (w2.atoms a).needs = (w1.atoms a).needs ∧ w2.heap = w1.heap

/-! ## Dispatch to user callbacks, in closed form

When every record a dispatch pass visits has a user callback, nothing re-enters
`set` and the pass is a plain fold.  The definitions below describe that fold;
`step_user` and `dispatch_user` prove that `step` and `dispatch` compute it. -/

/-- Whether the loop body calls the callback of a record in the state `l`. -/
def fires (key : Key) (l : Listener) : Bool :=
  match l.missing with
  | some m => m.contains key && (m.filter (fun k => k != key)).isEmpty
  | none => l.keys.contains key

/-- The record after the loop body has visited it. -/
def visited (key : Key) (l : Listener) : Listener :=
  { l with
    missing := l.missing.map (fun m => m.filter (fun k => k != key)),
    calls := if fires key l then l.calls.dec else l.calls }

/-- The log entries one visit of record `r` makes. -/
def firedEvents (a : Nat) (key : Key) (w : World) (r : Nat) : List Event :=
  match (w.heap r).cb with
  | .user id =>
    if fires key (w.heap r) then [.cb id (getValues (w.atoms a).props (w.heap r).keys)] else []
  | .forward _ _ => []

/-- One turn of the loop for a record with a user callback. -/
def stepU (a : Nat) (key : Key) (w : World) (r : Nat) : World :=
  let heap1 := Function.update w.heap r (visited key (w.heap r))
  { w with
    heap := heap1,
    log := w.log ++ firedEvents a key w r,
    atoms := Function.update w.atoms a
      { w.atoms a with
        listeners :=
          if (visited key (w.heap r)).calls.exhausted then
            removeListener heap1 (w.atoms a).listeners
          else (w.atoms a).listeners } }

/-- A record whose callback is a user function. -/
def isUser (l : Listener) : Bool :=
  match l.cb with
  | .user _ => true
  | .forward _ _ => false

/-- The condition under which `performSet` notifies: the key is new, or the value
differs from the old one, or it is an object that is not on `objStack`. -/
def dispatches (w : World) (a : Nat) (key : Key) (value : Value) : Bool :=
  !hasOwn (w.atoms a).props key || !strictEq (lookup (w.atoms a).props key) value ||
    (isObject value && !inArray w.objStack value)

/-- `objStack.push(value)` when the value is an object. -/
def pushObj (value : Value) (w : World) : World :=
  if isObject value then { w with objStack := w.objStack ++ [value] } else w

/-- `objStack.pop()` when the value is an object. -/
def popObj (value : Value) (w : World) : World :=
  if isObject value then { w with objStack := w.objStack.dropLast } else w

/-- `if (config.onChange) config.onChange()` for the configuration object `cfg`. -/
def hookU (cfg : Nat) (w : World) : World :=
  match (w.configs cfg).onChange with
  | some h => w.emit (.hook h)
  | none => w

/-- `props[key] = value` on instance `a`. -/
def assignW (w : World) (a : Nat) (key : Key) (value : Value) : World :=
  w.updAtom a (fun s => { s with props := assign s.props key value })

/-- `delete nucleus.needs[key]` on instance `a`. -/
def clearNeed (w : World) (a : Nat) (key : Key) : World :=
  w.updAtom a (fun s => { s with needs := s.needs.filter (fun k => k != key) })

/-- The loop of `performSet` when every record has a user callback. -/
def passU (w : World) (a : Nat) (key : Key) (value : Value) : World :=
  (w.atoms a).listeners.reverse.foldl (stepU a key) (pushObj value (assignW w a key value))

/-- The world after `performSet` on a live instance whose records all have user
callbacks. -/
def commitU (w : World) (a : Nat) (key : Key) (value : Value) : World :=
  if dispatches w a key value then
    hookU (w.atoms a).cfg (popObj value (clearNeed (passU w a key value) a key))
  else assignW w a key value

/-- Everything a dispatch pass on instance `a` leaves alone. -/
structure Frame (a : Nat) (w w1 : World) : Prop where
  others : ∀ b, b ≠ a → w1.atoms b = w.atoms b
  props : (w1.atoms a).props = (w.atoms a).props
  needs : (w1.atoms a).needs = (w.atoms a).needs
  providers : (w1.atoms a).providers = (w.atoms a).providers
  cfg : (w1.atoms a).cfg = (w.atoms a).cfg
  q : (w1.atoms a).q = (w.atoms a).q
  destroyed : (w1.atoms a).destroyed = (w.atoms a).destroyed
  configs : w1.configs = w.configs
  nextRec : w1.nextRec = w.nextRec
  objStack : w1.objStack = w.objStack
  cells : w1.cells = w.cells
  pendings : w1.pendings = w.pendings
  cb : ∀ r, (w1.heap r).cb = (w.heap r).cb
  keys : ∀ r, (w1.heap r).keys = (w.heap r).keys

/-! ## Registries as the interface leaves them, and what is observed of a run -/

/-- The registry of instance `a` is well formed: no record is listed twice, every
record was allocated, has a user callback and has budget left. -/
def RegWF (w : World) (a : Nat) : Prop :=
  (w.atoms a).listeners.Nodup ∧
    ∀ r ∈ (w.atoms a).listeners,
      isUser (w.heap r) = true ∧ (w.heap r).calls.exhausted = false ∧ r < w.nextRec

/-- The argument lists with which the user callback `c` was called, in order. -/
def cbArgs (c : Nat) (log : List Event) : List (List Value) :=
  log.filterMap (fun e =>
    match e with
    | .cb id args => if id = c then some args else Option.none
    | _ => Option.none)

/-- Whether every key of `L` is present on instance `a`. -/
def allPresent (w : World) (a : Nat) (L : List Key) : Bool :=
  L.all (hasOwn (w.atoms a).props)

/-- A sequence of `set(key, value)` calls on instance `a`, one after the other;
`none` when one of them does not return. -/
def runSets (fuel : Nat) (a : Nat) : World → List (Key × Value) → Option World
  | w, [] => some w
  | w, (k, v) :: ss =>
    match (set fuel w a k v).world? with
    | some w1 => runSets fuel a w1 ss
    | Option.none => Option.none

/-- The sample world after `set('a', 1)` on instance 0. -/
def sampleA : World := commitU sampleWorld 0 "a" (.num 1)

/-- Whether the gate lets `set(key, value)` on instance `a` reach `performSet` at once. -/
def commits (w : World) (a : Nat) (key : Key) (value : Value) : Bool :=
  match gate (w.configs (w.atoms a).cfg) key value with
  | .openPlain => true
  | .openPromise => true
  | _ => false

/-- The world a `set(key, value)` leaves on a live instance whose records all have
user callbacks. -/
def afterSet (w : World) (a : Nat) (key : Key) (value : Value) : World :=
  match gate (w.configs (w.atoms a).cfg) key value with
  | .openPlain => commitU w a key value
  | .openPromise => commitU w a key value
  | .wait promises => { w with pendings := w.pendings ++ [⟨a, key, value, promises⟩] }
  | _ => w

/-- The state of a `once` registration `r0` for the keys `L` and the callback `c`
on instance `a`: either some key of `L` is absent and the record waits for exactly
the absent keys, with its budget of 1, or all keys are present and the record and
the callback are gone from the registry. -/
def OnceInv (a r0 c : Nat) (L : List Key) (w : World) : Prop :=
  (w.atoms a).destroyed = false ∧ RegWF w a ∧
    ((allPresent w a L = false ∧ r0 ∈ (w.atoms a).listeners ∧
        (∃ m, w.heap r0 = ⟨L, .user c, .fin 1, some m⟩ ∧
          ∀ k, k ∈ m ↔ k ∈ L ∧ hasOwn (w.atoms a).props k = false) ∧
        ∀ r ∈ (w.atoms a).listeners, r ≠ r0 → (w.heap r).cb ≠ .user c) ∨
     (allPresent w a L = true ∧ r0 ∉ (w.atoms a).listeners ∧
        ∀ r ∈ (w.atoms a).listeners, (w.heap r).cb ≠ .user c))

/-- The state of an `on` registration `r0` for the keys `L` and the callback `c`. -/
def OnInv (a r0 c : Nat) (L : List Key) (w : World) : Prop :=
  (w.atoms a).destroyed = false ∧ RegWF w a ∧ r0 ∈ (w.atoms a).listeners ∧
    w.heap r0 = ⟨L, .user c, .inf, Option.none⟩ ∧
    ∀ r ∈ (w.atoms a).listeners, r ≠ r0 → (w.heap r).cb ≠ .user c

/-- No record of instance `a` has the callback `c`. -/
def NoCbInv (a c : Nat) (w : World) : Prop :=
  (w.atoms a).destroyed = false ∧ RegWF w a ∧
    ∀ r ∈ (w.atoms a).listeners, (w.heap r).cb ≠ .user c

/-- How many times the producer `id` was called. -/
def producerCalls (id : Nat) (log : List Event) : Nat :=
  log.countP (fun e =>
    match e with
    | .producer i _ => i == id
    | _ => false)

/-- The world in which the wrapper `cell` has run. -/
def markRan (w : World) (cell : Nat) (c : Cell) : World :=
  { w with cells := w.cells.set cell { c with ran := true } }

/-- The world in which `provide` has made the wrapper for `key` and called the
producer. -/
def provided (w : World) (a : Nat) (key : Key) (provider : Producer) : World :=
  ({ w with cells := w.cells ++ [Cell.mk (.setKey a key) false] }).emit
    (.producer provider.id w.cells.length)

/-- `providers[x] = P` on instance `a`. -/
def storeProvider (w : World) (a : Nat) (x : Key) (P : Producer) : World :=
  w.updAtom a (fun s => { s with providers := s.providers ++ [(x, P)] })

/-- `delete providers[x]` on instance `a`. -/
def dropProvider (w : World) (a : Nat) (x : Key) : World :=
  w.updAtom a (fun s => { s with providers := s.providers.filter (fun p => p.1 != x) })

/-! ## Runs of the queue -/

/-- What happens to the queue of an instance: a call `chain(tasks...)`, or a call
of the completion callback handed to the `i`-th task started during the run. -/
inductive QEvent where
  | chain (tasks : List Nat)
  | done (i : Nat) (args : List Value)
  deriving DecidableEq, Repr

/-- A run of queue events on instance `a`; `base` is the number of wrappers that
existed before the run, so that the completion callback of the `i`-th task started
during the run is the wrapper `base + i`. -/
def runQ (a base : Nat) : World → List QEvent → World
  | w, [] => w
  | w, .chain tasks :: evs => runQ a base (me.chain w a tasks) evs
  | w, .done i args :: evs =>
    match callDone 0 w (base + i) args with
    | .ok w1 _ => runQ a base w1 evs
    | _ => runQ a base w evs

/-- The tasks handed to `chain` during a run, in order. -/
def enqueued : List QEvent → List Nat
  | [] => []
  | .chain tasks :: evs => tasks ++ enqueued evs
  | .done _ _ :: evs => enqueued evs

/-- The tasks that were started, in order. -/
def started (log : List Event) : List Nat :=
  log.filterMap (fun e =>
    match e with
    | .task id _ _ => some id
    | _ => Option.none)

/-- The state of the queue of instance `a` after `enq` was enqueued and `n` tasks
were started, in a run that began with `base` wrappers and the started tasks `b0`:
the started tasks are the first `n` enqueued ones, the others wait in order, each
started task has its wrapper, every wrapper but the newest has run, and the newest
has run exactly when nothing is pending. -/
structure QInv (a base : Nat) (b0 enq : List Nat) (n : Nat) (w : World) : Prop where
  live : (w.atoms a).destroyed = false
  le : n ≤ enq.length
  order : started w.log = b0 ++ enq.take n
  items : (w.atoms a).q.items = enq.drop n
  next : (w.atoms a).q.next = Option.none
  len : w.cells.length = base + n
  cells : ∀ i, i < n →
    w.cells[base + i]? = some ⟨.doNext a, decide (i + 1 < n) || (w.atoms a).q.pending.isNone⟩
  idle : (w.atoms a).q.pending = Option.none → n = enq.length
  busy : n = 0 → (w.atoms a).q.pending = Option.none

/-- The state in which `doNext` is entered: every completion callback handed out
so far has run. -/
structure QReady (a base : Nat) (b0 enq : List Nat) (n : Nat) (w : World) : Prop where
  live : (w.atoms a).destroyed = false
  le : n ≤ enq.length
  order : started w.log = b0 ++ enq.take n
  items : (w.atoms a).q.items = enq.drop n
  next : (w.atoms a).q.next = Option.none
  len : w.cells.length = base + n
  cells : ∀ i, i < n → w.cells[base + i]? = some ⟨.doNext a, true⟩

/-! ## Entanglement -/

/-- Instances `X` and `Y` are entangled on the keys `kx` and `ky`: the newest
record of `X` is the closure that forwards `kx` to `ky` of `Y`, the newest record of
`Y` is the closure that forwards `ky` to `kx` of `X`, all other records of both
have user callbacks, both instances are live and neither has validators. -/
structure Entangled (w : World) (X Y : Nat) (kx ky : Key) (rX rY : Nat)
    (lsX lsY : List Nat) : Prop where
  ne : X ≠ Y
  liveX : (w.atoms X).destroyed = false
  liveY : (w.atoms Y).destroyed = false
  valX : (w.configs (w.atoms X).cfg).validation = Option.none
  valY : (w.configs (w.atoms Y).cfg).validation = Option.none
  lX : (w.atoms X).listeners = rX :: lsX
  lY : (w.atoms Y).listeners = rY :: lsY
  recX : w.heap rX = ⟨[kx], .forward Y ky, .inf, Option.none⟩
  recY : w.heap rY = ⟨[ky], .forward X kx, .inf, Option.none⟩
  userX : ∀ r ∈ lsX, isUser (w.heap r) = true
  userY : ∀ r ∈ lsY, isUser (w.heap r) = true

/-- The call `X.set(kx, v)` returns and afterwards `Y.get(ky)` is `v`. -/
def SetReaches (w : World) (X Y : Nat) (kx ky : Key) (v : Value) : Prop :=
  ∃ fuel w1 r, set fuel w X kx v = .ok w1 r ∧ me.get w1 Y ky = some v

/-- Two fresh instances without configuration, entangled on the key `k`. -/
def sampleEntangled : World :=
  addListener
    (addListener (World.init (fun _ => Config.none)) 0
      { keys := ["k"], cb := .forward 1 "k", calls := .inf, missing := Option.none })
    1 { keys := ["k"], cb := .forward 0 "k", calls := .inf, missing := Option.none }

/-! ## What a cascade of forwarded sets can do -/

/-- The forwarding closures are registered the way `entangle` registers them: on
one key, without a missing set. -/
def FwdWF (w : World) : Prop :=
  ∀ r t tk, (w.heap r).cb = .forward t tk →
    (∃ k, (w.heap r).keys = [k]) ∧ (w.heap r).missing = Option.none

/-- The effect of a `set` of the value `v`, with everything it triggers, on the
property maps: each key of each instance keeps its state or ends up holding `v`;
no instance is destroyed or reconfigured, and the records keep their callback and
keys. -/
structure Eff (v : Value) (w w1 : World) : Prop where
  live : ∀ b, (w1.atoms b).destroyed = (w.atoms b).destroyed
  cfg : ∀ b, (w1.atoms b).cfg = (w.atoms b).cfg
  configs : w1.configs = w.configs
  cb : ∀ r, (w1.heap r).cb = (w.heap r).cb
  keys : ∀ r, (w1.heap r).keys = (w.heap r).keys
  missing : ∀ r, (w.heap r).missing = Option.none → (w1.heap r).missing = Option.none
  keep : ∀ b k,
    (hasOwn (w1.atoms b).props k = true ∧ lookup (w1.atoms b).props k = v) ∨
    (hasOwn (w1.atoms b).props k = hasOwn (w.atoms b).props k ∧
      lookup (w1.atoms b).props k = lookup (w.atoms b).props k)

/-- The `set` that callbacks reach only has effects in the sense of `Eff`. -/
def SetEff (v : Value) (setF : World → Nat → Key → Value → Res) : Prop :=
  ∀ W b k W1, FwdWF W → (setF W b k v).world? = some W1 → Eff v W W1

/-- The forwarding closures write ordinary keys: the key of the other instance
that a closure made by `entangle` sets is not a name of `Object.prototype`. -/
def FwdOrdinary (w : World) : Prop :=
  ∀ r t tk, (w.heap r).cb = .forward t tk → ordinaryKey tk = true

/-! ## Claims about a destroyed instance -/

/-- C11 as stated, for one state, key, value and callback: after `destroy()` each
of `get(key)`, `set(key, value)` and `on(key, cb)` returns, and the property map is
empty afterwards. -/
def InertAfterDestroy (fuel : Nat) (w : World) (a : Nat) (key : Key) (value : Value)
    (cb : Cb) : Prop :=
  ∀ w1 r, me.destroy w a = .ok w1 r →
    (∃ v, me.get w1 a key = some v) ∧
    (∃ w2 r2, me.set fuel w1 a (.key key) value = .ok w2 r2 ∧ (w2.atoms a).props = []) ∧
    (∃ w3 r3, me.bind w1 a (.key key) cb = .ok w3 r3 ∧ (w3.atoms a).props = [])

/-! ## Samples for the list forms of `get` -/

/-- A fresh instance 0 after `set('x', 1)` and `set('y', 2)`. -/
def sampleXY : World :=
  assignW (assignW (World.init (fun _ => Config.none)) 0 "x" (.num 1)) 0 "y" (.num 2)

/-! ## The order of notification -/

/-- The log entry of the hook `onChange`, when there is one. -/
def hookLog (o : Option Nat) : List Event :=
  match o with
  | some h => [.hook h]
  | Option.none => []

/-- The user callbacks a log records as called, in order. -/
def calledCbs (log : List Event) : List Nat :=
  log.filterMap (fun e =>
    match e with
    | .cb id _ => some id
    | _ => Option.none)

/-- The callbacks of the records of instance `a` that fire for `key`, in the order
of the registry.  Registration puts a record in front (`listeners.unshift`), so
the most recently registered record comes first. -/
def firingCbs (w : World) (a : Nat) (key : Key) : List Nat :=
  ((w.atoms a).listeners.filter (fun r => fires key (w.heap r))).filterMap (fun r =>
    match (w.heap r).cb with
    | .user id => some id
    | .forward _ _ => Option.none)

/-- C13 as stated, for one `set`: when it notifies, the callbacks it calls are
those of the records that fire, the most recently registered first. -/
def NotifiesNewestFirst (fuel : Nat) (w : World) (a : Nat) (K : Key) (V : Value) : Prop :=
  ∀ w1 r, set fuel w a K V = .ok w1 r → commits w a K V = true →
    dispatches w a K V = true →
    calledCbs (w1.log.drop w.log.length) = firingCbs w a K

/-- The sample world after a second `on('a', ...)`, with the user callback 8. -/
def sampleTwo : World :=
  addListener sampleWorld 0
    { keys := ["a"], cb := .user 8, calls := .inf, missing := Option.none }

/-! ## Matching of key lists -/

/-- Whether two lists hold the same keys. -/
def sameKeys (A B : List Key) : Bool :=
  A.all (fun k => B.contains k) && B.all (fun k => A.contains k)

/-- A key that is not the empty string and has no comma in it. -/
def plainKey (k : Key) : Bool :=
  k != "" && !k.data.contains ','

/-- A list of distinct plain keys. -/
def plainKeys (ks : List Key) : Prop :=
  ks.Nodup ∧ ∀ k ∈ ks, plainKey k = true

/-- C14 as stated, for `keysMatch`: it is true exactly when both arguments hold
the same keys. -/
def KeysMatchIsSameKeys (A B : KeyOrList) : Prop :=
  keysMatch A B = sameKeys (toArray A) (toArray B)

/-- The registry C14 says `off(L, cb)` leaves: the records whose callback is `cb`
and whose keys are those of `L` are gone, the others stay in their order. -/
def offSpec (w : World) (a : Nat) (L : KeyOrList) (cb : Cb) : List Nat :=
  (w.atoms a).listeners.filter (fun r =>
    !((w.heap r).cb == cb && sameKeys (w.heap r).keys (toArray L)))

/-- C14 as stated, for one registry, one `L` and one callback. -/
def OffRemovesSameKeys (w : World) (a : Nat) (L : KeyOrList) (cb : Cb) : Prop :=
  ∃ w1 r, me.off w a (some L) cb = .ok w1 r ∧ (w1.atoms a).listeners = offSpec w a L cb

/-- A fresh instance 0 with one persistent listener registered for `['a', 'a']`,
with the user callback 7. -/
def sampleDup : World :=
  addListener (World.init (fun _ => Config.none)) 0
    { keys := ["a", "a"], cb := .user 7, calls := .inf, missing := Option.none }

/-! ## Needs -/

/-- `needs[K] = true` on instance `a`. -/
def markNeed (w : World) (a : Nat) (K : Key) : World :=
  w.updAtom a (fun s =>
    { s with needs := if s.needs.contains K then s.needs else s.needs ++ [K] })

/-! ## The instance the factory works on -/

/-- The world in which the factory runs the initial set: the slot `a` holds a
fresh instance with the configuration object `cfg`, from which `onChange` was
deleted. -/
def born (w : World) (a cfg : Nat) : World :=
  { w with
    atoms := Function.update w.atoms a (AtomSt.fresh cfg),
    configs := Function.update w.configs cfg { w.configs cfg with onChange := Option.none } }

/-! ## Counting hook calls -/

/-- How many calls of an `onChange` hook a log records. -/
def hookCount (log : List Event) : Nat :=
  log.countP (fun e =>
    match e with
    | .hook _ => true
    | _ => false)

/-! ## The registry after a set -/

/-- Whether `set(key, value)` on instance `a` reaches `performSet` and notifies. -/
def notifies (w : World) (a : Nat) (key : Key) (value : Value) : Bool :=
  commits w a key value && dispatches w a key value

/-- Whether the dispatch pass for `key` removes a record in the state `l`: the
record fires and this call is the last of its budget. -/
def spent (key : Key) (l : Listener) : Bool :=
  fires key l && decide (l.calls = .fin 1)

/-- The world `sampleTwo` after `next('a', ...)` with the user callback 9: two
persistent records and a one-shot record on the key `a`. -/
def sampleNext : World :=
  addListener sampleTwo 0
    { keys := ["a"], cb := .user 9, calls := .fin 1, missing := Option.none }

/-! ## Instances that share a configuration -/

/-- Two fresh instances, 0 and 1, made by the same `setup(sampleConfig)`: both
have the configuration object 0. -/
def sampleShared : World :=
  { World.init (fun _ => sampleConfig) with
    atoms := Function.update (World.init (fun _ => sampleConfig)).atoms 1 (AtomSt.fresh 0) }

/-- The world `destroy()` on the live instance `a` leaves. -/
def wrecked (w : World) (a : Nat) : World :=
  ({ w with configs := Function.update w.configs (w.atoms a).cfg Config.none } : World).updAtom a
    (fun s =>
      { s with props := [], needs := [], providers := [], listeners := [],
               q := { items := [], pending := Option.none, next := Option.none,
                      args := Option.none },
               destroyed := true })

/-! ## Reachable registries -/

/-- An operation of the interface on listeners and properties, with a user
callback: `bind` (`on`), `next`, `once`, `off` and `set`. -/
inductive Op where
  | bind (kl : KeyOrList) (c : Nat)
  | next (kl : KeyOrList) (c : Nat)
  | once (kl : KeyOrList) (c : Nat)
  | off (kl : Option KeyOrList) (c : Nat)
  | set (k : Key) (v : Value)
  deriving DecidableEq, Repr

/-- Running one operation on instance `a`. -/
def Op.run (fuel : Nat) (w : World) (a : Nat) : Op → Res
  | .bind kl c => me.bind w a kl (.user c)
  | .next kl c => me.next w a kl (.user c)
  | .once kl c => me.once fuel w a kl (.user c)
  | .off kl c => me.off w a kl (.user c)
  | .set k v => Atom.set fuel w a k v

/-- Running a sequence of operations on instance `a`, one after the other; `none`
when one of them does not end. -/
def runOps (fuel : Nat) (a : Nat) : World → List Op → Option World
  | w, [] => some w
  | w, op :: ops =>
    match (op.run fuel w a).world? with
    | some w1 => runOps fuel a w1 ops
    | Option.none => Option.none

/-! # Theorems -/

/-! ## Property-map lemmas -/

/-- The key `__proto__`, which an assignment to a plain object does not store, and
the other names of `Object.prototype` are not ordinary; a name such as `a` is. -/
theorem ordinaryKey_samples :
    ordinaryKey "__proto__" = false ∧ ordinaryKey "valueOf" = false ∧
      ordinaryKey "constructor" = false ∧ ordinaryKey "a" = true := by
  decide

theorem assign_cons (p : Key × Value) (ps : List (Key × Value)) (k : Key) (v : Value) :
    assign (p :: ps) k v = if p.1 == k then (k, v) :: ps else p :: assign ps k v := rfl

theorem hasOwn_cons (p : Key × Value) (ps : List (Key × Value)) (k : Key) :
    hasOwn (p :: ps) k = (p.1 == k || hasOwn ps k) := rfl

theorem lookup_cons (p : Key × Value) (ps : List (Key × Value)) (k : Key) :
    lookup (p :: ps) k = if p.1 == k then p.2 else lookup ps k := by
  by_cases h : (p.1 == k) = true <;> simp [lookup, List.find?_cons, h]

theorem hasOwn_assign_same (ps : List (Key × Value)) (k : Key) (v : Value) :
    hasOwn (assign ps k v) k = true := by
  induction ps with
  | nil => simp [assign, hasOwn]
  | cons p ps ih =>
    rw [assign_cons]
    by_cases h : (p.1 == k) = true
    · rw [if_pos h]; simp [hasOwn]
    · rw [if_neg h, hasOwn_cons, ih]; simp

theorem lookup_assign_same (ps : List (Key × Value)) (k : Key) (v : Value) :
    lookup (assign ps k v) k = v := by
  induction ps with
  | nil => simp [assign, lookup]
  | cons p ps ih =>
    rw [assign_cons]
    by_cases h : (p.1 == k) = true
    · rw [if_pos h]; simp [lookup]
    · rw [if_neg h, lookup_cons, if_neg h, ih]

theorem hasOwn_assign_ne (ps : List (Key × Value)) (k k' : Key) (v : Value) (h : k' ≠ k) :
    hasOwn (assign ps k v) k' = hasOwn ps k' := by
  induction ps with
  | nil => simp [assign, hasOwn, Ne.symm h]
  | cons p ps ih =>
    rw [assign_cons]
    by_cases hp : (p.1 == k) = true
    · have hpk : p.1 = k := by simpa using hp
      rw [if_pos hp, hasOwn_cons, hasOwn_cons, hpk]
    · rw [if_neg hp, hasOwn_cons, hasOwn_cons, ih]

theorem lookup_assign_ne (ps : List (Key × Value)) (k k' : Key) (v : Value) (h : k' ≠ k) :
    lookup (assign ps k v) k' = lookup ps k' := by
  induction ps with
  | nil => simp [assign, lookup, Ne.symm h]
  | cons p ps ih =>
    rw [assign_cons]
    by_cases hp : (p.1 == k) = true
    · have hpk : p.1 = k := by simpa using hp
      have hne : ¬ (k == k') = true := by simpa using Ne.symm h
      rw [if_pos hp, lookup_cons, lookup_cons, hpk]
      simp only [hne]
      rfl
    · rw [if_neg hp, lookup_cons, lookup_cons, ih]

/-- Writing the value a key already holds leaves the map as it is. -/
theorem assign_same_value (ps : List (Key × Value)) (k : Key) (v : Value)
    (hhas : hasOwn ps k = true) (hv : lookup ps k = v) : assign ps k v = ps := by
  induction ps with
  | nil => simp [hasOwn] at hhas
  | cons p ps ih =>
    rw [assign_cons]
    by_cases hp : (p.1 == k) = true
    · have hpk : p.1 = k := by simpa using hp
      rw [lookup_cons, if_pos hp] at hv
      rw [if_pos hp, ← hpk, ← hv]
    · rw [hasOwn_cons] at hhas
      rw [lookup_cons, if_neg hp] at hv
      have hh : hasOwn ps k = true := by simpa [hp] using hhas
      rw [if_neg hp, ih hh hv]

theorem strictEq_eq {a b : Value} (h : strictEq a b = true) : a = b := by
  cases a <;> cases b <;> simp_all [strictEq]

theorem strictEq_self {a : Value} (h : a ≠ .nan) : strictEq a a = true := by
  cases a <;> simp_all [strictEq]


/-! ## Dispatch to user callbacks -/

theorem updAtom_self_eta (atoms : Nat → AtomSt) (a : Nat) :
    Function.update atoms a
      { props := (atoms a).props, needs := (atoms a).needs, providers := (atoms a).providers,
        listeners := (atoms a).listeners, cfg := (atoms a).cfg, q := (atoms a).q,
        destroyed := (atoms a).destroyed } = atoms :=
  Function.update_eq_self a atoms

theorem step_user (setF : World → Nat → Key → Value → Res) (a : Nat) (key : Key) (w : World)
    (r : Nat) (hu : isUser (w.heap r) = true) :
    step setF a key w r = .ok (stepU a key w r) .undefined := by
  obtain ⟨atoms, configs, heap, nextRec, objStack, cells, pendings, log⟩ := w
  simp only at hu
  rcases hl : heap r with ⟨keys, cb, calls, missing⟩
  rw [hl] at hu
  cases cb with
  | forward t k => simp [isUser] at hu
  | user id =>
    cases missing with
    | none =>
      by_cases hk : key ∈ keys
      · by_cases hx : calls.dec.exhausted = true <;>
        simp [step, stepU, fire, invoke, fires, visited, firedEvents, hl, hk, hx, World.updRec,
          World.updAtom, World.emit, updAtom_self_eta]
      · have hself : Function.update heap r ⟨keys, .user id, calls, none⟩ = heap := by
          rw [← hl]; exact Function.update_eq_self r heap
        by_cases hx : calls.exhausted = true <;>
        simp [step, stepU, fire, invoke, fires, visited, firedEvents, hl, hk, hx, World.updRec,
          World.updAtom, World.emit, updAtom_self_eta, hself]
    | some m =>
      by_cases hk : key ∈ m
      · by_cases he : (m.filter (fun k => k != key)).isEmpty = true
        · by_cases hx : calls.dec.exhausted = true <;>
          simp [step, stepU, fire, invoke, fires, visited, firedEvents, hl, hk, he, hx,
            World.updRec, World.updAtom, World.emit, updAtom_self_eta]
        · by_cases hx : calls.exhausted = true <;>
          simp [step, stepU, fire, invoke, fires, visited, firedEvents, hl, hk, he, hx,
            World.updRec, World.updAtom, World.emit, updAtom_self_eta]
      · have hf : m.filter (fun k => k != key) = m := by
          rw [List.filter_eq_self]
          intro x hxm
          have : x ≠ key := fun h => hk (h ▸ hxm)
          simpa using this
        have hself : Function.update heap r ⟨keys, .user id, calls, some m⟩ = heap := by
          rw [← hl]; exact Function.update_eq_self r heap
        by_cases hx : calls.exhausted = true <;>
        simp [step, stepU, fire, invoke, fires, visited, firedEvents, hl, hk, hx, World.updRec,
          World.updAtom, World.emit, updAtom_self_eta, hself, hf]


theorem stepU_cb (a : Nat) (key : Key) (w : World) (r x : Nat) :
    ((stepU a key w r).heap x).cb = (w.heap x).cb := by
  by_cases h : x = r
  · subst h; simp [stepU, visited]
  · simp [stepU, Function.update_noteq h]

theorem stepU_keys (a : Nat) (key : Key) (w : World) (r x : Nat) :
    ((stepU a key w r).heap x).keys = (w.heap x).keys := by
  by_cases h : x = r
  · subst h; simp [stepU, visited]
  · simp [stepU, Function.update_noteq h]

theorem frame_refl (a : Nat) (w : World) : Frame a w w := by
  constructor <;> intros <;> rfl

theorem frame_trans {a : Nat} {w w1 w2 : World} (h1 : Frame a w w1) (h2 : Frame a w1 w2) :
    Frame a w w2 := by
  constructor
  · intro b hb; rw [h2.others b hb, h1.others b hb]
  · rw [h2.props, h1.props]
  · rw [h2.needs, h1.needs]
  · rw [h2.providers, h1.providers]
  · rw [h2.cfg, h1.cfg]
  · rw [h2.q, h1.q]
  · rw [h2.destroyed, h1.destroyed]
  · rw [h2.configs, h1.configs]
  · rw [h2.nextRec, h1.nextRec]
  · rw [h2.objStack, h1.objStack]
  · rw [h2.cells, h1.cells]
  · rw [h2.pendings, h1.pendings]
  · intro r; rw [h2.cb, h1.cb]
  · intro r; rw [h2.keys, h1.keys]

theorem stepU_frame (a : Nat) (key : Key) (w : World) (r : Nat) :
    Frame a w (stepU a key w r) := by
  constructor
  · intro b hb; simp [stepU, Function.update_noteq hb]
  all_goals first
    | (intro x; exact stepU_cb a key w r x)
    | (intro x; exact stepU_keys a key w r x)
    | simp [stepU]

theorem foldl_stepU_frame (a : Nat) (key : Key) (rs : List Nat) (w : World) :
    Frame a w (rs.foldl (stepU a key) w) := by
  induction rs generalizing w with
  | nil => exact frame_refl a w
  | cons r rs ih => exact frame_trans (stepU_frame a key w r) (ih _)

/-- A dispatch pass over records with user callbacks is the fold of `stepU`. -/
theorem dispatch_user (setF : World → Nat → Key → Value → Res) (a : Nat) (key : Key)
    (rs : List Nat) (w : World) (hu : ∀ r ∈ rs, isUser (w.heap r) = true) :
    dispatch setF a key rs w = .ok (rs.foldl (stepU a key) w) .undefined := by
  induction rs generalizing w with
  | nil => rfl
  | cons r rs ih =>
    have h1 := step_user setF a key w r (hu r (List.mem_cons_self r rs))
    simp only [dispatch, h1, List.foldl_cons]
    apply ih
    intro x hx
    have := hu x (List.mem_cons_of_mem r hx)
    simpa [isUser, stepU_cb] using this

/-- On a live instance whose records all have user callbacks `performSet` returns
and leaves the world `commitU`. -/
theorem performSet_user (setF : World → Nat → Key → Value → Res) (w : World) (a : Nat)
    (key : Key) (value : Value) (hlive : (w.atoms a).destroyed = false)
    (hu : ∀ r ∈ (w.atoms a).listeners, isUser (w.heap r) = true) :
    performSet setF w a key value = .ok (commitU w a key value) .undefined := by
  unfold performSet commitU
  simp only [hlive, Bool.false_eq_true, if_false]
  by_cases hd : dispatches w a key value = true
  · have hd2 := hd
    unfold dispatches at hd2
    simp only [hd, hd2, if_true]
    rw [dispatch_user]
    · unfold hookU popObj clearNeed passU pushObj assignW
      dsimp only
      split <;> rename_i h <;> simp only [h]
    · intro r hr
      have hr2 := hu r (List.mem_reverse.mp hr)
      cases hv : isObject value <;> simpa [World.updAtom, hv] using hr2
  · have hd2 := hd
    unfold dispatches at hd2
    simp only [hd, hd2]
    simp [assignW]


/-! ## Projections of the stages of a commit -/

@[simp] theorem pushObj_atoms (v : Value) (w : World) : (pushObj v w).atoms = w.atoms := by
  unfold pushObj; split <;> rfl
@[simp] theorem pushObj_heap (v : Value) (w : World) : (pushObj v w).heap = w.heap := by
  unfold pushObj; split <;> rfl
@[simp] theorem pushObj_log (v : Value) (w : World) : (pushObj v w).log = w.log := by
  unfold pushObj; split <;> rfl
@[simp] theorem pushObj_configs (v : Value) (w : World) : (pushObj v w).configs = w.configs := by
  unfold pushObj; split <;> rfl
@[simp] theorem pushObj_cells (v : Value) (w : World) : (pushObj v w).cells = w.cells := by
  unfold pushObj; split <;> rfl
@[simp] theorem pushObj_pendings (v : Value) (w : World) :
    (pushObj v w).pendings = w.pendings := by
  unfold pushObj; split <;> rfl
@[simp] theorem pushObj_nextRec (v : Value) (w : World) : (pushObj v w).nextRec = w.nextRec := by
  unfold pushObj; split <;> rfl

@[simp] theorem popObj_atoms (v : Value) (w : World) : (popObj v w).atoms = w.atoms := by
  unfold popObj; split <;> rfl
@[simp] theorem popObj_heap (v : Value) (w : World) : (popObj v w).heap = w.heap := by
  unfold popObj; split <;> rfl
@[simp] theorem popObj_log (v : Value) (w : World) : (popObj v w).log = w.log := by
  unfold popObj; split <;> rfl
@[simp] theorem popObj_configs (v : Value) (w : World) : (popObj v w).configs = w.configs := by
  unfold popObj; split <;> rfl
@[simp] theorem popObj_cells (v : Value) (w : World) : (popObj v w).cells = w.cells := by
  unfold popObj; split <;> rfl
@[simp] theorem popObj_pendings (v : Value) (w : World) :
    (popObj v w).pendings = w.pendings := by
  unfold popObj; split <;> rfl
@[simp] theorem popObj_nextRec (v : Value) (w : World) : (popObj v w).nextRec = w.nextRec := by
  unfold popObj; split <;> rfl

@[simp] theorem hookU_atoms (c : Nat) (w : World) : (hookU c w).atoms = w.atoms := by
  unfold hookU; split <;> rfl
@[simp] theorem hookU_heap (c : Nat) (w : World) : (hookU c w).heap = w.heap := by
  unfold hookU; split <;> rfl
@[simp] theorem hookU_configs (c : Nat) (w : World) : (hookU c w).configs = w.configs := by
  unfold hookU; split <;> rfl
@[simp] theorem hookU_objStack (c : Nat) (w : World) : (hookU c w).objStack = w.objStack := by
  unfold hookU; split <;> rfl
@[simp] theorem hookU_cells (c : Nat) (w : World) : (hookU c w).cells = w.cells := by
  unfold hookU; split <;> rfl
@[simp] theorem hookU_pendings (c : Nat) (w : World) : (hookU c w).pendings = w.pendings := by
  unfold hookU; split <;> rfl
@[simp] theorem hookU_nextRec (c : Nat) (w : World) : (hookU c w).nextRec = w.nextRec := by
  unfold hookU; split <;> rfl

@[simp] theorem updAtom_same (w : World) (a : Nat) (f : AtomSt → AtomSt) :
    (w.updAtom a f).atoms a = f (w.atoms a) := by
  simp [World.updAtom]
theorem updAtom_other (w : World) (a b : Nat) (f : AtomSt → AtomSt) (h : b ≠ a) :
    (w.updAtom a f).atoms b = w.atoms b := by
  simp [World.updAtom, Function.update_noteq h]
@[simp] theorem updAtom_heap (w : World) (a : Nat) (f : AtomSt → AtomSt) :
    (w.updAtom a f).heap = w.heap := rfl
@[simp] theorem updAtom_log (w : World) (a : Nat) (f : AtomSt → AtomSt) :
    (w.updAtom a f).log = w.log := rfl
@[simp] theorem updAtom_configs (w : World) (a : Nat) (f : AtomSt → AtomSt) :
    (w.updAtom a f).configs = w.configs := rfl
@[simp] theorem updAtom_objStack (w : World) (a : Nat) (f : AtomSt → AtomSt) :
    (w.updAtom a f).objStack = w.objStack := rfl
@[simp] theorem updAtom_cells (w : World) (a : Nat) (f : AtomSt → AtomSt) :
    (w.updAtom a f).cells = w.cells := rfl
@[simp] theorem updAtom_pendings (w : World) (a : Nat) (f : AtomSt → AtomSt) :
    (w.updAtom a f).pendings = w.pendings := rfl
@[simp] theorem updAtom_nextRec (w : World) (a : Nat) (f : AtomSt → AtomSt) :
    (w.updAtom a f).nextRec = w.nextRec := rfl

theorem passU_frame (w : World) (a : Nat) (key : Key) (value : Value) :
    Frame a (pushObj value (assignW w a key value)) (passU w a key value) :=
  foldl_stepU_frame a key _ _

theorem commitU_props (w : World) (a : Nat) (key : Key) (value : Value) :
    ((commitU w a key value).atoms a).props = assign (w.atoms a).props key value := by
  unfold commitU
  split
  · simp only [hookU_atoms, popObj_atoms, clearNeed, updAtom_same, (passU_frame w a key value).props,
      pushObj_atoms, assignW]
  · simp only [assignW, updAtom_same]

theorem commitU_destroyed (w : World) (a : Nat) (key : Key) (value : Value) :
    ((commitU w a key value).atoms a).destroyed = (w.atoms a).destroyed := by
  unfold commitU
  split
  · simp only [hookU_atoms, popObj_atoms, clearNeed, updAtom_same,
      (passU_frame w a key value).destroyed, pushObj_atoms, assignW]
  · simp only [assignW, updAtom_same]


/-! ## The gate -/

theorem findInvalid_all_true (value : Value) (vs : List (String × Validator))
    (ps : List (String × Settle)) (h : ∀ p ∈ vs, p.2 value = .bool true) :
    findInvalid value vs ps = some (none, ps) := by
  induction vs with
  | nil => rfl
  | cons p vs ih =>
    obtain ⟨name, v⟩ := p
    have hv : v value = .bool true := h (name, v) (List.mem_cons_self _ _)
    simp only [findInvalid, hv]
    exact ih (fun q hq => h q (List.mem_cons_of_mem _ hq))

/-- What `set` does on a live instance with user callbacks when the gate lets the
value through: no validators for the key, or validators that all return `true`. -/
theorem set_user_accepted (fuel : Nat) (w : World) (a : Nat) (key : Key) (value : Value)
    (hlive : (w.atoms a).destroyed = false)
    (hu : ∀ r ∈ (w.atoms a).listeners, isUser (w.heap r) = true)
    (hval : ∀ vs, (w.configs (w.atoms a).cfg).validation.bind (fun v => validationFor v key)
      = some vs → ∀ p ∈ vs, p.2 value = .bool true) :
    ∃ r, set (fuel + 1) w a key value = .ok (commitU w a key value) r := by
  simp only [set, setBody]
  cases hv : (w.configs (w.atoms a).cfg).validation.bind (fun v => validationFor v key) with
  | none =>
    simp only [performSet_user _ w a key value hlive hu]
    exact ⟨_, rfl⟩
  | some vs =>
    simp only [findInvalid_all_true value vs [] (hval vs hv), promisesLength, List.any_nil,
      Bool.false_eq_true, if_false, performSet_user _ w a key value hlive hu, inExecutor]
    exact ⟨_, rfl⟩


/-- C2 (defect): a validator whose name is the empty string returns `false` and the
value is written all the same, the promise is fulfilled; and when a validator
called `length` returned a promise before, the `false` of a later validator is
dropped and the value is written once that promise is fulfilled. -/
theorem C2_false_validator_not_rejected :
    (set 1 (World.init (fun _ => unnamedConfig)) 0 "n" (.num 1)).ret? = some .resolved ∧
    (set 1 (World.init (fun _ => unnamedConfig)) 0 "n" (.num 1)).get 0 "n" = some (.num 1) ∧
    (set 1 (World.init (fun _ => lengthConfig (.resolves (.bool true)))) 0 "n" (.num 1)).ret?
      = some .pending ∧
    ((set 1 (World.init (fun _ => lengthConfig (.resolves (.bool true)))) 0 "n"
      (.num 1)).andThen (settle 1)).get 0 "n" = some (.num 1) := by
  refine ⟨?_, ?_, ?_, ?_⟩ <;> decide

/-- C3 (defect): whatever the promise of the only validator of `n` does, rejecting
and resolving to `false` included, `set` writes the value at once and returns a
fulfilled promise. -/
theorem C3_async_validator_ignored (s : Settle) :
    (set 1 (World.init (fun _ => asyncConfig s)) 0 "n" (.num 1)).ret? = some .resolved ∧
    (set 1 (World.init (fun _ => asyncConfig s)) 0 "n" (.num 1)).get 0 "n" = some (.num 1) ∧
    (set 1 (World.init (fun _ => asyncConfig s)) 0 "n" (.num 1)).has 0 "n" = some true := by
  refine ⟨?_, ?_, ?_⟩ <;> rfl

/-- C4 (defect): the batch form on an instance without validators writes the first
key and stops: `b` is not set, and the promise is rejected. -/
theorem C4_batch_stops_after_first_key :
    (me.set 1 (World.init (fun _ => Config.none)) 0
      (.map [("a", .num 1), ("b", .num 2)]) .undefined).has 0 "a" = some true ∧
    (me.set 1 (World.init (fun _ => Config.none)) 0
      (.map [("a", .num 1), ("b", .num 2)]) .undefined).has 0 "b" = some false ∧
    (me.set 1 (World.init (fun _ => Config.none)) 0
      (.map [("a", .num 1), ("b", .num 2)]) .undefined).ret? = some .rejectedErr ∧
    (set 1 (World.init (fun _ => Config.none)) 0 "b" (.num 2)).has 0 "b" = some true := by
  refine ⟨?_, ?_, ?_, ?_⟩ <;> decide


theorem setBody_gate (setF : World → Nat → Key → Value → Res) (w : World) (a : Nat)
    (key : Key) (value : Value) :
    setBody setF w a key value =
      match gate (w.configs (w.atoms a).cfg) key value with
      | .openPlain =>
        (match performSet setF w a key value with
         | .ok w1 _ => .ok w1 .undefined
         | e => e)
      | .openPromise => inExecutor (performSet setF w a key value)
      | .reject name => .ok w (.rejected name)
      | .wait promises =>
        .ok { w with pendings := w.pendings ++ [⟨a, key, value, promises⟩] } .pending
      | .throws => .threw w := by
  unfold setBody gate
  dsimp only
  generalize (w.configs (w.atoms a).cfg).validation.bind (fun v => validationFor v key) = o
  cases o with
  | none => rfl
  | some vs =>
    dsimp only
    generalize findInvalid value vs [] = fi
    cases fi with
    | none => rfl
    | some res =>
      obtain ⟨err, ps⟩ := res
      dsimp only
      by_cases hl : promisesLength ps = true
      · rw [if_pos hl, if_pos hl]
      · rw [if_neg hl, if_neg hl]
        cases err with
        | none => rfl
        | some name =>
          dsimp only
          by_cases hn : (name != "") = true
          · rw [if_pos hn, if_pos hn]
          · rw [if_neg hn, if_neg hn]

/-- `set` on a live instance whose records all have user callbacks. -/
theorem set_user (fuel : Nat) (w : World) (a : Nat) (key : Key) (value : Value)
    (hlive : (w.atoms a).destroyed = false)
    (hu : ∀ r ∈ (w.atoms a).listeners, isUser (w.heap r) = true) :
    set (fuel + 1) w a key value =
      match gate (w.configs (w.atoms a).cfg) key value with
      | .openPlain => .ok (commitU w a key value) .undefined
      | .openPromise => .ok (commitU w a key value) .resolved
      | .reject name => .ok w (.rejected name)
      | .wait promises =>
        .ok { w with pendings := w.pendings ++ [⟨a, key, value, promises⟩] } .pending
      | .throws => .threw w := by
  simp only [set, setBody_gate, performSet_user _ w a key value hlive hu, inExecutor]


/-! ## What a commit keeps -/

theorem removeListener_sublist (heap : Nat → Listener) (ls : List Nat) :
    List.Sublist (removeListener heap ls) ls := by
  unfold removeListener
  have h := List.eraseP_sublist (p := fun r => (heap r).calls.exhausted) ls.reverse
  have h2 := List.reverse_sublist.mpr h
  simpa using h2

theorem stepU_listeners_sublist (a : Nat) (key : Key) (w : World) (r : Nat) :
    List.Sublist ((stepU a key w r).atoms a).listeners (w.atoms a).listeners := by
  simp only [stepU, Function.update_same]
  split
  · exact removeListener_sublist _ _
  · exact List.Sublist.refl _

theorem foldl_stepU_listeners_sublist (a : Nat) (key : Key) (rs : List Nat) (w : World) :
    List.Sublist ((rs.foldl (stepU a key) w).atoms a).listeners (w.atoms a).listeners := by
  induction rs generalizing w with
  | nil => exact List.Sublist.refl _
  | cons r rs ih => exact (ih _).trans (stepU_listeners_sublist a key w r)

theorem commitU_listeners_sublist (w : World) (a : Nat) (key : Key) (value : Value) :
    List.Sublist ((commitU w a key value).atoms a).listeners (w.atoms a).listeners := by
  unfold commitU
  split
  · simp only [hookU_atoms, popObj_atoms, clearNeed, updAtom_same, passU]
    refine (foldl_stepU_listeners_sublist a key _ _).trans ?_
    simp only [pushObj_atoms, assignW, updAtom_same]
    exact List.Sublist.refl _
  · simp only [assignW, updAtom_same]
    exact List.Sublist.refl _

theorem commitU_cb (w : World) (a : Nat) (key : Key) (value : Value) (r : Nat) :
    ((commitU w a key value).heap r).cb = (w.heap r).cb := by
  unfold commitU
  split
  · simp only [hookU_heap, popObj_heap, clearNeed, updAtom_heap,
      (passU_frame w a key value).cb, pushObj_heap, assignW]
  · simp only [assignW, updAtom_heap]

theorem commitU_cfg (w : World) (a : Nat) (key : Key) (value : Value) :
    ((commitU w a key value).atoms a).cfg = (w.atoms a).cfg := by
  unfold commitU
  split
  · simp only [hookU_atoms, popObj_atoms, clearNeed, updAtom_same,
      (passU_frame w a key value).cfg, pushObj_atoms, assignW]
  · simp only [assignW, updAtom_same]

theorem commitU_configs (w : World) (a : Nat) (key : Key) (value : Value) :
    (commitU w a key value).configs = w.configs := by
  unfold commitU
  split
  · simp only [hookU_configs, popObj_configs, clearNeed, updAtom_configs,
      (passU_frame w a key value).configs, pushObj_configs, assignW]
  · simp only [assignW, updAtom_configs]

theorem commitU_user (w : World) (a : Nat) (key : Key) (value : Value)
    (hu : ∀ r ∈ (w.atoms a).listeners, isUser (w.heap r) = true) :
    ∀ r ∈ ((commitU w a key value).atoms a).listeners,
      isUser ((commitU w a key value).heap r) = true := by
  intro r hr
  have h1 := hu r ((commitU_listeners_sublist w a key value).subset hr)
  simpa [isUser, commitU_cb] using h1

theorem updAtom_id (w : World) (a : Nat) (f : AtomSt → AtomSt) (h : f (w.atoms a) = w.atoms a) :
    w.updAtom a f = w := by
  obtain ⟨atoms, configs, heap, nextRec, objStack, cells, pendings, log⟩ := w
  simp only [World.updAtom] at h ⊢
  rw [h, Function.update_eq_self]

theorem dispatches_same_scalar (w : World) (a : Nat) (K : Key) (V : Value)
    (hhas : hasOwn (w.atoms a).props K = true) (hv : lookup (w.atoms a).props K = V)
    (hobj : isObject V = false) (hnan : V ≠ .nan) : dispatches w a K V = false := by
  simp [dispatches, hhas, hv, hobj, strictEq_self hnan]

/-- Setting a key to the scalar it already holds changes nothing at all. -/
theorem commitU_same_scalar (w : World) (a : Nat) (K : Key) (V : Value)
    (hhas : hasOwn (w.atoms a).props K = true) (hv : lookup (w.atoms a).props K = V)
    (hobj : isObject V = false) (hnan : V ≠ .nan) : commitU w a K V = w := by
  unfold commitU
  rw [dispatches_same_scalar w a K V hhas hv hobj hnan]
  simp only [Bool.false_eq_true, if_false, assignW]
  apply updAtom_id
  rw [assign_same_value _ _ _ hhas hv]


/-- C5 as stated fails for the scalar `NaN`: the listener of `a` is called again by
the second `set('a', NaN)`. -/
theorem C5_counterexample_nan : ¬ SecondSetQuiet 1 sampleWorld 0 "a" .nan := by
  intro h
  have hu : ∀ r ∈ (sampleWorld.atoms 0).listeners, isUser (sampleWorld.heap r) = true := by
    intro r hr
    have : r = 0 := by simpa [sampleWorld, addListener, World.init, AtomSt.fresh] using hr
    subst this; rfl
  have h1 : set 1 sampleWorld 0 "a" .nan = .ok (commitU sampleWorld 0 "a" .nan) .undefined := by
    rw [set_user 0 sampleWorld 0 "a" .nan rfl hu]; rfl
  obtain ⟨w2, r2, h2, hlog, -⟩ := h _ _ h1 (fun _ hn => by cases hn) (fun hn => by cases hn)
  have h3 : set 1 (commitU sampleWorld 0 "a" .nan) 0 "a" .nan =
      .ok (commitU (commitU sampleWorld 0 "a" .nan) 0 "a" .nan) .undefined := by
    rw [set_user 0 _ 0 "a" .nan (by rw [commitU_destroyed]; rfl) (commitU_user _ _ _ _ hu)]
    rfl
  rw [h3] at h2
  injection h2 with hw _
  subst hw
  revert hlog
  decide


/-! ## A dispatch pass over a well-formed registry -/

theorem eraseP_eq_filter_of_unique {α : Type} (p : α → Bool) (l : List α) (x : α)
    (hx : ∀ y ∈ l, p y = true → y = x) (hnd : l.Nodup) :
    l.eraseP p = l.filter (fun y => !p y) := by
  induction l with
  | nil => rfl
  | cons y ys ih =>
    have hnd' := (List.nodup_cons.mp hnd)
    by_cases hp : p y = true
    · have hy : y = x := hx y (List.mem_cons_self _ _) hp
      rw [List.eraseP_cons_of_pos hp, List.filter_cons_of_neg (by simp [hp])]
      symm
      rw [List.filter_eq_self]
      intro z hz
      have hzx : p z = true → z = x := hx z (List.mem_cons_of_mem _ hz)
      by_cases hpz : p z = true
      · exfalso
        have : z = y := (hzx hpz).trans hy.symm
        exact hnd'.1 (this ▸ hz)
      · simp [hpz]
    · rw [List.eraseP_cons_of_neg hp, List.filter_cons_of_pos (by simp [hp]),
        ih (fun z hz => hx z (List.mem_cons_of_mem _ hz)) hnd'.2]

theorem removeListener_eq_filter (heap : Nat → Listener) (ls : List Nat) (x : Nat)
    (hx : ∀ y ∈ ls, (heap y).calls.exhausted = true → y = x) (hnd : ls.Nodup) :
    removeListener heap ls = ls.filter (fun y => !(heap y).calls.exhausted) := by
  unfold removeListener
  rw [eraseP_eq_filter_of_unique (fun r => (heap r).calls.exhausted) ls.reverse x
    (fun y hy => hx y (List.mem_reverse.mp hy)) (List.nodup_reverse.mpr hnd)]
  rw [← List.filter_reverse, List.reverse_reverse]


theorem stepU_heap (a : Nat) (key : Key) (w : World) (r : Nat) :
    (stepU a key w r).heap = Function.update w.heap r (visited key (w.heap r)) := rfl

theorem stepU_log (a : Nat) (key : Key) (w : World) (r : Nat) :
    (stepU a key w r).log = w.log ++ firedEvents a key w r := rfl

theorem stepU_listeners (a : Nat) (key : Key) (w : World) (r : Nat)
    (hnd : (w.atoms a).listeners.Nodup)
    (hex : ∀ x ∈ (w.atoms a).listeners, (w.heap x).calls.exhausted = false) :
    ((stepU a key w r).atoms a).listeners =
      (w.atoms a).listeners.filter
        (fun x => !(decide (x = r) && (visited key (w.heap r)).calls.exhausted)) := by
  simp only [stepU, Function.update_same]
  by_cases hx : (visited key (w.heap r)).calls.exhausted = true
  · rw [if_pos hx]
    rw [removeListener_eq_filter _ _ r ?_ hnd]
    · apply List.filter_congr
      intro y hy
      by_cases hyr : y = r
      · subst hyr; simp [hx]
      · simp [Function.update_noteq hyr, hex y hy, hyr]
    · intro y hy hye
      by_contra hyr
      rw [Function.update_noteq hyr, hex y hy] at hye
      cases hye
  · rw [if_neg hx]
    symm
    rw [List.filter_eq_self]
    intro y _
    simp [hx]

theorem firedEvents_congr (a : Nat) (key : Key) (w w1 : World) (x : Nat)
    (hh : w1.heap x = w.heap x) (hp : (w1.atoms a).props = (w.atoms a).props) :
    firedEvents a key w1 x = firedEvents a key w x := by
  simp only [firedEvents, hh, hp]

/-- A dispatch pass over distinct listed records of a registry without exhausted
records, in closed form: each visited record is updated once, the records that
ran out of budget leave the registry, and the log grows by the calls made. -/
theorem foldl_stepU_wf (a : Nat) (key : Key) (rs : List Nat) (w : World)
    (hrs : rs.Nodup) (hin : ∀ r ∈ rs, r ∈ (w.atoms a).listeners)
    (hnd : (w.atoms a).listeners.Nodup)
    (hex : ∀ x ∈ (w.atoms a).listeners, (w.heap x).calls.exhausted = false) :
    (∀ x, (rs.foldl (stepU a key) w).heap x =
        if x ∈ rs then visited key (w.heap x) else w.heap x) ∧
    ((rs.foldl (stepU a key) w).atoms a).listeners =
      (w.atoms a).listeners.filter
        (fun x => !(decide (x ∈ rs) && (visited key (w.heap x)).calls.exhausted)) ∧
    (rs.foldl (stepU a key) w).log = w.log ++ rs.flatMap (firedEvents a key w) := by
  induction rs generalizing w with
  | nil =>
    refine ⟨fun x => by simp, ?_, by simp⟩
    simp only [List.foldl_nil]
    symm
    rw [List.filter_eq_self]
    intro y _; simp
  | cons r rs ih =>
    have hr := List.nodup_cons.mp hrs
    have hls := stepU_listeners a key w r hnd hex
    have hnd1 : ((stepU a key w r).atoms a).listeners.Nodup := by
      rw [hls]; exact hnd.filter _
    have hin1 : ∀ x ∈ rs, x ∈ ((stepU a key w r).atoms a).listeners := by
      intro x hx
      rw [hls, List.mem_filter]
      refine ⟨hin x (List.mem_cons_of_mem _ hx), ?_⟩
      have : x ≠ r := fun h => hr.1 (h ▸ hx)
      simp [this]
    have hex1 : ∀ x ∈ ((stepU a key w r).atoms a).listeners,
        ((stepU a key w r).heap x).calls.exhausted = false := by
      intro x hx
      rw [hls, List.mem_filter] at hx
      rw [stepU_heap]
      by_cases hxr : x = r
      · subst hxr
        simpa using hx.2
      · rw [Function.update_noteq hxr]; exact hex x hx.1
    obtain ⟨ih1, ih2, ih3⟩ := ih (stepU a key w r) hr.2 hin1 hnd1 hex1
    simp only [List.foldl_cons]
    refine ⟨?_, ?_, ?_⟩
    · intro x
      rw [ih1 x, stepU_heap]
      by_cases hxr : x = r
      · subst hxr
        simp [hr.1]
      · simp [Function.update_noteq hxr, hxr]
    · rw [ih2, hls, List.filter_filter]
      apply List.filter_congr
      intro y _
      rw [stepU_heap]
      by_cases hyr : y = r
      · subst hyr
        simp [hr.1]
      · simp [Function.update_noteq hyr, hyr]
    · rw [ih3, stepU_log, List.flatMap_cons, List.append_assoc]
      congr 2
      apply List.flatMap_congr
      intro x hx
      have hxr : x ≠ r := fun h => hr.1 (h ▸ hx)
      apply firedEvents_congr
      · rw [stepU_heap, Function.update_noteq hxr]
      · exact (stepU_frame a key w r).props


/-! ## The calls a commit makes to one callback -/

theorem cbArgs_append (c : Nat) (l1 l2 : List Event) :
    cbArgs c (l1 ++ l2) = cbArgs c l1 ++ cbArgs c l2 := by
  simp [cbArgs, List.filterMap_append]

theorem cbArgs_hookU (c cfg : Nat) (w : World) : cbArgs c (hookU cfg w).log = cbArgs c w.log := by
  unfold hookU
  split
  · simp [World.emit, cbArgs_append, cbArgs]
  · rfl

theorem cbArgs_firedEvents_other (c a : Nat) (key : Key) (w : World) (r : Nat)
    (h : (w.heap r).cb ≠ .user c) : cbArgs c (firedEvents a key w r) = [] := by
  unfold firedEvents
  cases hcb : (w.heap r).cb with
  | forward t k => rfl
  | user id =>
    have hne : id ≠ c := fun hid => h (by rw [hcb, hid])
    simp only
    split <;> simp [cbArgs, hne]

theorem cbArgs_firedEvents_own (c a : Nat) (key : Key) (w : World) (r : Nat)
    (h : (w.heap r).cb = .user c) :
    cbArgs c (firedEvents a key w r) =
      if fires key (w.heap r) then [getValues (w.atoms a).props (w.heap r).keys] else [] := by
  unfold firedEvents
  rw [h]
  simp only
  split <;> simp [cbArgs]

theorem cbArgs_flatMap_none (c : Nat) (f : Nat → List Event) (rs : List Nat)
    (h : ∀ x ∈ rs, cbArgs c (f x) = []) : cbArgs c (rs.flatMap f) = [] := by
  induction rs with
  | nil => rfl
  | cons x xs ih =>
    rw [List.flatMap_cons, cbArgs_append, h x (List.mem_cons_self _ _),
      ih (fun y hy => h y (List.mem_cons_of_mem _ hy))]
    rfl

theorem cbArgs_flatMap_one (c : Nat) (f : Nat → List Event) (rs : List Nat) (r0 : Nat)
    (hnd : rs.Nodup) (hmem : r0 ∈ rs) (h : ∀ x ∈ rs, x ≠ r0 → cbArgs c (f x) = []) :
    cbArgs c (rs.flatMap f) = cbArgs c (f r0) := by
  induction rs with
  | nil => cases hmem
  | cons x xs ih =>
    have hx := List.nodup_cons.mp hnd
    rw [List.flatMap_cons, cbArgs_append]
    by_cases hxr : x = r0
    · subst hxr
      rw [cbArgs_flatMap_none c f xs (fun y hy => h y (List.mem_cons_of_mem _ hy)
        (fun hyx => hx.1 (hyx ▸ hy)))]
      simp
    · have hmem' : r0 ∈ xs := by
        rcases List.mem_cons.mp hmem with h1 | h1
        · exact absurd h1.symm hxr
        · exact h1
      rw [h x (List.mem_cons_self _ _) hxr,
        ih hx.2 hmem' (fun y hy => h y (List.mem_cons_of_mem _ hy))]
      rfl

@[simp] theorem assignW_heap (w : World) (a : Nat) (key : Key) (value : Value) :
    (assignW w a key value).heap = w.heap := rfl
@[simp] theorem assignW_log (w : World) (a : Nat) (key : Key) (value : Value) :
    (assignW w a key value).log = w.log := rfl
@[simp] theorem assignW_listeners (w : World) (a : Nat) (key : Key) (value : Value) :
    ((assignW w a key value).atoms a).listeners = (w.atoms a).listeners := by
  simp [assignW]
@[simp] theorem assignW_props (w : World) (a : Nat) (key : Key) (value : Value) :
    ((assignW w a key value).atoms a).props = assign (w.atoms a).props key value := by
  simp [assignW]

/-- The pass of a commit over a well-formed registry, in closed form. -/
theorem passU_wf (w : World) (a : Nat) (key : Key) (value : Value) (hwf : RegWF w a) :
    (∀ x, (passU w a key value).heap x =
        if x ∈ (w.atoms a).listeners then visited key (w.heap x) else w.heap x) ∧
    ((passU w a key value).atoms a).listeners =
      (w.atoms a).listeners.filter (fun x => !(visited key (w.heap x)).calls.exhausted) ∧
    (passU w a key value).log =
      w.log ++ (w.atoms a).listeners.reverse.flatMap
        (firedEvents a key (pushObj value (assignW w a key value))) := by
  have h := foldl_stepU_wf a key (w.atoms a).listeners.reverse
    (pushObj value (assignW w a key value)) (List.nodup_reverse.mpr hwf.1)
    (by intro r hr; simpa using List.mem_reverse.mp hr)
    (by simpa using hwf.1)
    (by intro x hx
        have hx' : x ∈ (w.atoms a).listeners := by simpa using hx
        simpa using (hwf.2 x hx').2.1)
  obtain ⟨h1, h2, h3⟩ := h
  simp only [pushObj_atoms, pushObj_heap, pushObj_log, assignW_heap, assignW_log,
    assignW_listeners, List.mem_reverse] at h1 h2 h3
  refine ⟨h1, ?_, h3⟩
  rw [passU, h2]
  apply List.filter_congr
  intro y hy
  simp [hy]


/-! ## A commit on a well-formed registry -/

theorem commitU_heap_wf (w : World) (a : Nat) (key : Key) (value : Value) (hwf : RegWF w a)
    (x : Nat) :
    (commitU w a key value).heap x =
      if dispatches w a key value = true ∧ x ∈ (w.atoms a).listeners then visited key (w.heap x)
      else w.heap x := by
  unfold commitU
  by_cases hd : dispatches w a key value = true
  · rw [if_pos hd]
    simp only [hookU_heap, popObj_heap, clearNeed, updAtom_heap, (passU_wf w a key value hwf).1 x,
      hd, true_and]
  · rw [if_neg hd]
    simp [hd]

theorem commitU_listeners_wf (w : World) (a : Nat) (key : Key) (value : Value)
    (hwf : RegWF w a) :
    ((commitU w a key value).atoms a).listeners =
      if dispatches w a key value = true then
        (w.atoms a).listeners.filter (fun x => !(visited key (w.heap x)).calls.exhausted)
      else (w.atoms a).listeners := by
  unfold commitU
  by_cases hd : dispatches w a key value = true
  · rw [if_pos hd, if_pos hd]
    simp only [hookU_atoms, popObj_atoms, clearNeed, updAtom_same,
      (passU_wf w a key value hwf).2.1]
  · rw [if_neg hd, if_neg hd]
    simp

theorem commitU_nextRec (w : World) (a : Nat) (key : Key) (value : Value) :
    (commitU w a key value).nextRec = w.nextRec := by
  unfold commitU
  split
  · simp only [hookU_nextRec, popObj_nextRec, clearNeed, updAtom_nextRec,
      (passU_frame w a key value).nextRec, pushObj_nextRec, assignW]
  · rfl

theorem visited_isUser (key : Key) (l : Listener) : isUser (visited key l) = isUser l := rfl

/-- A commit keeps the registry well formed. -/
theorem commitU_regWF (w : World) (a : Nat) (key : Key) (value : Value) (hwf : RegWF w a) :
    RegWF (commitU w a key value) a := by
  constructor
  · rw [commitU_listeners_wf w a key value hwf]
    split
    · exact hwf.1.filter _
    · exact hwf.1
  · intro r hr
    rw [commitU_listeners_wf w a key value hwf] at hr
    rw [commitU_heap_wf w a key value hwf, commitU_nextRec]
    by_cases hd : dispatches w a key value = true
    · rw [if_pos hd, List.mem_filter] at hr
      rw [if_pos ⟨hd, hr.1⟩]
      refine ⟨?_, ?_, (hwf.2 r hr.1).2.2⟩
      · rw [visited_isUser]; exact (hwf.2 r hr.1).1
      · simpa using hr.2
    · rw [if_neg hd] at hr
      rw [if_neg (fun h => hd h.1)]
      exact hwf.2 r hr

theorem commitU_log_wf (w : World) (a : Nat) (key : Key) (value : Value) (hwf : RegWF w a)
    (c : Nat) :
    cbArgs c (commitU w a key value).log =
      cbArgs c w.log ++
        if dispatches w a key value = true then
          cbArgs c ((w.atoms a).listeners.reverse.flatMap
            (firedEvents a key (pushObj value (assignW w a key value))))
        else [] := by
  unfold commitU
  by_cases hd : dispatches w a key value = true
  · rw [if_pos hd, if_pos hd, cbArgs_hookU]
    simp only [popObj_log, clearNeed, updAtom_log, (passU_wf w a key value hwf).2.2,
      cbArgs_append]
  · rw [if_neg hd, if_neg hd]
    simp

/-- When no listed record has the callback `c`, a commit does not call `c`. -/
theorem commitU_cbArgs_none (w : World) (a : Nat) (key : Key) (value : Value) (hwf : RegWF w a)
    (c : Nat) (hc : ∀ r ∈ (w.atoms a).listeners, (w.heap r).cb ≠ .user c) :
    cbArgs c (commitU w a key value).log = cbArgs c w.log := by
  rw [commitU_log_wf w a key value hwf c]
  split
  · rw [cbArgs_flatMap_none]
    · simp
    · intro x hx
      apply cbArgs_firedEvents_other
      simpa using hc x (List.mem_reverse.mp hx)
  · simp

/-- When exactly the listed record `r0` has the callback `c`, a commit calls `c`
once if it notifies and the record fires, with the values `get` collects for the
record's keys after the write, and not at all otherwise. -/
theorem commitU_cbArgs_one (w : World) (a : Nat) (key : Key) (value : Value) (hwf : RegWF w a)
    (c r0 : Nat) (hr0 : r0 ∈ (w.atoms a).listeners) (hcb : (w.heap r0).cb = .user c)
    (hc : ∀ r ∈ (w.atoms a).listeners, r ≠ r0 → (w.heap r).cb ≠ .user c) :
    cbArgs c (commitU w a key value).log =
      cbArgs c w.log ++
        if dispatches w a key value = true ∧ fires key (w.heap r0) = true then
          [getValues (assign (w.atoms a).props key value) (w.heap r0).keys]
        else [] := by
  rw [commitU_log_wf w a key value hwf c]
  congr 1
  by_cases hd : dispatches w a key value = true
  · rw [if_pos hd]
    rw [cbArgs_flatMap_one c _ _ r0 (List.nodup_reverse.mpr hwf.1) (List.mem_reverse.mpr hr0)]
    · rw [cbArgs_firedEvents_own c a key _ r0 (by simpa using hcb)]
      simp [hd]
    · intro x hx hxr
      apply cbArgs_firedEvents_other
      simpa using hc x (List.mem_reverse.mp hx) hxr
  · rw [if_neg hd, if_neg (fun h => hd h.1)]


/-! ## `set` as a step on well-formed states -/

theorem regWF_user {w : World} {a : Nat} (hwf : RegWF w a) :
    ∀ r ∈ (w.atoms a).listeners, isUser (w.heap r) = true :=
  fun r hr => (hwf.2 r hr).1

theorem set_world (fuel : Nat) (w : World) (a : Nat) (key : Key) (value : Value)
    (hlive : (w.atoms a).destroyed = false) (hwf : RegWF w a) :
    (set (fuel + 1) w a key value).world? = some (afterSet w a key value) := by
  rw [set_user fuel w a key value hlive (regWF_user hwf)]
  unfold afterSet
  cases gate (w.configs (w.atoms a).cfg) key value <;> rfl

/-- Either the set commits, or it leaves instances, records and log as they were. -/
theorem afterSet_cases (w : World) (a : Nat) (key : Key) (value : Value) :
    (commits w a key value = true ∧ afterSet w a key value = commitU w a key value) ∨
    (commits w a key value = false ∧ (afterSet w a key value).atoms = w.atoms ∧
      (afterSet w a key value).heap = w.heap ∧ (afterSet w a key value).log = w.log ∧
      (afterSet w a key value).nextRec = w.nextRec) := by
  unfold afterSet commits
  cases gate (w.configs (w.atoms a).cfg) key value <;> simp

theorem regWF_congr {w w1 : World} {a : Nat} (hwf : RegWF w a) (ha : w1.atoms = w.atoms)
    (hh : w1.heap = w.heap) (hn : w1.nextRec = w.nextRec) : RegWF w1 a := by
  unfold RegWF at *
  rw [ha, hh, hn]
  exact hwf

theorem afterSet_live (w : World) (a : Nat) (key : Key) (value : Value)
    (hlive : (w.atoms a).destroyed = false) :
    ((afterSet w a key value).atoms a).destroyed = false := by
  rcases afterSet_cases w a key value with ⟨_, h⟩ | ⟨_, h, _⟩
  · rw [h, commitU_destroyed]; exact hlive
  · rw [h]; exact hlive

theorem afterSet_regWF (w : World) (a : Nat) (key : Key) (value : Value) (hwf : RegWF w a) :
    RegWF (afterSet w a key value) a := by
  rcases afterSet_cases w a key value with ⟨_, h⟩ | ⟨_, h1, h2, _, h4⟩
  · rw [h]; exact commitU_regWF w a key value hwf
  · exact regWF_congr hwf h1 h2 h4

/-- A set on a registry without the callback `c` does not call `c` and leaves the
registry without it. -/
theorem afterSet_noCb (a c : Nat) (w : World) (key : Key) (value : Value)
    (h : NoCbInv a c w) :
    NoCbInv a c (afterSet w a key value) ∧
      cbArgs c (afterSet w a key value).log = cbArgs c w.log := by
  obtain ⟨hlive, hwf, hc⟩ := h
  refine ⟨⟨afterSet_live w a key value hlive, afterSet_regWF w a key value hwf, ?_⟩, ?_⟩
  · rcases afterSet_cases w a key value with ⟨_, h⟩ | ⟨_, h1, h2, _, _⟩
    · rw [h]
      intro r hr
      rw [commitU_cb]
      exact hc r ((commitU_listeners_sublist w a key value).subset hr)
    · rw [h1, h2]; exact hc
  · rcases afterSet_cases w a key value with ⟨_, h⟩ | ⟨_, _, _, h3, _⟩
    · rw [h]; exact commitU_cbArgs_none w a key value hwf c hc
    · rw [h3]

theorem runSets_noCb (fuel a c : Nat) (ss : List (Key × Value)) (w : World)
    (h : NoCbInv a c w) :
    ∃ wr, runSets (fuel + 1) a w ss = some wr ∧ NoCbInv a c wr ∧
      cbArgs c wr.log = cbArgs c w.log := by
  induction ss generalizing w with
  | nil => exact ⟨w, rfl, h, rfl⟩
  | cons kv ss ih =>
    obtain ⟨k, v⟩ := kv
    have h1 := afterSet_noCb a c w k v h
    obtain ⟨wr, hr1, hr2, hr3⟩ := ih (afterSet w a k v) h1.1
    refine ⟨wr, ?_, hr2, hr3.trans h1.2⟩
    simp only [runSets, set_world fuel w a k v h.1 h.2.1]
    exact hr1


/-! ## Registration -/

theorem addListener_listeners (w : World) (a : Nat) (l : Listener) :
    ((addListener w a l).atoms a).listeners = w.nextRec :: (w.atoms a).listeners := by
  simp [addListener, World.updAtom]

theorem addListener_heap (w : World) (a : Nat) (l : Listener) :
    (addListener w a l).heap = Function.update w.heap w.nextRec l := rfl

theorem addListener_log (w : World) (a : Nat) (l : Listener) :
    (addListener w a l).log = w.log := rfl

theorem addListener_nextRec (w : World) (a : Nat) (l : Listener) :
    (addListener w a l).nextRec = w.nextRec + 1 := rfl

theorem addListener_destroyed (w : World) (a : Nat) (l : Listener) :
    ((addListener w a l).atoms a).destroyed = (w.atoms a).destroyed := by
  simp [addListener, World.updAtom]

theorem addListener_props (w : World) (a : Nat) (l : Listener) :
    ((addListener w a l).atoms a).props = (w.atoms a).props := by
  simp [addListener, World.updAtom]

theorem addListener_heap_old (w : World) (a : Nat) (l : Listener) (hwf : RegWF w a) (r : Nat)
    (hr : r ∈ (w.atoms a).listeners) : (addListener w a l).heap r = w.heap r := by
  rw [addListener_heap, Function.update_noteq]
  exact Nat.ne_of_lt (hwf.2 r hr).2.2

theorem addListener_regWF (w : World) (a : Nat) (l : Listener) (hwf : RegWF w a)
    (hu : isUser l = true) (hx : l.calls.exhausted = false) : RegWF (addListener w a l) a := by
  constructor
  · rw [addListener_listeners]
    refine List.nodup_cons.mpr ⟨?_, hwf.1⟩
    intro hmem
    exact Nat.lt_irrefl _ (hwf.2 _ hmem).2.2
  · intro r hr
    rw [addListener_listeners] at hr
    rw [addListener_nextRec]
    rcases List.mem_cons.mp hr with h | h
    · subst h
      rw [addListener_heap, Function.update_same]
      exact ⟨hu, hx, Nat.lt_succ_self _⟩
    · rw [addListener_heap_old w a l hwf r h]
      exact ⟨(hwf.2 r h).1, (hwf.2 r h).2.1, Nat.lt_succ_of_lt (hwf.2 r h).2.2⟩

/-- After `on(keyOrList, c)` with a callback no record has yet, the new record is
the only one with that callback. -/
theorem addListener_onInv (w : World) (a c : Nat) (L : List Key)
    (hlive : (w.atoms a).destroyed = false) (hwf : RegWF w a)
    (hfresh : ∀ r ∈ (w.atoms a).listeners, (w.heap r).cb ≠ .user c) :
    OnInv a w.nextRec c L (addListener w a ⟨L, .user c, .inf, none⟩) := by
  refine ⟨?_, addListener_regWF w a _ hwf rfl rfl, ?_, ?_, ?_⟩
  · rw [addListener_destroyed]; exact hlive
  · rw [addListener_listeners]; exact List.mem_cons_self _ _
  · rw [addListener_heap, Function.update_same]
  · intro r hr hne
    rw [addListener_listeners] at hr
    rcases List.mem_cons.mp hr with h | h
    · exact absurd h hne
    · rw [addListener_heap_old w a _ hwf r h]; exact hfresh r h

/-! ## `on` and `off` -/

theorem visited_on (key : Key) (L : List Key) (c : Nat) :
    visited key ⟨L, .user c, .inf, none⟩ = ⟨L, .user c, .inf, none⟩ := by
  simp only [visited, Option.map_none', Calls.dec]
  split <;> rfl

/-- A set on a state with the `on` record `r0`: the record stays, and the callback
is called once, with the values of the record's keys after the write, exactly when
the set commits, notifies and is for one of the record's keys. -/
theorem afterSet_on (a r0 c : Nat) (L : List Key) (w : World) (key : Key) (value : Value)
    (h : OnInv a r0 c L w) :
    OnInv a r0 c L (afterSet w a key value) ∧
      cbArgs c (afterSet w a key value).log = cbArgs c w.log ++
        if (commits w a key value && dispatches w a key value && L.contains key) = true then
          [getValues ((afterSet w a key value).atoms a).props L]
        else [] := by
  obtain ⟨hlive, hwf, hr0, hrec, hc⟩ := h
  rcases afterSet_cases w a key value with ⟨hcm, heq⟩ | ⟨hcm, h1, h2, h3, h4⟩
  · rw [heq]
    refine ⟨⟨?_, commitU_regWF w a key value hwf, ?_, ?_, ?_⟩, ?_⟩
    · rw [commitU_destroyed]; exact hlive
    · rw [commitU_listeners_wf w a key value hwf]
      split
      · rw [List.mem_filter]
        refine ⟨hr0, ?_⟩
        rw [hrec, visited_on]; rfl
      · exact hr0
    · rw [commitU_heap_wf w a key value hwf]
      split
      · rw [hrec, visited_on]
      · exact hrec
    · intro r hr hne
      rw [commitU_cb]
      exact hc r ((commitU_listeners_sublist w a key value).subset hr) hne
    · rw [commitU_cbArgs_one w a key value hwf c r0 hr0 (by rw [hrec]) hc, commitU_props, hrec]
      congr 1
      simp only [fires, hcm, Bool.true_and, Bool.and_eq_true]
  · refine ⟨⟨?_, regWF_congr hwf h1 h2 h4, ?_, ?_, ?_⟩, ?_⟩
    · rw [h1]; exact hlive
    · rw [h1]; exact hr0
    · rw [h2]; exact hrec
    · rw [h1, h2]; exact hc
    · rw [h3, hcm]; simp

theorem runSets_on (fuel a r0 c : Nat) (L : List Key) (ss : List (Key × Value)) (w : World)
    (h : OnInv a r0 c L w) :
    ∃ wp, runSets (fuel + 1) a w ss = some wp ∧ OnInv a r0 c L wp := by
  induction ss generalizing w with
  | nil => exact ⟨w, rfl, h⟩
  | cons kv ss ih =>
    obtain ⟨k, v⟩ := kv
    obtain ⟨wp, hp1, hp2⟩ := ih (afterSet w a k v) (afterSet_on a r0 c L w k v h).1
    refine ⟨wp, ?_, hp2⟩
    simp only [runSets, set_world fuel w a k v h.1 h.2.1]
    exact hp1


theorem keysMatch_toArray (kl : KeyOrList) : keysMatch (.list (toArray kl)) kl = true := by
  simp [keysMatch, toArray]

/-- `off(keyOrList, c)` removes the `on` record registered for `keyOrList` and `c`,
after which no record has the callback `c`. -/
theorem off_on (a r0 c : Nat) (kl : KeyOrList) (w : World)
    (h : OnInv a r0 c (toArray kl) w) :
    ∃ wo, me.off w a (some kl) (.user c) = .ok wo .undefined ∧ NoCbInv a c wo ∧ wo.log = w.log := by
  obtain ⟨hlive, hwf, hr0, hrec, hc⟩ := h
  simp only [me.off, hlive, Bool.false_eq_true, if_false]
  refine ⟨_, rfl, ?_, rfl⟩
  refine ⟨?_, ⟨?_, ?_⟩, ?_⟩
  · simpa using hlive
  · simp only [updAtom_same]
    exact hwf.1.filter _
  · intro r hr
    simp only [updAtom_same, List.mem_filter] at hr
    simpa using hwf.2 r hr.1
  · intro r hr
    simp only [updAtom_same, List.mem_filter] at hr
    simp only [updAtom_heap]
    by_cases hrr : r = r0
    · exfalso
      subst hrr
      have := hr.2
      simp [hrec, keysMatch_toArray] at this
    · exact hc r hr.1 hrr

theorem sampleWorld_regWF : RegWF sampleWorld 0 := by
  constructor
  · simp [sampleWorld, addListener, World.init, AtomSt.fresh]
  · intro r hr
    have : r = 0 := by simpa [sampleWorld, addListener, World.init, AtomSt.fresh] using hr
    subst this
    exact ⟨rfl, rfl, by decide⟩

theorem sampleWorld_fresh (c : Nat) (hc : c ≠ 7) :
    ∀ r ∈ (sampleWorld.atoms 0).listeners, (sampleWorld.heap r).cb ≠ .user c := by
  intro r hr
  have : r = 0 := by simpa [sampleWorld, addListener, World.init, AtomSt.fresh] using hr
  subst this
  simp [sampleWorld, addListener, World.init]
  exact fun h => hc h.symm

/-- C7: on a live instance with a well-formed registry of user callbacks, after
`on(keys, c)` with a callback `c` that no record has, and after any sequence of
sets, a `set(k, v)` calls `c` exactly once when it commits, notifies (the key was
absent, or the value differs, or it is an object not on `objStack`) and `k` is one
of the keys, and not at all otherwise; and after `off(keys, c)` no sequence of sets
calls `c` again. -/
theorem C7_on_fires_until_off (fuel : Nat) (w : World) (a : Nat) (kl : KeyOrList) (c : Nat)
    (hlive : (w.atoms a).destroyed = false) (hwf : RegWF w a)
    (hfresh : ∀ r ∈ (w.atoms a).listeners, (w.heap r).cb ≠ .user c) :
    ∃ w1, me.bind w a kl (.user c) = .ok w1 .undefined ∧ w1.log = w.log ∧
      ∀ ss, ∃ wp, runSets (fuel + 1) a w1 ss = some wp ∧
        (∀ k v, ∃ wq, (set (fuel + 1) wp a k v).world? = some wq ∧
          cbArgs c wq.log = cbArgs c wp.log ++
            if (commits wp a k v && dispatches wp a k v && (toArray kl).contains k) = true then
              [getValues (wq.atoms a).props (toArray kl)]
            else []) ∧
        ∃ wo, me.off wp a (some kl) (.user c) = .ok wo .undefined ∧ wo.log = wp.log ∧
          ∀ ss2, ∃ wr, runSets (fuel + 1) a wo ss2 = some wr ∧
            cbArgs c wr.log = cbArgs c wo.log := by
  have h1 := addListener_onInv w a c (toArray kl) hlive hwf hfresh
  simp only [me.bind, hlive, Bool.false_eq_true, if_false]
  refine ⟨_, rfl, rfl, ?_⟩
  intro ss
  obtain ⟨wp, hp1, hp2⟩ := runSets_on fuel a w.nextRec c (toArray kl) ss _ h1
  refine ⟨wp, hp1, ?_, ?_⟩
  · intro k v
    exact ⟨_, set_world fuel wp a k v hp2.1 hp2.2.1,
      (afterSet_on a w.nextRec c (toArray kl) wp k v hp2).2⟩
  · obtain ⟨wo, ho1, ho2, ho3⟩ := off_on a w.nextRec c kl wp hp2
    refine ⟨wo, ho1, ho3, ?_⟩
    intro ss2
    obtain ⟨wr, hr1, _, hr3⟩ := runSets_noCb fuel a c ss2 wo ho2
    exact ⟨wr, hr1, hr3⟩

theorem C7_witness :
    ∃ w1, me.bind sampleWorld 0 (.list ["a"]) (.user 5) = .ok w1 .undefined ∧
      w1.log = sampleWorld.log ∧
      ∀ ss, ∃ wp, runSets 1 0 w1 ss = some wp ∧
        (∀ k v, ∃ wq, (set 1 wp 0 k v).world? = some wq ∧
          cbArgs 5 wq.log = cbArgs 5 wp.log ++
            if (commits wp 0 k v && dispatches wp 0 k v &&
                (toArray (.list ["a"])).contains k) = true then
              [getValues (wq.atoms 0).props (toArray (.list ["a"]))]
            else []) ∧
        ∃ wo, me.off wp 0 (some (.list ["a"])) (.user 5) = .ok wo .undefined ∧ wo.log = wp.log ∧
          ∀ ss2, ∃ wr, runSets 1 0 wo ss2 = some wr ∧ cbArgs 5 wr.log = cbArgs 5 wo.log :=
  C7_on_fires_until_off 0 sampleWorld 0 (.list ["a"]) 5 rfl sampleWorld_regWF
    (sampleWorld_fresh 5 (by decide))


/-! ## `once` -/

theorem hasOwn_assign (ps : List (Key × Value)) (k x : Key) (v : Value) :
    hasOwn (assign ps k v) x = (hasOwn ps x || decide (x = k)) := by
  by_cases h : x = k
  · subst h; simp [hasOwn_assign_same]
  · simp [hasOwn_assign_ne ps k x v h, h]

theorem dispatches_of_absent (w : World) (a : Nat) (key : Key) (value : Value)
    (h : hasOwn (w.atoms a).props key = false) : dispatches w a key value = true := by
  simp [dispatches, h]

theorem mem_missingOf (props : List (Key × Value)) (ks acc : List Key) (x : Key) :
    x ∈ missingOf props acc ks ↔ x ∈ acc ∨ (x ∈ ks ∧ hasOwn props x = false) := by
  induction ks generalizing acc with
  | nil => simp [missingOf]
  | cons k ks ih =>
    unfold missingOf
    split
    · rename_i hcond
      rw [ih]
      simp only [Bool.and_eq_true, Bool.not_eq_true', List.contains_eq_any_beq] at hcond
      constructor
      · rintro (h | h)
        · rcases List.mem_append.mp h with h1 | h1
          · exact Or.inl h1
          · have : x = k := by simpa using h1
            subst this
            exact Or.inr ⟨List.mem_cons_self _ _, hcond.1⟩
        · exact Or.inr ⟨List.mem_cons_of_mem _ h.1, h.2⟩
      · rintro (h | ⟨h1, h2⟩)
        · exact Or.inl (List.mem_append_left _ h)
        · rcases List.mem_cons.mp h1 with h3 | h3
          · subst h3; exact Or.inl (List.mem_append_right _ (List.mem_singleton_self _))
          · exact Or.inr ⟨h3, h2⟩
    · rename_i hcond
      rw [ih]
      constructor
      · rintro (h | h)
        · exact Or.inl h
        · exact Or.inr ⟨List.mem_cons_of_mem _ h.1, h.2⟩
      · rintro (h | ⟨h1, h2⟩)
        · exact Or.inl h
        · rcases List.mem_cons.mp h1 with h3 | h3
          · subst h3
            left
            by_contra hx
            apply hcond
            simp [h2, hx]
          · exact Or.inr ⟨h3, h2⟩

theorem onceInv_congr {a r0 c : Nat} {L : List Key} {w w1 : World} (h : OnceInv a r0 c L w)
    (ha : w1.atoms = w.atoms) (hh : w1.heap = w.heap) (hn : w1.nextRec = w.nextRec) :
    OnceInv a r0 c L w1 := by
  unfold OnceInv RegWF allPresent at *
  rw [ha, hh, hn]
  exact h

theorem allPresent_congr {a : Nat} {L : List Key} {w w1 : World} (ha : w1.atoms = w.atoms) :
    allPresent w1 a L = allPresent w a L := by
  unfold allPresent; rw [ha]

theorem allPresent_commitU_of (w : World) (a : Nat) (key : Key) (value : Value) (L : List Key)
    (h : allPresent w a L = true) : allPresent (commitU w a key value) a L = true := by
  unfold allPresent at *
  rw [commitU_props, List.all_eq_true] at *
  intro x hx
  rw [hasOwn_assign, h x hx]
  rfl


theorem visited_once (key : Key) (L m : List Key) (c : Nat) :
    visited key ⟨L, .user c, .fin 1, some m⟩ =
      ⟨L, .user c,
        if (m.contains key && (m.filter (fun k => k != key)).isEmpty) = true then .fin 0
        else .fin 1,
        some (m.filter (fun k => k != key))⟩ := by
  simp only [visited, fires, Option.map_some', Calls.dec]
  split <;> rfl

theorem fires_once (key : Key) (L m : List Key) (c : Nat) :
    fires key ⟨L, .user c, .fin 1, some m⟩ =
      (m.contains key && (m.filter (fun k => k != key)).isEmpty) := rfl

/-- A set on a state in which all keys of `L` are present and the callback `c` is
gone. -/
theorem afterSet_once_done (a r0 c : Nat) (L : List Key) (w : World) (key : Key)
    (value : Value) (hlive : (w.atoms a).destroyed = false) (hwf : RegWF w a)
    (hall : allPresent w a L = true) (hnot : r0 ∉ (w.atoms a).listeners)
    (hc : ∀ r ∈ (w.atoms a).listeners, (w.heap r).cb ≠ .user c) :
    OnceInv a r0 c L (afterSet w a key value) ∧
      cbArgs c (afterSet w a key value).log = cbArgs c w.log ∧
      allPresent (afterSet w a key value) a L = true := by
  have hno := afterSet_noCb a c w key value ⟨hlive, hwf, hc⟩
  have hall' : allPresent (afterSet w a key value) a L = true := by
    rcases afterSet_cases w a key value with ⟨_, h⟩ | ⟨_, h1, _⟩
    · rw [h]; exact allPresent_commitU_of w a key value L hall
    · rw [allPresent_congr h1]; exact hall
  refine ⟨⟨hno.1.1, hno.1.2.1, Or.inr ⟨hall', ?_, hno.1.2.2⟩⟩, hno.2, hall'⟩
  rcases afterSet_cases w a key value with ⟨_, h⟩ | ⟨_, h1, _⟩
  · rw [h]
    exact fun hm => hnot ((commitU_listeners_sublist w a key value).subset hm)
  · rw [h1]; exact hnot


theorem allPresent_false_iff (w : World) (a : Nat) (L : List Key) :
    allPresent w a L = false ↔ ∃ x, x ∈ L ∧ hasOwn (w.atoms a).props x = false := by
  unfold allPresent
  rw [Bool.eq_false_iff, Ne, List.all_eq_true]
  constructor
  · intro h
    by_contra hne
    apply h
    intro x hx
    by_contra hx2
    exact hne ⟨x, hx, by simpa using hx2⟩
  · rintro ⟨x, hx, hx2⟩ h
    rw [h x hx] at hx2
    cases hx2

/-- A commit on a state in which the `once` record `r0` still waits. -/
theorem commitU_once_waiting (a r0 c : Nat) (L : List Key) (w : World) (key : Key)
    (value : Value) (hlive : (w.atoms a).destroyed = false) (hwf : RegWF w a)
    (hall : allPresent w a L = false) (hr0 : r0 ∈ (w.atoms a).listeners) (m : List Key)
    (hrec : w.heap r0 = ⟨L, .user c, .fin 1, some m⟩)
    (hm : ∀ k, k ∈ m ↔ k ∈ L ∧ hasOwn (w.atoms a).props k = false)
    (hc : ∀ r ∈ (w.atoms a).listeners, r ≠ r0 → (w.heap r).cb ≠ .user c) :
    OnceInv a r0 c L (commitU w a key value) ∧
      cbArgs c (commitU w a key value).log = cbArgs c w.log ++
        if allPresent (commitU w a key value) a L = true then
          [getValues ((commitU w a key value).atoms a).props L]
        else [] := by
  have hlive' : ((commitU w a key value).atoms a).destroyed = false := by
    rw [commitU_destroyed]; exact hlive
  have hwf' := commitU_regWF w a key value hwf
  have hothers : ∀ r ∈ ((commitU w a key value).atoms a).listeners, r ≠ r0 →
      ((commitU w a key value).heap r).cb ≠ .user c := by
    intro r hr hne
    rw [commitU_cb]
    exact hc r ((commitU_listeners_sublist w a key value).subset hr) hne
  have hargs := commitU_cbArgs_one w a key value hwf c r0 hr0 (by rw [hrec]) hc
  rw [hrec, fires_once] at hargs
  by_cases hF : (m.contains key && (m.filter (fun k => k != key)).isEmpty) = true
  · -- the last missing key arrives
    have hF' := hF
    rw [Bool.and_eq_true, List.isEmpty_iff] at hF'
    have hkm : key ∈ m := by simpa using hF'.1
    have hd : dispatches w a key value = true :=
      dispatches_of_absent w a key value ((hm key).mp hkm).2
    have hall' : allPresent (commitU w a key value) a L = true := by
      unfold allPresent
      rw [commitU_props, List.all_eq_true]
      intro x hx
      rw [hasOwn_assign]
      by_cases hxk : x = key
      · simp [hxk]
      · cases hx2 : hasOwn (w.atoms a).props x with
        | true => rfl
        | false =>
          exfalso
          have hxm : x ∈ m := (hm x).mpr ⟨hx, hx2⟩
          have : x ∈ m.filter (fun k => k != key) := by
            rw [List.mem_filter]; exact ⟨hxm, by simpa using hxk⟩
          rw [hF'.2] at this
          cases this
    refine ⟨⟨hlive', hwf', Or.inr ⟨hall', ?_, ?_⟩⟩, ?_⟩
    · rw [commitU_listeners_wf w a key value hwf, if_pos hd, List.mem_filter]
      rintro ⟨_, hx⟩
      rw [hrec, visited_once, if_pos hF] at hx
      simp [Calls.exhausted] at hx
    · intro r hr
      by_cases hrr : r = r0
      · exfalso
        subst hrr
        rw [commitU_listeners_wf w a key value hwf, if_pos hd, List.mem_filter] at hr
        have hx := hr.2
        rw [hrec, visited_once, if_pos hF] at hx
        simp [Calls.exhausted] at hx
      · exact hothers r hr hrr
    · rw [hargs, if_pos ⟨hd, hF⟩, if_pos hall', commitU_props]
  · -- the record keeps waiting
    have hall' : allPresent (commitU w a key value) a L = false := by
      rw [allPresent_false_iff, commitU_props]
      obtain ⟨x, hx, hx2⟩ := (allPresent_false_iff w a L).mp hall
      by_cases hkm : key ∈ m
      · have hne : ¬ (m.filter (fun k => k != key)).isEmpty = true := by
          intro he; apply hF; simp [hkm, he]
        rw [List.isEmpty_iff] at hne
        obtain ⟨y, hy⟩ := List.exists_mem_of_ne_nil _ hne
        rw [List.mem_filter] at hy
        have hyk : y ≠ key := by simpa using hy.2
        exact ⟨y, ((hm y).mp hy.1).1, by rw [hasOwn_assign_ne _ _ _ _ hyk]; exact ((hm y).mp hy.1).2⟩
      · have hxk : x ≠ key := fun h => hkm (h ▸ (hm x).mpr ⟨hx, hx2⟩)
        exact ⟨x, hx, by rw [hasOwn_assign_ne _ _ _ _ hxk]; exact hx2⟩
    refine ⟨⟨hlive', hwf', Or.inl ⟨hall', ?_, ?_, hothers⟩⟩, ?_⟩
    · rw [commitU_listeners_wf w a key value hwf]
      split
      · rw [List.mem_filter]
        refine ⟨hr0, ?_⟩
        rw [hrec, visited_once, if_neg hF]; rfl
      · exact hr0
    · by_cases hd : dispatches w a key value = true
      · refine ⟨m.filter (fun k => k != key), ?_, ?_⟩
        · rw [commitU_heap_wf w a key value hwf, if_pos ⟨hd, hr0⟩, hrec, visited_once,
            if_neg hF]
        · intro x
          rw [List.mem_filter, hm x, commitU_props, hasOwn_assign]
          by_cases hxk : x = key <;> simp [hxk]
      · refine ⟨m, ?_, ?_⟩
        · rw [commitU_heap_wf w a key value hwf, if_neg (fun h => hd h.1), hrec]
        · intro x
          rw [hm x, commitU_props, hasOwn_assign]
          by_cases hxk : x = key
          · subst hxk
            have hhad : hasOwn (w.atoms a).props x = true := by
              by_contra hh
              exact hd (dispatches_of_absent w a x value (by simpa using hh))
            simp [hhad]
          · simp [hxk]
    · rw [hargs, if_neg (fun h => hF h.2), if_neg (by rw [hall']; simp)]


/-- A set on a state with a `once` registration: the callback is called exactly
when the set makes the last absent key present, with the values `get` collects
after the write; present keys stay present. -/
theorem afterSet_once (a r0 c : Nat) (L : List Key) (w : World) (key : Key) (value : Value)
    (h : OnceInv a r0 c L w) :
    OnceInv a r0 c L (afterSet w a key value) ∧
      cbArgs c (afterSet w a key value).log = cbArgs c w.log ++
        (if (!allPresent w a L && allPresent (afterSet w a key value) a L) = true then
          [getValues ((afterSet w a key value).atoms a).props L]
        else []) ∧
      (allPresent w a L = true → allPresent (afterSet w a key value) a L = true) := by
  obtain ⟨hlive, hwf, hcase⟩ := h
  rcases hcase with ⟨hall, hr0, ⟨m, hrec, hm⟩, hc⟩ | ⟨hall, hnot, hc⟩
  · rcases afterSet_cases w a key value with ⟨_, heq⟩ | ⟨_, h1, h2, h3, h4⟩
    · rw [heq]
      have hw := commitU_once_waiting a r0 c L w key value hlive hwf hall hr0 m hrec hm hc
      refine ⟨hw.1, ?_, ?_⟩
      · rw [hw.2, hall]; simp
      · intro h; rw [hall] at h; cases h
    · refine ⟨onceInv_congr ⟨hlive, hwf, Or.inl ⟨hall, hr0, ⟨m, hrec, hm⟩, hc⟩⟩ h1 h2 h4, ?_, ?_⟩
      · rw [h3, allPresent_congr h1, hall]; simp
      · intro h; rw [hall] at h; cases h
  · have hd := afterSet_once_done a r0 c L w key value hlive hwf hall hnot hc
    refine ⟨hd.1, ?_, fun _ => hd.2.2⟩
    rw [hd.2.1, hall]; simp

theorem onceInv_mem_iff {a r0 c : Nat} {L : List Key} {w : World} (h : OnceInv a r0 c L w) :
    r0 ∈ (w.atoms a).listeners ↔ allPresent w a L = false := by
  rcases h.2.2 with ⟨hall, hr0, _⟩ | ⟨hall, hnot, _⟩
  · exact ⟨fun _ => hall, fun _ => hr0⟩
  · constructor
    · intro h1; exact absurd h1 hnot
    · intro h1; rw [hall] at h1; cases h1

theorem runSets_once (fuel a r0 c : Nat) (L : List Key) (ss : List (Key × Value)) (w : World)
    (h : OnceInv a r0 c L w) :
    ∃ wp, runSets (fuel + 1) a w ss = some wp ∧ OnceInv a r0 c L wp := by
  induction ss generalizing w with
  | nil => exact ⟨w, rfl, h⟩
  | cons kv ss ih =>
    obtain ⟨k, v⟩ := kv
    obtain ⟨wp, hp1, hp2⟩ := ih (afterSet w a k v) (afterSet_once a r0 c L w k v h).1
    refine ⟨wp, ?_, hp2⟩
    simp only [runSets, set_world fuel w a k v h.1 h.2.1]
    exact hp1

/-- The state right after `once(keys, c)` registered a record. -/
theorem addListener_onceInv (w : World) (a c : Nat) (L : List Key)
    (hlive : (w.atoms a).destroyed = false) (hwf : RegWF w a)
    (hfresh : ∀ r ∈ (w.atoms a).listeners, (w.heap r).cb ≠ .user c)
    (habs : allPresent w a L = false) :
    OnceInv a w.nextRec c L
      (addListener w a ⟨L, .user c, .fin 1, some (missingOf (w.atoms a).props [] L)⟩) := by
  refine ⟨?_, addListener_regWF w a _ hwf rfl rfl,
    Or.inl ⟨?_, ?_, ⟨missingOf (w.atoms a).props [] L, ?_, ?_⟩, ?_⟩⟩
  · rw [addListener_destroyed]; exact hlive
  · unfold allPresent at *
    rw [addListener_props]; exact habs
  · rw [addListener_listeners]; exact List.mem_cons_self _ _
  · rw [addListener_heap, Function.update_same]
  · intro k
    rw [mem_missingOf, addListener_props]
    simp
  · intro r hr hne
    rw [addListener_listeners] at hr
    rcases List.mem_cons.mp hr with h | h
    · exact absurd h hne
    · rw [addListener_heap_old w a _ hwf r h]; exact hfresh r h

/-- C6, for ordinary keys: on a live instance with a well-formed registry of user
callbacks, for keys that are not names of `Object.prototype`, of which one is
absent, and a callback `c` that no record has, `once(keys, c)` does not call `c`
and adds a record with budget 1 whose missing set is the absent keys; after any
sequence of sets of ordinary keys the record is registered exactly as long as a key
is absent, and a further set of an ordinary key calls `c` exactly when it makes the
last absent key present, once, with the values of the keys after the write; before
that and afterwards no set calls `c`, and the keys stay present. -/
theorem C6_once_fires_exactly_once (fuel : Nat) (w : World) (a : Nat) (kl : KeyOrList) (c : Nat)
    (hlive : (w.atoms a).destroyed = false) (hwf : RegWF w a)
    (hfresh : ∀ r ∈ (w.atoms a).listeners, (w.heap r).cb ≠ .user c)
    (_hK : ∀ k ∈ toArray kl, ordinaryKey k = true)
    (habs : allPresent w a (toArray kl) = false) :
    ∃ w1, me.once (fuel + 1) w a kl (.user c) = .ok w1 .undefined ∧ w1.log = w.log ∧
      (w1.atoms a).listeners = w.nextRec :: (w.atoms a).listeners ∧
      (∃ m, w1.heap w.nextRec = ⟨toArray kl, .user c, .fin 1, some m⟩ ∧
        ∀ k, k ∈ m ↔ k ∈ toArray kl ∧ hasOwn (w.atoms a).props k = false) ∧
      ∀ ss, (∀ p ∈ ss, ordinaryKey p.1 = true) →
        ∃ wp, runSets (fuel + 1) a w1 ss = some wp ∧
        (w.nextRec ∈ (wp.atoms a).listeners ↔ allPresent wp a (toArray kl) = false) ∧
        ∀ k v, ordinaryKey k = true → ∃ wq, (set (fuel + 1) wp a k v).world? = some wq ∧
          cbArgs c wq.log = cbArgs c wp.log ++
            (if (!allPresent wp a (toArray kl) && allPresent wq a (toArray kl)) = true then
              [getValues (wq.atoms a).props (toArray kl)]
            else []) ∧
          (allPresent wp a (toArray kl) = true → allPresent wq a (toArray kl) = true) ∧
          (w.nextRec ∈ (wq.atoms a).listeners ↔ allPresent wq a (toArray kl) = false) := by
  have h1 := addListener_onceInv w a c (toArray kl) hlive hwf hfresh habs
  have hget : (get (w.atoms a).props (toArray kl)).2 =
      some (missingOf (w.atoms a).props [] (toArray kl)) := by
    unfold allPresent at habs
    simp only [get, habs, Bool.false_eq_true, if_false]
  have honce : me.once (fuel + 1) w a kl (.user c) =
      .ok (addListener w a ⟨toArray kl, .user c, .fin 1,
        some (missingOf (w.atoms a).props [] (toArray kl))⟩) .undefined := by
    simp only [me.once, hlive, Bool.false_and, Bool.false_eq_true, if_false, hget]
  refine ⟨_, honce, rfl, addListener_listeners w a _,
    ⟨missingOf (w.atoms a).props [] (toArray kl), ?_, ?_⟩, ?_⟩
  · rw [addListener_heap, Function.update_same]
  · intro k; rw [mem_missingOf]; simp
  · intro ss _
    obtain ⟨wp, hp1, hp2⟩ := runSets_once fuel a w.nextRec c (toArray kl) ss _ h1
    refine ⟨wp, hp1, onceInv_mem_iff hp2, ?_⟩
    intro k v _
    have hs := afterSet_once a w.nextRec c (toArray kl) wp k v hp2
    exact ⟨_, set_world fuel wp a k v hp2.1 hp2.2.1, hs.2.1, hs.2.2, onceInv_mem_iff hs.1⟩


theorem sampleA_regWF : RegWF sampleA 0 :=
  commitU_regWF sampleWorld 0 "a" (.num 1) sampleWorld_regWF

theorem sampleA_fresh (c : Nat) (hc : c ≠ 7) :
    ∀ r ∈ (sampleA.atoms 0).listeners, (sampleA.heap r).cb ≠ .user c := by
  intro r hr
  unfold sampleA at hr ⊢
  rw [commitU_cb]
  exact sampleWorld_fresh c hc r ((commitU_listeners_sublist _ _ _ _).subset hr)

theorem C6_witness :
    ∃ w1, me.once 1 sampleA 0 (.list ["a", "b"]) (.user 5) = .ok w1 .undefined ∧
      w1.log = sampleA.log ∧
      (w1.atoms 0).listeners = sampleA.nextRec :: (sampleA.atoms 0).listeners ∧
      (∃ m, w1.heap sampleA.nextRec = ⟨toArray (.list ["a", "b"]), .user 5, .fin 1, some m⟩ ∧
        ∀ k, k ∈ m ↔ k ∈ toArray (.list ["a", "b"]) ∧ hasOwn (sampleA.atoms 0).props k = false) ∧
      ∀ ss, (∀ p ∈ ss, ordinaryKey p.1 = true) →
        ∃ wp, runSets 1 0 w1 ss = some wp ∧
        (sampleA.nextRec ∈ (wp.atoms 0).listeners ↔
          allPresent wp 0 (toArray (.list ["a", "b"])) = false) ∧
        ∀ k v, ordinaryKey k = true → ∃ wq, (set 1 wp 0 k v).world? = some wq ∧
          cbArgs 5 wq.log = cbArgs 5 wp.log ++
            (if (!allPresent wp 0 (toArray (.list ["a", "b"])) &&
                allPresent wq 0 (toArray (.list ["a", "b"]))) = true then
              [getValues (wq.atoms 0).props (toArray (.list ["a", "b"]))]
            else []) ∧
          (allPresent wp 0 (toArray (.list ["a", "b"])) = true →
            allPresent wq 0 (toArray (.list ["a", "b"])) = true) ∧
          (sampleA.nextRec ∈ (wq.atoms 0).listeners ↔
            allPresent wq 0 (toArray (.list ["a", "b"])) = false) :=
  C6_once_fires_exactly_once 0 sampleA 0 (.list ["a", "b"]) 5 (by decide) sampleA_regWF
    (sampleA_fresh 5 (by decide)) (by decide) (by decide)


/-! ## Providers -/

theorem producerCalls_append (id : Nat) (l1 l2 : List Event) :
    producerCalls id (l1 ++ l2) = producerCalls id l1 + producerCalls id l2 := by
  simp [producerCalls, List.countP_append]

theorem producerCalls_firedEvents (id a : Nat) (key : Key) (w : World) (r : Nat) :
    producerCalls id (firedEvents a key w r) = 0 := by
  unfold firedEvents
  split
  · split <;> simp [producerCalls]
  · simp [producerCalls]

theorem producerCalls_foldl_stepU (id a : Nat) (key : Key) (rs : List Nat) (w : World) :
    producerCalls id (rs.foldl (stepU a key) w).log = producerCalls id w.log := by
  induction rs generalizing w with
  | nil => rfl
  | cons r rs ih =>
    rw [List.foldl_cons, ih, stepU_log, producerCalls_append, producerCalls_firedEvents]
    rfl

theorem producerCalls_hookU (id cfg : Nat) (w : World) :
    producerCalls id (hookU cfg w).log = producerCalls id w.log := by
  unfold hookU
  split
  · simp [World.emit, producerCalls_append, producerCalls]
  · rfl

/-- A commit calls no producer. -/
theorem producerCalls_commitU (id : Nat) (w : World) (a : Nat) (key : Key) (value : Value) :
    producerCalls id (commitU w a key value).log = producerCalls id w.log := by
  unfold commitU
  split
  · rw [producerCalls_hookU]
    simp only [popObj_log, clearNeed, updAtom_log, passU, producerCalls_foldl_stepU, pushObj_log,
      assignW_log]
  · rfl

theorem commitU_cells (w : World) (a : Nat) (key : Key) (value : Value) :
    (commitU w a key value).cells = w.cells := by
  unfold commitU
  split
  · simp only [hookU_cells, popObj_cells, clearNeed, updAtom_cells,
      (passU_frame w a key value).cells, pushObj_cells, assignW]
  · rfl

theorem commitU_providers (w : World) (a : Nat) (key : Key) (value : Value) :
    ((commitU w a key value).atoms a).providers = (w.atoms a).providers := by
  unfold commitU
  split
  · simp only [hookU_atoms, popObj_atoms, clearNeed, updAtom_same,
      (passU_frame w a key value).providers, pushObj_atoms, assignW]
  · simp only [assignW, updAtom_same]

/-- A wrapper that has run ignores every further call. -/
theorem callDone_ran (fuel : Nat) (w : World) (cell : Nat) (c : Cell) (args : List Value)
    (hc : w.cells[cell]? = some c) (hran : c.ran = true) :
    callDone fuel w cell args = .ok w .undefined := by
  simp only [callDone, hc, hran, if_true]

theorem callAll_ran (fuel : Nat) (w : World) (cell : Nat) (c : Cell) (vs : List Value)
    (hc : w.cells[cell]? = some c) (hran : c.ran = true) :
    callAll fuel cell vs w = .ok w .undefined := by
  induction vs with
  | nil => rfl
  | cons v vs ih => simp only [callAll, callDone_ran fuel w cell c [v] hc hran, ih]

/-- The first call of the wrapper that `provide` made for `key` runs `set`. -/
theorem callDone_first (fuel : Nat) (w : World) (cell a : Nat) (key : Key) (args : List Value)
    (hc : w.cells[cell]? = some ⟨.setKey a key, false⟩) :
    callDone fuel w cell args =
      match set fuel (markRan w cell ⟨.setKey a key, false⟩) a key (args.headD .undefined) with
      | .ok w2 _ => .ok w2 .undefined
      | e => e := by
  simp only [callDone, hc, Bool.false_eq_true, if_false, markRan]


theorem providerFor_append_new (ps : List (Key × Producer)) (x : Key) (P : Producer)
    (h : providerFor ps x = none) : providerFor (ps ++ [(x, P)]) x = some P := by
  unfold providerFor at *
  have hf : ps.find? (fun p => p.1 == x) = none := by
    cases hfd : ps.find? (fun p => p.1 == x) with
    | none => rfl
    | some q => rw [hfd] at h; cases h
  rw [List.find?_append, hf]
  simp

theorem providerFor_filter_ne (ps : List (Key × Producer)) (x : Key) :
    providerFor (ps.filter (fun p => p.1 != x)) x = none := by
  unfold providerFor
  rw [Option.map_eq_none', List.find?_eq_none]
  intro p hp
  rw [List.mem_filter] at hp
  simpa using hp.2

theorem gate_of_no_validators (config : Config) (key : Key) (value : Value)
    (h : config.validation.bind (fun v => validationFor v key) = none) :
    gate config key value = .openPlain := by
  unfold gate
  rw [h]

/-- `me.provide` on an instance on which the key is not needed and has no provider
stores the producer. -/
theorem provide_stores (fuel : Nat) (w : World) (a : Nat) (x : Key) (P : Producer)
    (hlive : (w.atoms a).destroyed = false) (hneed : (w.atoms a).needs.contains x = false)
    (hprov : providerFor (w.atoms a).providers x = none) :
    me.provide fuel w a x P =
      .ok (w.updAtom a (fun s => { s with providers := s.providers ++ [(x, P)] })) .undefined := by
  simp only [me.provide, hlive, hneed, hprov, Bool.false_eq_true, if_false, Option.isNone_none,
    if_true]

/-- The helper `provide` makes a wrapper, calls the producer and runs the calls the
producer makes at once. -/
theorem provide_eq (fuel : Nat) (w : World) (a : Nat) (x : Key) (P : Producer) :
    provide fuel w a x P = callAll fuel w.cells.length P.sync (provided w a x P) := rfl

theorem provided_cell (w : World) (a : Nat) (x : Key) (P : Producer) :
    (provided w a x P).cells[w.cells.length]? = some ⟨.setKey a x, false⟩ := by
  simp [provided, World.emit]

theorem markRan_cell (w : World) (cell : Nat) (c : Cell) (h : w.cells[cell]? = some c) :
    (markRan w cell c).cells[cell]? = some { c with ran := true } := by
  have hlt : cell < w.cells.length := by
    by_contra hge
    rw [List.getElem?_eq_none (Nat.le_of_not_lt hge)] at h
    cases h
  simp [markRan, List.getElem?_set, hlt]


theorem regWF_of_eq {w w1 : World} {a : Nat} (hwf : RegWF w a)
    (hl : (w1.atoms a).listeners = (w.atoms a).listeners) (hh : w1.heap = w.heap)
    (hn : w1.nextRec = w.nextRec) : RegWF w1 a := by
  unfold RegWF at *
  rw [hl, hh, hn]
  exact hwf

/-- The first call of a fresh wrapper for `x` on a live, well-formed instance
without validators for `x` commits the value. -/
theorem callDone_commits (fuel : Nat) (w : World) (cell a : Nat) (x : Key) (v : Value)
    (hc : w.cells[cell]? = some ⟨.setKey a x, false⟩)
    (hlive : (w.atoms a).destroyed = false) (hwf : RegWF w a)
    (hval : (w.configs (w.atoms a).cfg).validation.bind (fun f => validationFor f x) = none) :
    callDone (fuel + 1) w cell [v] =
      .ok (commitU (markRan w cell ⟨.setKey a x, false⟩) a x v) .undefined := by
  rw [callDone_first (fuel + 1) w cell a x [v] hc]
  have hwf' : RegWF (markRan w cell ⟨.setKey a x, false⟩) a := regWF_of_eq hwf rfl rfl rfl
  rw [set_user fuel _ a x _ (by exact hlive) (regWF_user hwf')]
  have hg : gate ((markRan w cell ⟨.setKey a x, false⟩).configs
      ((markRan w cell ⟨.setKey a x, false⟩).atoms a).cfg) x ([v].headD .undefined)
        = .openPlain := gate_of_no_validators _ _ _ hval
  rw [hg]
  rfl

/-- After its first call the wrapper does nothing. -/
theorem callDone_again (fuel : Nat) (w : World) (cell a : Nat) (x : Key) (v : Value)
    (args : List Value) (hc : w.cells[cell]? = some ⟨.setKey a x, false⟩) :
    callDone fuel (commitU (markRan w cell ⟨.setKey a x, false⟩) a x v) cell args =
      .ok (commitU (markRan w cell ⟨.setKey a x, false⟩) a x v) .undefined := by
  apply callDone_ran fuel _ cell ⟨.setKey a x, true⟩ args _ rfl
  rw [commitU_cells]
  exact markRan_cell w cell _ hc

theorem callAll_again (fuel : Nat) (w : World) (cell a : Nat) (x : Key) (v : Value)
    (vs : List Value) (hc : w.cells[cell]? = some ⟨.setKey a x, false⟩) :
    callAll fuel cell vs (commitU (markRan w cell ⟨.setKey a x, false⟩) a x v) =
      .ok (commitU (markRan w cell ⟨.setKey a x, false⟩) a x v) .undefined := by
  apply callAll_ran fuel _ cell ⟨.setKey a x, true⟩ vs _ rfl
  rw [commitU_cells]
  exact markRan_cell w cell _ hc


theorem lookup_of_hasOwn_false (ps : List (Key × Value)) (x : Key) (h : hasOwn ps x = false) :
    ps.find? (fun p => p.1 == x) = none := by
  rw [List.find?_eq_none]
  intro p hp hpx
  have : hasOwn ps x = true := by
    unfold hasOwn
    rw [List.any_eq_true]
    exact ⟨p, hp, hpx⟩
  rw [h] at this
  cases this

/-- `need(x, c)` right after `provide(x, P)` when the producer calls its completion
callback at once, first with `v`. -/
theorem need_sync (fuel : Nat) (w : World) (a : Nat) (x : Key) (P : Producer) (c : Nat)
    (v : Value) (rest : List Value) (hsync : P.sync = v :: rest)
    (hlive : (w.atoms a).destroyed = false) (hwf : RegWF w a)
    (habs : hasOwn (w.atoms a).props x = false)
    (hprov : providerFor (w.atoms a).providers x = none)
    (hval : (w.configs (w.atoms a).cfg).validation.bind (fun f => validationFor f x) = none) :
    me.need (fuel + 1) (storeProvider w a x P) a (.key x) (some (.user c)) =
      .ok ((dropProvider (commitU (markRan (provided (storeProvider w a x P) a x P)
        w.cells.length ⟨.setKey a x, false⟩) a x v) a x).emit (.cb c [v])) .undefined := by
  have hcell := provided_cell (storeProvider w a x P) a x P
  have hwfP : RegWF (provided (storeProvider w a x P) a x P) a :=
    regWF_of_eq hwf (by simp [provided, World.emit, storeProvider]) rfl rfl
  have hliveP : ((provided (storeProvider w a x P) a x P).atoms a).destroyed = false := by
    simpa [provided, World.emit, storeProvider] using hlive
  have hvalP : ((provided (storeProvider w a x P) a x P).configs
      ((provided (storeProvider w a x P) a x P).atoms a).cfg).validation.bind
        (fun f => validationFor f x) = none := by
    simpa [provided, World.emit, storeProvider] using hval
  have hdone := callDone_commits fuel _ _ a x v hcell hliveP hwfP hvalP
  have hrest := callAll_again (fuel + 1) _ _ a x v rest hcell
  have hprovide : provide (fuel + 1) (storeProvider w a x P) a x P =
      .ok (commitU (markRan (provided (storeProvider w a x P) a x P)
        w.cells.length ⟨.setKey a x, false⟩) a x v) .undefined := by
    rw [provide_eq, hsync]
    have hlen : (storeProvider w a x P).cells.length = w.cells.length := rfl
    rw [hlen] at hdone hrest ⊢
    simp only [callAll, hdone, hrest]
  have hfind : providerFor ((storeProvider w a x P).atoms a).providers x = some P := by
    simp only [storeProvider, updAtom_same]
    exact providerFor_append_new _ x P hprov
  have habs1 : hasOwn ((storeProvider w a x P).atoms a).props x = false := by
    simpa [storeProvider] using habs
  have hlive1 : ((storeProvider w a x P).atoms a).destroyed = false := by
    simpa [storeProvider] using hlive
  have hloop : me.needLoop (fuel + 1) a [x] (storeProvider w a x P) =
      .ok (dropProvider (commitU (markRan (provided (storeProvider w a x P) a x P)
        w.cells.length ⟨.setKey a x, false⟩) a x v) a x) .undefined := by
    simp only [me.needLoop, habs1, Bool.false_eq_true, if_false, hfind, hprovide, dropProvider]
  have hdl : ((dropProvider (commitU (markRan (provided (storeProvider w a x P) a x P)
        w.cells.length ⟨.setKey a x, false⟩) a x v) a x).atoms a).destroyed = false := by
    simp only [dropProvider, updAtom_same, commitU_destroyed]
    exact hliveP
  have hprops : ((dropProvider (commitU (markRan (provided (storeProvider w a x P) a x P)
        w.cells.length ⟨.setKey a x, false⟩) a x v) a x).atoms a).props =
      assign (w.atoms a).props x v := by
    simp only [dropProvider, updAtom_same, commitU_props]
    simp [markRan, provided, World.emit, storeProvider]
  simp only [me.need, hlive1, Bool.false_and, Bool.false_eq_true, if_false, toArray,
    List.reverse_cons, List.reverse_nil, List.nil_append, hloop, me.once, hdl, get, hprops,
    List.all_cons, List.all_nil, hasOwn_assign_same, Bool.and_self, if_true, invoke, getValues,
    List.map_cons, List.map_nil, lookup_assign_same, List.reverse_singleton]


/-- `need(x, c)` right after `provide(x, P)` when the producer does not call its
completion callback at once: the callback waits in a `once` record. -/
theorem need_async (fuel : Nat) (w : World) (a : Nat) (x : Key) (P : Producer) (c : Nat)
    (hsync : P.sync = [])
    (hlive : (w.atoms a).destroyed = false)
    (habs : hasOwn (w.atoms a).props x = false)
    (hprov : providerFor (w.atoms a).providers x = none) :
    me.need (fuel + 1) (storeProvider w a x P) a (.key x) (some (.user c)) =
      .ok (addListener (dropProvider (provided (storeProvider w a x P) a x P) a x) a
        ⟨[x], .user c, .fin 1, some [x]⟩) .undefined := by
  have hprovide : provide (fuel + 1) (storeProvider w a x P) a x P =
      .ok (provided (storeProvider w a x P) a x P) .undefined := by
    rw [provide_eq, hsync]; rfl
  have hfind : providerFor ((storeProvider w a x P).atoms a).providers x = some P := by
    simp only [storeProvider, updAtom_same]
    exact providerFor_append_new _ x P hprov
  have habs1 : hasOwn ((storeProvider w a x P).atoms a).props x = false := by
    simpa [storeProvider] using habs
  have hlive1 : ((storeProvider w a x P).atoms a).destroyed = false := by
    simpa [storeProvider] using hlive
  have hloop : me.needLoop (fuel + 1) a [x] (storeProvider w a x P) =
      .ok (dropProvider (provided (storeProvider w a x P) a x P) a x) .undefined := by
    simp only [me.needLoop, habs1, Bool.false_eq_true, if_false, hfind, hprovide, dropProvider]
  have hdl : ((dropProvider (provided (storeProvider w a x P) a x P) a x).atoms a).destroyed
      = false := by
    simpa [dropProvider, provided, World.emit, storeProvider] using hlive
  have hprops : ((dropProvider (provided (storeProvider w a x P) a x P) a x).atoms a).props =
      (w.atoms a).props := by
    simp [dropProvider, provided, World.emit, storeProvider]
  simp only [me.need, hlive1, Bool.false_and, Bool.false_eq_true, if_false, toArray,
    List.reverse_cons, List.reverse_nil, List.nil_append, hloop, me.once, hdl, get, hprops,
    List.all_cons, List.all_nil, habs, Bool.false_and, missingOf, Bool.not_false,
    List.contains_nil, Bool.and_self, if_true]


theorem producerCalls_provided (w : World) (a : Nat) (x : Key) (P : Producer) :
    producerCalls P.id (provided w a x P).log = producerCalls P.id w.log + 1 := by
  simp [provided, World.emit, producerCalls_append, producerCalls]

theorem cbArgs_provided (c : Nat) (w : World) (a : Nat) (x : Key) (P : Producer) :
    cbArgs c (provided w a x P).log = cbArgs c w.log := by
  simp [provided, World.emit, cbArgs_append, cbArgs]

/-- A further `need(x)` without callback, when `x` has no provider, calls no
producer and no callback: it only marks the key. -/
theorem need_without_provider (fuel : Nat) (w : World) (a : Nat) (x : Key)
    (hlive : (w.atoms a).destroyed = false)
    (hprov : providerFor (w.atoms a).providers x = none) :
    ∃ w3, me.need fuel w a (.key x) none = .ok w3 .undefined ∧ w3.log = w.log := by
  have hm : (if hasOwn (w.atoms a).props x = true then none
      else providerFor (w.atoms a).providers x) = none := by
    split
    · rfl
    · exact hprov
  simp only [me.need, hlive, Bool.false_and, Bool.false_eq_true, if_false, toArray,
    List.reverse_cons, List.reverse_nil, List.nil_append, me.needLoop, hm]
  exact ⟨_, rfl, rfl⟩

/-- The facts of C8 for a producer that calls its completion callback at once. -/
theorem provide_need_sync (fuel : Nat) (w : World) (a : Nat) (x : Key) (P : Producer) (c : Nat)
    (v : Value) (rest : List Value) (hsync : P.sync = v :: rest)
    (hlive : (w.atoms a).destroyed = false) (hwf : RegWF w a)
    (hfresh : ∀ r ∈ (w.atoms a).listeners, (w.heap r).cb ≠ .user c)
    (habs : hasOwn (w.atoms a).props x = false)
    (hprov : providerFor (w.atoms a).providers x = none)
    (hval : (w.configs (w.atoms a).cfg).validation.bind (fun f => validationFor f x) = none) :
    ∃ w2, me.need (fuel + 1) (storeProvider w a x P) a (.key x) (some (.user c)) =
        .ok w2 .undefined ∧
      producerCalls P.id w2.log = producerCalls P.id w.log + 1 ∧
      providerFor (w2.atoms a).providers x = none ∧
      (w2.atoms a).destroyed = false ∧
      me.get w2 a x = some v ∧
      cbArgs c w2.log = cbArgs c w.log ++ [[v]] ∧
      ∀ args, callDone (fuel + 1) w2 w.cells.length args = .ok w2 .undefined := by
  refine ⟨_, need_sync fuel w a x P c v rest hsync hlive hwf habs hprov hval, ?_, ?_, ?_, ?_,
    ?_, ?_⟩
  · simp only [World.emit, dropProvider, updAtom_log, producerCalls_append, producerCalls_commitU]
    have : (markRan (provided (storeProvider w a x P) a x P) w.cells.length
        ⟨.setKey a x, false⟩).log = (provided (storeProvider w a x P) a x P).log := rfl
    rw [this, producerCalls_provided]
    simp [storeProvider, producerCalls]
  · simp only [World.emit, dropProvider, updAtom_same]
    exact providerFor_filter_ne _ x
  · simp only [World.emit, dropProvider, updAtom_same, commitU_destroyed]
    simpa [markRan, provided, World.emit, storeProvider] using hlive
  · have hd : ((dropProvider (commitU (markRan (provided (storeProvider w a x P) a x P)
        w.cells.length ⟨.setKey a x, false⟩) a x v) a x).atoms a).destroyed = false := by
      simp only [dropProvider, updAtom_same, commitU_destroyed]
      simpa [markRan, provided, World.emit, storeProvider] using hlive
    simp only [dropProvider, updAtom_same] at hd
    simp only [me.get, World.emit, hd, Bool.false_eq_true, if_false, get, getValues,
      dropProvider, updAtom_same, commitU_props, List.map_cons, List.map_nil,
      lookup_assign_same, List.reverse_singleton, List.headD_cons]
  · have hwfR : RegWF (markRan (provided (storeProvider w a x P) a x P) w.cells.length
        ⟨.setKey a x, false⟩) a :=
      regWF_of_eq hwf (by simp [markRan, provided, World.emit, storeProvider]) rfl rfl
    have hfreshR : ∀ r ∈ ((markRan (provided (storeProvider w a x P) a x P) w.cells.length
        ⟨.setKey a x, false⟩).atoms a).listeners,
        ((markRan (provided (storeProvider w a x P) a x P) w.cells.length
          ⟨.setKey a x, false⟩).heap r).cb ≠ .user c := by
      simpa [markRan, provided, World.emit, storeProvider] using hfresh
    simp only [World.emit, dropProvider, updAtom_log, cbArgs_append,
      commitU_cbArgs_none _ a x v hwfR c hfreshR]
    have : (markRan (provided (storeProvider w a x P) a x P) w.cells.length
        ⟨.setKey a x, false⟩).log = (provided (storeProvider w a x P) a x P).log := rfl
    rw [this, cbArgs_provided]
    simp [storeProvider, cbArgs]
  · intro args
    apply callDone_ran (fuel + 1) _ w.cells.length ⟨.setKey a x, true⟩ args _ rfl
    simp only [World.emit, dropProvider, updAtom_cells, commitU_cells]
    exact markRan_cell _ _ _ (provided_cell (storeProvider w a x P) a x P)


theorem afterSet_of_no_validators (w : World) (a : Nat) (x : Key) (v : Value)
    (hval : (w.configs (w.atoms a).cfg).validation.bind (fun f => validationFor f x) = none) :
    afterSet w a x v = commitU w a x v := by
  unfold afterSet
  rw [gate_of_no_validators _ x v hval]

/-- The facts of C8 for a producer that calls its completion callback later. -/
theorem provide_need_async (fuel : Nat) (w : World) (a : Nat) (x : Key) (P : Producer) (c : Nat)
    (hsync : P.sync = [])
    (hlive : (w.atoms a).destroyed = false) (hwf : RegWF w a)
    (hfresh : ∀ r ∈ (w.atoms a).listeners, (w.heap r).cb ≠ .user c)
    (habs : hasOwn (w.atoms a).props x = false)
    (hprov : providerFor (w.atoms a).providers x = none)
    (hval : (w.configs (w.atoms a).cfg).validation.bind (fun f => validationFor f x) = none) :
    ∃ w2, me.need (fuel + 1) (storeProvider w a x P) a (.key x) (some (.user c)) =
        .ok w2 .undefined ∧
      producerCalls P.id w2.log = producerCalls P.id w.log + 1 ∧
      providerFor (w2.atoms a).providers x = none ∧
      (w2.atoms a).destroyed = false ∧
      me.has w2 a (.key x) = false ∧
      cbArgs c w2.log = cbArgs c w.log ∧
      ∀ v, ∃ w3, callDone (fuel + 1) w2 w.cells.length [v] = .ok w3 .undefined ∧
        me.get w3 a x = some v ∧
        cbArgs c w3.log = cbArgs c w.log ++ [[v]] ∧
        producerCalls P.id w3.log = producerCalls P.id w2.log ∧
        ∀ args, callDone (fuel + 1) w3 w.cells.length args = .ok w3 .undefined := by
  -- the world before the record is added
  have hBl : ((dropProvider (provided (storeProvider w a x P) a x P) a x).atoms a).listeners
      = (w.atoms a).listeners := by
    simp [dropProvider, provided, World.emit, storeProvider]
  have hBp : ((dropProvider (provided (storeProvider w a x P) a x P) a x).atoms a).props
      = (w.atoms a).props := by
    simp [dropProvider, provided, World.emit, storeProvider]
  have hBd : ((dropProvider (provided (storeProvider w a x P) a x P) a x).atoms a).destroyed
      = false := by
    simpa [dropProvider, provided, World.emit, storeProvider] using hlive
  have hBc : ((dropProvider (provided (storeProvider w a x P) a x P) a x).atoms a).cfg
      = (w.atoms a).cfg := by
    simp [dropProvider, provided, World.emit, storeProvider]
  have hBwf : RegWF (dropProvider (provided (storeProvider w a x P) a x P) a x) a :=
    regWF_of_eq hwf hBl rfl rfl
  have hBfresh : ∀ r ∈ ((dropProvider (provided (storeProvider w a x P) a x P) a x).atoms
      a).listeners, ((dropProvider (provided (storeProvider w a x P) a x P) a x).heap r).cb
        ≠ .user c := by
    rw [hBl]; exact hfresh
  have hBabs : allPresent (dropProvider (provided (storeProvider w a x P) a x P) a x) a [x]
      = false := by
    simp [allPresent, hBp, habs]
  have hmiss : missingOf ((dropProvider (provided (storeProvider w a x P) a x P) a x).atoms
      a).props [] [x] = [x] := by
    simp [missingOf, hBp, habs]
  have hinv := addListener_onceInv _ a c [x] hBd hBwf hBfresh hBabs
  rw [hmiss] at hinv
  refine ⟨_, need_async fuel w a x P c hsync hlive habs hprov, ?_, ?_, ?_, ?_, ?_, ?_⟩
  · rw [addListener_log]
    simp only [dropProvider, updAtom_log, producerCalls_provided]
    simp [storeProvider, producerCalls]
  · simp only [addListener, World.updAtom, Function.update_same, dropProvider]
    exact providerFor_filter_ne _ x
  · exact hinv.1
  · simp only [me.has, hinv.1, Bool.false_eq_true, if_false, toArray, List.all_cons,
      List.all_nil, Bool.and_true, addListener_props, hBp, habs]
  · rw [addListener_log]
    simp only [dropProvider, updAtom_log, cbArgs_provided]
    simp [storeProvider, cbArgs]
  · intro v
    have hcell : (addListener (dropProvider (provided (storeProvider w a x P) a x P) a x) a
        ⟨[x], .user c, .fin 1, some [x]⟩).cells[w.cells.length]? =
          some ⟨.setKey a x, false⟩ := provided_cell (storeProvider w a x P) a x P
    have hval2 : ((addListener (dropProvider (provided (storeProvider w a x P) a x P) a x) a
        ⟨[x], .user c, .fin 1, some [x]⟩).configs
        ((addListener (dropProvider (provided (storeProvider w a x P) a x P) a x) a
        ⟨[x], .user c, .fin 1, some [x]⟩).atoms a).cfg).validation.bind
          (fun f => validationFor f x) = none := by
      have : ((addListener (dropProvider (provided (storeProvider w a x P) a x P) a x) a
          ⟨[x], .user c, .fin 1, some [x]⟩).atoms a).cfg = (w.atoms a).cfg := by
        simp [addListener, World.updAtom, hBc]
      rw [this]; exact hval
    have hdone := callDone_commits fuel _ _ a x v hcell hinv.1 hinv.2.1 hval2
    have hinvR : OnceInv a (dropProvider (provided (storeProvider w a x P) a x P) a x).nextRec
        c [x] (markRan (addListener (dropProvider (provided (storeProvider w a x P) a x P) a x)
          a ⟨[x], .user c, .fin 1, some [x]⟩) w.cells.length ⟨.setKey a x, false⟩) :=
      onceInv_congr hinv rfl rfl rfl
    have hstep := afterSet_once a _ c [x] _ x v hinvR
    rw [afterSet_of_no_validators _ a x v (by exact hval2)] at hstep
    have hall3 : allPresent (commitU (markRan (addListener (dropProvider (provided
        (storeProvider w a x P) a x P) a x) a ⟨[x], .user c, .fin 1, some [x]⟩)
        w.cells.length ⟨.setKey a x, false⟩) a x v) a [x] = true := by
      simp [allPresent, commitU_props, hasOwn_assign_same]
    have hall2 : allPresent (markRan (addListener (dropProvider (provided
        (storeProvider w a x P) a x P) a x) a ⟨[x], .user c, .fin 1, some [x]⟩)
        w.cells.length ⟨.setKey a x, false⟩) a [x] = false := by
      have hp : ((markRan (addListener (dropProvider (provided (storeProvider w a x P) a x P)
          a x) a ⟨[x], .user c, .fin 1, some [x]⟩) w.cells.length
          ⟨.setKey a x, false⟩).atoms a).props = (w.atoms a).props := by
        show ((addListener _ a _).atoms a).props = _
        rw [addListener_props, hBp]
      simp [allPresent, hp, habs]
    refine ⟨_, hdone, ?_, ?_, ?_, ?_⟩
    · have hd3 := hstep.1.1
      simp only [me.get, hd3, Bool.false_eq_true, if_false, get, getValues, commitU_props,
        List.map_cons, List.map_nil, lookup_assign_same, List.reverse_singleton,
        List.headD_cons]
    · rw [hstep.2.1, hall2, hall3]
      simp only [Bool.not_false, Bool.and_self, if_true, getValues, commitU_props, List.map_cons,
        List.map_nil, lookup_assign_same, List.reverse_singleton]
      congr 1
      have hlog2 : (markRan (addListener (dropProvider (provided (storeProvider w a x P) a x P)
          a x) a ⟨[x], .user c, .fin 1, some [x]⟩) w.cells.length
          ⟨.setKey a x, false⟩).log = (provided (storeProvider w a x P) a x P).log := rfl
      rw [hlog2, cbArgs_provided]
      simp [storeProvider, cbArgs]
    · rw [producerCalls_commitU]; rfl
    · intro args
      exact callDone_again (fuel + 1) _ _ a x v args hcell


/-- C8, for ordinary keys: on a live instance with a well-formed registry of user
callbacks, for a key `x` that is not a name of `Object.prototype` and is absent,
not needed, without provider and without validators, and a callback `c` no record
has: `provide(x, P)` stores the producer without calling
anything, and `need(x, c)` then calls the producer exactly once and removes it from
the provider registry, so that a further `need(x)` calls nothing.  If the producer
calls its completion callback at once, the first value `v` is committed, `c` is
called exactly once, with `v`, and every further call of the completion callback
does nothing.  If it calls it later, `c` has not been called yet, the first later
call with `v` commits `v` and calls `c` exactly once, with `v`, and every call after
that does nothing. -/
theorem C8_provide_then_need (fuel : Nat) (w : World) (a : Nat) (x : Key) (P : Producer)
    (c : Nat) (hlive : (w.atoms a).destroyed = false) (hwf : RegWF w a)
    (hfresh : ∀ r ∈ (w.atoms a).listeners, (w.heap r).cb ≠ .user c)
    (_hx : ordinaryKey x = true)
    (habs : hasOwn (w.atoms a).props x = false)
    (hneed : (w.atoms a).needs.contains x = false)
    (hprov : providerFor (w.atoms a).providers x = none)
    (hval : (w.configs (w.atoms a).cfg).validation.bind (fun f => validationFor f x) = none) :
    ∃ w1 w2, me.provide (fuel + 1) w a x P = .ok w1 .undefined ∧ w1.log = w.log ∧
      me.need (fuel + 1) w1 a (.key x) (some (.user c)) = .ok w2 .undefined ∧
      producerCalls P.id w2.log = producerCalls P.id w.log + 1 ∧
      providerFor (w2.atoms a).providers x = none ∧
      (∃ w3, me.need (fuel + 1) w2 a (.key x) none = .ok w3 .undefined ∧ w3.log = w2.log) ∧
      (∀ v rest, P.sync = v :: rest →
        me.get w2 a x = some v ∧ cbArgs c w2.log = cbArgs c w.log ++ [[v]] ∧
        ∀ args, callDone (fuel + 1) w2 w.cells.length args = .ok w2 .undefined) ∧
      (P.sync = [] →
        me.has w2 a (.key x) = false ∧ cbArgs c w2.log = cbArgs c w.log ∧
        ∀ v, ∃ w3, callDone (fuel + 1) w2 w.cells.length [v] = .ok w3 .undefined ∧
          me.get w3 a x = some v ∧
          cbArgs c w3.log = cbArgs c w.log ++ [[v]] ∧
          producerCalls P.id w3.log = producerCalls P.id w2.log ∧
          ∀ args, callDone (fuel + 1) w3 w.cells.length args = .ok w3 .undefined) := by
  have hstore := provide_stores (fuel + 1) w a x P hlive hneed hprov
  cases hs : P.sync with
  | nil =>
    obtain ⟨w2, h1, h2, h3, h4, h5, h6, h7⟩ :=
      provide_need_async fuel w a x P c hs hlive hwf hfresh habs hprov hval
    refine ⟨_, w2, hstore, rfl, h1, h2, h3, need_without_provider (fuel + 1) w2 a x h4 h3, ?_, ?_⟩
    · intro v rest hvr; cases hvr
    · intro _; exact ⟨h5, h6, h7⟩
  | cons v rest =>
    obtain ⟨w2, h1, h2, h3, h4, h5, h6, h7⟩ :=
      provide_need_sync fuel w a x P c v rest hs hlive hwf hfresh habs hprov hval
    refine ⟨_, w2, hstore, rfl, h1, h2, h3, need_without_provider (fuel + 1) w2 a x h4 h3, ?_, ?_⟩
    · intro v' rest' hvr
      injection hvr with hv _
      subst hv
      exact ⟨h5, h6, h7⟩
    · intro hnil; cases hnil

theorem C8_witness :
    ∃ w1 w2, me.provide 1 sampleWorld 0 "x" ⟨3, [.num 1, .num 2]⟩ = .ok w1 .undefined ∧
      w1.log = sampleWorld.log ∧
      me.need 1 w1 0 (.key "x") (some (.user 5)) = .ok w2 .undefined ∧
      producerCalls (Producer.mk 3 [.num 1, .num 2]).id w2.log =
        producerCalls (Producer.mk 3 [.num 1, .num 2]).id sampleWorld.log + 1 ∧
      providerFor (w2.atoms 0).providers "x" = none ∧
      (∃ w3, me.need 1 w2 0 (.key "x") none = .ok w3 .undefined ∧ w3.log = w2.log) ∧
      (∀ v rest, (Producer.mk 3 [.num 1, .num 2]).sync = v :: rest →
        me.get w2 0 "x" = some v ∧ cbArgs 5 w2.log = cbArgs 5 sampleWorld.log ++ [[v]] ∧
        ∀ args, callDone 1 w2 sampleWorld.cells.length args = .ok w2 .undefined) ∧
      ((Producer.mk 3 [.num 1, .num 2]).sync = [] →
        me.has w2 0 (.key "x") = false ∧ cbArgs 5 w2.log = cbArgs 5 sampleWorld.log ∧
        ∀ v, ∃ w3, callDone 1 w2 sampleWorld.cells.length [v] = .ok w3 .undefined ∧
          me.get w3 0 "x" = some v ∧
          cbArgs 5 w3.log = cbArgs 5 sampleWorld.log ++ [[v]] ∧
          producerCalls (Producer.mk 3 [.num 1, .num 2]).id w3.log =
            producerCalls (Producer.mk 3 [.num 1, .num 2]).id w2.log ∧
          ∀ args, callDone 1 w3 sampleWorld.cells.length args = .ok w3 .undefined) :=
  C8_provide_then_need 0 sampleWorld 0 "x" ⟨3, [.num 1, .num 2]⟩ 5 rfl sampleWorld_regWF
    (sampleWorld_fresh 5 (by decide)) (by decide) (by decide) (by decide) (by decide) rfl


/-! ## The queue -/

theorem started_append (l1 l2 : List Event) : started (l1 ++ l2) = started l1 ++ started l2 := by
  simp [started, List.filterMap_append]

/-- `doNext` when a task waits and nothing was set aside: the task is shifted out
and started with a fresh completion callback. -/
theorem doNext_start (w : World) (a : Nat) (args : List Value) (t : Nat) (rest : List Nat)
    (hlive : (w.atoms a).destroyed = false) (hnext : (w.atoms a).q.next = none)
    (hitems : (w.atoms a).q.items = t :: rest) :
    doNext w a args =
      ({ (w.updAtom a (fun s =>
          { s with q := { items := rest, pending := some t, next := none, args := some args } }))
        with cells := w.cells ++ [Cell.mk (.doNext a) false] }).emit
          (.task t w.cells.length args) := by
  simp [doNext, hlive, hnext, hitems, World.updAtom, World.emit]

/-- `doNext` when no task waits: nothing is pending any more. -/
theorem doNext_idle (w : World) (a : Nat) (args : List Value)
    (hlive : (w.atoms a).destroyed = false) (hnext : (w.atoms a).q.next = none)
    (hitems : (w.atoms a).q.items = []) :
    doNext w a args =
      w.updAtom a (fun s =>
        { s with q := { items := [], pending := none, next := none, args := some args } }) := by
  simp [doNext, hlive, hnext, hitems, World.updAtom]


/-- `doNext` entered with every callback run: it starts the next enqueued task if
there is one and leaves the queue idle otherwise. -/
theorem qinv_doNext (a base : Nat) (b0 enq : List Nat) (n : Nat) (w : World)
    (args : List Value) (h : QReady a base b0 enq n w) :
    ∃ n1, QInv a base b0 enq n1 (doNext w a args) := by
  by_cases hlt : n < enq.length
  · -- a task waits
    have hdrop : enq.drop n = enq[n] :: enq.drop (n + 1) := List.drop_eq_getElem_cons hlt
    have hit : (w.atoms a).q.items = enq[n] :: enq.drop (n + 1) := by rw [h.items, hdrop]
    refine ⟨n + 1, ?_⟩
    rw [doNext_start w a args _ _ h.live h.next hit]
    constructor
    · simpa [World.emit] using h.live
    · exact hlt
    · have hs : started (w.log ++ [Event.task enq[n] w.cells.length args]) =
          b0 ++ List.take (n + 1) enq := by
        rw [started_append, h.order, List.take_succ, List.getElem?_eq_getElem hlt]
        simp [started]
      exact hs
    · simp [World.emit]
    · simp [World.emit]
    · simp [World.emit, h.len]; omega
    · intro i hi
      simp only [World.emit, updAtom_same, Option.isNone_some, Bool.or_false]
      by_cases hin : i < n
      · rw [List.getElem?_append_left (by rw [h.len]; omega), h.cells i hin]
        simp [hin]
      · have hieq : i = n := by omega
        subst hieq
        rw [List.getElem?_append_right (by rw [h.len]), h.len]
        simp
    · intro hp
      simp [World.emit] at hp
    · intro h0; omega
  · -- nothing waits
    have hn : n = enq.length := Nat.le_antisymm h.le (Nat.le_of_not_lt hlt)
    have hit : (w.atoms a).q.items = [] := by
      rw [h.items, hn]; simp
    refine ⟨n, ?_⟩
    rw [doNext_idle w a args h.live h.next hit]
    constructor
    · simpa using h.live
    · exact h.le
    · exact h.order
    · simp only [updAtom_same]; rw [hn]; simp
    · simp
    · exact h.len
    · intro i hi
      simp only [updAtom_cells, updAtom_same, Option.isNone_none, Bool.or_true]
      exact h.cells i hi
    · intro _; exact hn
    · intro _; simp


/-- One `q.push(task)` of `chain`, with the `doNext` that follows when nothing is
pending, keeps the queue invariant with the task added to the enqueued ones. -/
theorem qinv_chain1 (a base : Nat) (b0 enq : List Nat) (n : Nat) (w : World) (t : Nat)
    (h : QInv a base b0 enq n w) :
    ∃ n1, QInv a base b0 (enq ++ [t]) n1 (me.chain1 w a t) := by
  unfold me.chain1
  simp only [updAtom_same]
  by_cases hp : (w.atoms a).q.pending.isNone = true
  · rw [if_pos hp]
    have hpn : (w.atoms a).q.pending = none := by simpa using hp
    apply qinv_doNext a base b0 (enq ++ [t]) n
    constructor
    · simpa using h.live
    · rw [List.length_append]; have := h.le; omega
    · simp only [updAtom_log]
      rw [h.order, List.take_append_of_le_length h.le]
    · simp only [updAtom_same]
      rw [h.items, List.drop_append_of_le_length h.le]
    · simpa using h.next
    · simpa using h.len
    · intro i hi
      have := h.cells i hi
      simpa [hpn] using this
  · rw [if_neg hp]
    refine ⟨n, ?_⟩
    constructor
    · simpa using h.live
    · rw [List.length_append]; have := h.le; omega
    · simp only [updAtom_log]
      rw [h.order, List.take_append_of_le_length h.le]
    · simp only [updAtom_same]
      rw [h.items, List.drop_append_of_le_length h.le]
    · simpa using h.next
    · simpa using h.len
    · intro i hi
      simpa using h.cells i hi
    · intro hq
      exfalso; apply hp
      simpa using hq
    · intro h0
      simpa using h.busy h0

theorem qinv_chain (a base : Nat) (b0 enq : List Nat) (n : Nat) (w : World) (ts : List Nat)
    (h : QInv a base b0 enq n w) :
    ∃ n1, QInv a base b0 (enq ++ ts) n1 (me.chain w a ts) := by
  unfold me.chain
  rw [if_neg (by rw [h.live]; simp)]
  induction ts generalizing enq n w with
  | nil => exact ⟨n, by simpa using h⟩
  | cons t ts ih =>
    obtain ⟨n1, h1⟩ := qinv_chain1 a base b0 enq n w t h
    obtain ⟨n2, h2⟩ := ih (enq ++ [t]) n1 (me.chain1 w a t) h1
    refine ⟨n2, ?_⟩
    simpa using h2

/-- A call of a completion callback keeps the queue invariant. -/
theorem qinv_done (fuel a base : Nat) (b0 enq : List Nat) (n : Nat) (w : World) (i : Nat)
    (args : List Value) (h : QInv a base b0 enq n w) :
    ∃ n1 w1, callDone fuel w (base + i) args = .ok w1 .undefined ∧
      QInv a base b0 enq n1 w1 := by
  by_cases hi : i < n
  · have hc := h.cells i hi
    by_cases hr : (decide (i + 1 < n) || (w.atoms a).q.pending.isNone) = true
    · refine ⟨n, w, ?_, h⟩
      exact callDone_ran fuel w (base + i) _ args hc hr
    · have hr' : (decide (i + 1 < n) || (w.atoms a).q.pending.isNone) = false :=
        Bool.eq_false_iff.mpr hr
      rw [hr'] at hc
      rw [Bool.or_eq_false_iff] at hr'
      have hin : i + 1 = n := by
        have := hr'.1
        simp at this
        omega
      have hd : callDone fuel w (base + i) args =
          .ok (doNext { w with cells := w.cells.set (base + i) ⟨.doNext a, true⟩ } a args)
            .undefined := by
        simp only [callDone, hc, Bool.false_eq_true, if_false]
      rw [hd]
      obtain ⟨n1, h1⟩ := qinv_doNext a base b0 enq n
        { w with cells := w.cells.set (base + i) ⟨.doNext a, true⟩ } args
        { live := h.live, le := h.le, order := h.order, items := h.items, next := h.next,
          len := by simpa using h.len,
          cells := by
            intro j hj
            simp only [List.getElem?_set]
            by_cases hji : j = i
            · subst hji
              have hlt : base + j < w.cells.length := by rw [h.len]; omega
              simp [hlt]
            · have hne : ¬ (base + i = base + j) := by omega
              rw [if_neg hne, h.cells j hj]
              have : j + 1 < n := by omega
              simp [this] }
      exact ⟨n1, _, rfl, h1⟩
  · refine ⟨n, w, ?_, h⟩
    have hnone : w.cells[base + i]? = none := by
      rw [List.getElem?_eq_none]
      rw [h.len]; omega
    simp only [callDone, hnone]


theorem qinv_run (a base : Nat) (b0 : List Nat) (evs : List QEvent) (enq : List Nat) (n : Nat)
    (w : World) (h : QInv a base b0 enq n w) :
    ∃ n1, QInv a base b0 (enq ++ enqueued evs) n1 (runQ a base w evs) := by
  induction evs generalizing enq n w with
  | nil => exact ⟨n, by simpa [enqueued, runQ] using h⟩
  | cons ev evs ih =>
    cases ev with
    | chain ts =>
      obtain ⟨n1, h1⟩ := qinv_chain a base b0 enq n w ts h
      obtain ⟨n2, h2⟩ := ih (enq ++ ts) n1 _ h1
      exact ⟨n2, by simpa [enqueued, runQ, List.append_assoc] using h2⟩
    | done i args =>
      obtain ⟨n1, w1, hd, h1⟩ := qinv_done 0 a base b0 enq n w i args h
      obtain ⟨n2, h2⟩ := ih enq n1 w1 h1
      exact ⟨n2, by simpa [enqueued, runQ, hd] using h2⟩

/-- C9: on a live instance whose queue is empty and idle, after any sequence of
`chain(...)` calls and calls of completion callbacks: the tasks started are the
first `n` of the tasks enqueued, in that order, and the others wait in order; each
started task got one completion callback; the callbacks of all started tasks but
the newest have been called, so a task is started only after the one before it
completed and at most one started task has not completed; when nothing is pending
every enqueued task was started; and calling a completion callback that was already
called changes nothing. -/
theorem C9_chain_runs_in_order (fuel : Nat) (w0 : World) (a : Nat) (evs : List QEvent)
    (hlive : (w0.atoms a).destroyed = false) (hitems : (w0.atoms a).q.items = [])
    (hpending : (w0.atoms a).q.pending = none) (hnext : (w0.atoms a).q.next = none) :
    ∃ n, n ≤ (enqueued evs).length ∧
      started (runQ a w0.cells.length w0 evs).log = started w0.log ++ (enqueued evs).take n ∧
      ((runQ a w0.cells.length w0 evs).atoms a).q.items = (enqueued evs).drop n ∧
      (runQ a w0.cells.length w0 evs).cells.length = w0.cells.length + n ∧
      (∀ i, i + 1 < n →
        (runQ a w0.cells.length w0 evs).cells[w0.cells.length + i]? = some ⟨.doNext a, true⟩) ∧
      (∀ i j ci cj, (runQ a w0.cells.length w0 evs).cells[w0.cells.length + i]? = some ci →
        (runQ a w0.cells.length w0 evs).cells[w0.cells.length + j]? = some cj →
        ci.ran = false → cj.ran = false → i = j) ∧
      (((runQ a w0.cells.length w0 evs).atoms a).q.pending = none →
        n = (enqueued evs).length) ∧
      (∀ cell c args, (runQ a w0.cells.length w0 evs).cells[cell]? = some c → c.ran = true →
        callDone fuel (runQ a w0.cells.length w0 evs) cell args =
          .ok (runQ a w0.cells.length w0 evs) .undefined) := by
  have h0 : QInv a w0.cells.length (started w0.log) [] 0 w0 :=
    { live := hlive, le := Nat.le_refl _, order := by simp, items := by simpa using hitems,
      next := hnext, len := rfl, cells := fun i hi => absurd hi (Nat.not_lt_zero i),
      idle := fun _ => rfl, busy := fun _ => hpending }
  obtain ⟨n, h⟩ := qinv_run a w0.cells.length (started w0.log) evs [] 0 w0 h0
  rw [List.nil_append] at h
  have hran : ∀ i, i + 1 < n →
      (runQ a w0.cells.length w0 evs).cells[w0.cells.length + i]? = some ⟨.doNext a, true⟩ := by
    intro i hi
    have := h.cells i (by omega)
    simpa [hi] using this
  have hlast : ∀ i ci, (runQ a w0.cells.length w0 evs).cells[w0.cells.length + i]? = some ci →
      ci.ran = false → i + 1 = n := by
    intro i ci hci hr
    have hlt : w0.cells.length + i < (runQ a w0.cells.length w0 evs).cells.length := by
      by_contra hge
      rw [List.getElem?_eq_none (Nat.le_of_not_lt hge)] at hci
      cases hci
    rw [h.len] at hlt
    by_contra hne
    have := hran i (by omega)
    rw [this] at hci
    injection hci with hci
    rw [← hci] at hr
    cases hr
  refine ⟨n, h.le, h.order, h.items, h.len, hran, ?_, h.idle, ?_⟩
  · intro i j ci cj hi hj hri hrj
    have := hlast i ci hi hri
    have := hlast j cj hj hrj
    omega
  · intro cell c args hc hr
    exact callDone_ran fuel _ cell c args hc hr

theorem C9_witness :
    ∃ n, n ≤ (enqueued [.chain [1, 2, 3], .done 0 [], .done 0 [], .chain [4]]).length ∧
      started (runQ 0 sampleWorld.cells.length sampleWorld
          [.chain [1, 2, 3], .done 0 [], .done 0 [], .chain [4]]).log =
        started sampleWorld.log ++
          (enqueued [.chain [1, 2, 3], .done 0 [], .done 0 [], .chain [4]]).take n ∧
      ((runQ 0 sampleWorld.cells.length sampleWorld
          [.chain [1, 2, 3], .done 0 [], .done 0 [], .chain [4]]).atoms 0).q.items =
        (enqueued [.chain [1, 2, 3], .done 0 [], .done 0 [], .chain [4]]).drop n ∧
      (runQ 0 sampleWorld.cells.length sampleWorld
          [.chain [1, 2, 3], .done 0 [], .done 0 [], .chain [4]]).cells.length =
        sampleWorld.cells.length + n ∧
      (∀ i, i + 1 < n →
        (runQ 0 sampleWorld.cells.length sampleWorld
          [.chain [1, 2, 3], .done 0 [], .done 0 [], .chain [4]]).cells[
            sampleWorld.cells.length + i]? = some ⟨.doNext 0, true⟩) ∧
      (∀ i j ci cj,
        (runQ 0 sampleWorld.cells.length sampleWorld
          [.chain [1, 2, 3], .done 0 [], .done 0 [], .chain [4]]).cells[
            sampleWorld.cells.length + i]? = some ci →
        (runQ 0 sampleWorld.cells.length sampleWorld
          [.chain [1, 2, 3], .done 0 [], .done 0 [], .chain [4]]).cells[
            sampleWorld.cells.length + j]? = some cj →
        ci.ran = false → cj.ran = false → i = j) ∧
      (((runQ 0 sampleWorld.cells.length sampleWorld
          [.chain [1, 2, 3], .done 0 [], .done 0 [], .chain [4]]).atoms 0).q.pending = none →
        n = (enqueued [.chain [1, 2, 3], .done 0 [], .done 0 [], .chain [4]]).length) ∧
      (∀ cell c args,
        (runQ 0 sampleWorld.cells.length sampleWorld
          [.chain [1, 2, 3], .done 0 [], .done 0 [], .chain [4]]).cells[cell]? = some c →
        c.ran = true →
        callDone 1 (runQ 0 sampleWorld.cells.length sampleWorld
          [.chain [1, 2, 3], .done 0 [], .done 0 [], .chain [4]]) cell args =
          .ok (runQ 0 sampleWorld.cells.length sampleWorld
            [.chain [1, 2, 3], .done 0 [], .done 0 [], .chain [4]]) .undefined) :=
  C9_chain_runs_in_order 1 sampleWorld 0 [.chain [1, 2, 3], .done 0 [], .done 0 [], .chain [4]]
    rfl rfl rfl rfl


/-! ## Entangled instances -/

theorem dispatch_append (setF : World → Nat → Key → Value → Res) (a : Nat) (key : Key)
    (xs ys : List Nat) (w : World) :
    dispatch setF a key (xs ++ ys) w =
      match dispatch setF a key xs w with
      | .ok w1 _ => dispatch setF a key ys w1
      | e => e := by
  induction xs generalizing w with
  | nil => rfl
  | cons x xs ih =>
    simp only [List.cons_append, dispatch]
    cases step setF a key w x with
    | ok w1 r => exact ih w1
    | threw w1 => rfl
    | outOfFuel => rfl

/-- `performSet` when the value is the one the key already holds and no
notification is due: only the assignment happens. -/
theorem performSet_quiet (setF : World → Nat → Key → Value → Res) (w : World) (a : Nat)
    (key : Key) (value : Value) (hlive : (w.atoms a).destroyed = false)
    (hd : dispatches w a key value = false) :
    performSet setF w a key value = .ok (assignW w a key value) .undefined := by
  unfold performSet
  have hd2 := hd
  unfold dispatches at hd2
  simp only [hlive, Bool.false_eq_true, if_false, hd2]
  rfl

/-- `performSet` when a notification is due. -/
theorem performSet_loud (setF : World → Nat → Key → Value → Res) (w : World) (a : Nat)
    (key : Key) (value : Value) (hlive : (w.atoms a).destroyed = false)
    (hd : dispatches w a key value = true) :
    performSet setF w a key value =
      match dispatch setF a key (w.atoms a).listeners.reverse
          (pushObj value (assignW w a key value)) with
      | .ok w3 _ => .ok (hookU (w.atoms a).cfg (popObj value (clearNeed w3 a key))) .undefined
      | e => e := by
  unfold performSet
  have hd2 := hd
  unfold dispatches at hd2
  simp only [hlive, Bool.false_eq_true, if_false, hd2, if_true]
  unfold hookU popObj clearNeed pushObj assignW
  cases dispatch setF a key (w.atoms a).listeners.reverse _ with
  | ok w3 r =>
    dsimp only
    split <;> rename_i h <;> simp only [h]
  | threw w1 => rfl
  | outOfFuel => rfl

theorem foldl_stepU_heap_notin (a : Nat) (key : Key) (rs : List Nat) (w : World) (x : Nat)
    (hx : x ∉ rs) : (rs.foldl (stepU a key) w).heap x = w.heap x := by
  induction rs generalizing w with
  | nil => rfl
  | cons r rs ih =>
    rw [List.foldl_cons, ih _ (fun h => hx (List.mem_cons_of_mem _ h)), stepU_heap,
      Function.update_noteq (fun h => hx (by rw [h]; exact List.mem_cons_self _ _))]

/-- One turn of the loop for a persistent record made by `entangle`, when the key
matches: the other instance's `set` runs with the value of the key; when it returns
the turn ends without touching any property map, and when it runs out of fuel so
does the turn. -/
theorem step_forward (setF : World → Nat → Key → Value → Res) (a : Nat) (key : Key)
    (w : World) (r t : Nat) (tk : Key)
    (hrec : w.heap r = ⟨[key], .forward t tk, .inf, none⟩) :
    (∀ w1 r1, setF w t tk (lookup (w.atoms a).props key) = .ok w1 r1 →
      ∃ w2, step setF a key w r = .ok w2 .undefined ∧
        ∀ b, (w2.atoms b).props = (w1.atoms b).props ∧
          (w2.atoms b).destroyed = (w1.atoms b).destroyed) ∧
    (setF w t tk (lookup (w.atoms a).props key) = .outOfFuel →
      step setF a key w r = .outOfFuel) := by
  have hstep : step setF a key w r =
      match fire setF w a r with
      | .ok w2 _ =>
        if (w2.heap r).calls.exhausted then
          .ok (w2.updAtom a (fun s =>
            { s with listeners := removeListener w2.heap s.listeners })) .undefined
        else .ok w2 .undefined
      | e => e := by
    simp only [step, hrec, List.contains_cons, beq_self_eq_true, Bool.true_or, if_true]
  have hfire : fire setF w a r =
      match setF w t tk (lookup (w.atoms a).props key) with
      | .ok w1 _ => .ok (w1.updRec r (fun l => { l with calls := l.calls.dec })) .undefined
      | e => e := by
    simp only [fire, hrec, invoke, getValues, List.map_cons, List.map_nil,
      List.reverse_singleton, List.headD_cons]
  constructor
  · intro w1 r1 h1
    rw [hstep, hfire, h1]
    dsimp only
    split
    · exact ⟨_, rfl, fun b => by
        by_cases hb : b = a
        · subst hb; simp [World.updRec]
        · simp [World.updRec, updAtom_other _ _ _ _ hb]⟩
    · exact ⟨_, rfl, fun b => ⟨rfl, rfl⟩⟩
  · intro h1
    rw [hstep, hfire, h1]


theorem gate_of_no_validation (config : Config) (key : Key) (value : Value)
    (h : config.validation = none) : gate config key value = .openPlain :=
  gate_of_no_validators config key value (by rw [h]; rfl)

theorem inArray_append_self (xs : List Value) (v : Value) (hobj : isObject v = true) :
    inArray (xs ++ [v]) v = true := by
  cases v <;> simp [isObject] at hobj
  simp [inArray, strictEq]

/-- A `set` of the value the key already holds, for a value that is not `NaN` and,
if it is an object, is on `objStack`, returns at once and changes nothing. -/
theorem set_suppressed (fuel : Nat) (w : World) (X : Nat) (kx : Key) (v : Value)
    (hlive : (w.atoms X).destroyed = false)
    (hval : (w.configs (w.atoms X).cfg).validation = none)
    (hhas : hasOwn (w.atoms X).props kx = true) (hlook : lookup (w.atoms X).props kx = v)
    (hnan : v ≠ .nan) (hstack : isObject v = true → inArray w.objStack v = true) :
    set (fuel + 1) w X kx v = .ok w .undefined := by
  have hd : dispatches w X kx v = false := by
    unfold dispatches
    rw [hhas, hlook, strictEq_self hnan]
    cases hobj : isObject v
    · rfl
    · rw [hstack hobj]; rfl
  simp only [set, setBody_gate, gate_of_no_validation _ kx v hval,
    performSet_quiet _ w X kx v hlive hd]
  have : assignW w X kx v = w := by
    unfold assignW
    apply updAtom_id
    rw [assign_same_value _ _ _ hhas hlook]
  rw [this]


theorem not_mem_of_forward (w : World) (ls : List Nat) (r t : Nat) (ks : List Key) (tk : Key)
    (hrec : w.heap r = ⟨ks, .forward t tk, .inf, none⟩)
    (hu : ∀ x ∈ ls, isUser (w.heap x) = true) : r ∉ ls := by
  intro hmem
  have := hu r hmem
  rw [hrec] at this
  cases this

/-- The receiving side of an entanglement: `R.set(kr, v)` called by the forwarding
closure of `S`, whose key `ks` already holds `v`.  The call returns, `R` holds `v`
for `kr`, and the call back into `S` is suppressed. -/
theorem set_bounces (fuel : Nat) (W : World) (S R : Nat) (ks kr : Key) (v : Value) (rR : Nat)
    (lsR : List Nat) (hne : S ≠ R)
    (liveS : (W.atoms S).destroyed = false) (liveR : (W.atoms R).destroyed = false)
    (valS : (W.configs (W.atoms S).cfg).validation = none)
    (valR : (W.configs (W.atoms R).cfg).validation = none)
    (hl : (W.atoms R).listeners = rR :: lsR)
    (hrec : W.heap rR = ⟨[kr], .forward S ks, .inf, none⟩)
    (huser : ∀ r ∈ lsR, isUser (W.heap r) = true)
    (hhasS : hasOwn (W.atoms S).props ks = true) (hlookS : lookup (W.atoms S).props ks = v)
    (hnan : v ≠ .nan) :
    ∃ W1, set (fuel + 2) W R kr v = .ok W1 .undefined ∧
      (∀ b, (W1.atoms b).destroyed = (W.atoms b).destroyed) ∧
      hasOwn (W1.atoms R).props kr = true ∧ lookup (W1.atoms R).props kr = v ∧
      (W1.atoms S).props = (W.atoms S).props := by
  rw [show set (fuel + 2) W R kr v = setBody (set (fuel + 1)) W R kr v from rfl, setBody_gate,
    gate_of_no_validation _ kr v valR]
  dsimp only
  by_cases hd : dispatches W R kr v = true
  · rw [performSet_loud _ W R kr v liveR hd, hl, List.reverse_cons, dispatch_append]
    have hu3 : ∀ r ∈ lsR.reverse, isUser ((pushObj v (assignW W R kr v)).heap r) = true := by
      intro r hr
      simpa using huser r (List.mem_reverse.mp hr)
    rw [dispatch_user _ R kr lsR.reverse _ hu3]
    dsimp only
    have hfr := foldl_stepU_frame R kr lsR.reverse (pushObj v (assignW W R kr v))
    have hrec4 : (lsR.reverse.foldl (stepU R kr) (pushObj v (assignW W R kr v))).heap rR =
        ⟨[kr], .forward S ks, .inf, none⟩ := by
      rw [foldl_stepU_heap_notin R kr _ _ rR
        (fun h => not_mem_of_forward W lsR rR S [kr] ks hrec huser (List.mem_reverse.mp h))]
      simpa using hrec
    have hprops4 : ((lsR.reverse.foldl (stepU R kr) (pushObj v (assignW W R kr v))).atoms
        R).props = assign (W.atoms R).props kr v := by
      rw [hfr.props]; simp
    have hS4 : (lsR.reverse.foldl (stepU R kr) (pushObj v (assignW W R kr v))).atoms S =
        W.atoms S := by
      rw [hfr.others S hne]
      simp [assignW, updAtom_other _ _ _ _ hne]
    have hnested : set (fuel + 1)
        (lsR.reverse.foldl (stepU R kr) (pushObj v (assignW W R kr v))) S ks
        (lookup ((lsR.reverse.foldl (stepU R kr) (pushObj v (assignW W R kr v))).atoms R).props
          kr) = .ok (lsR.reverse.foldl (stepU R kr) (pushObj v (assignW W R kr v)))
            .undefined := by
      rw [hprops4, lookup_assign_same]
      apply set_suppressed fuel _ S ks v
      · rw [hS4]; exact liveS
      · rw [hS4, hfr.configs]; simpa using valS
      · rw [hS4]; exact hhasS
      · rw [hS4]; exact hlookS
      · exact hnan
      · intro hobj
        rw [hfr.objStack]
        simp only [pushObj, hobj, if_true]
        exact inArray_append_self _ v hobj
    obtain ⟨w2, hstep, hsame⟩ := (step_forward (set (fuel + 1)) R kr _ rR S ks hrec4).1 _ _ hnested
    simp only [dispatch, hstep]
    refine ⟨_, rfl, ?_, ?_, ?_, ?_⟩
    rotate_left 3
    · simp only [hookU_atoms, popObj_atoms, clearNeed]
      rw [updAtom_other _ _ _ _ hne, (hsame S).1, hS4]
    · intro b
      simp only [hookU_atoms, popObj_atoms, clearNeed]
      by_cases hb : b = R
      · subst hb
        rw [updAtom_same]
        show (w2.atoms b).destroyed = _
        rw [(hsame b).2, hfr.destroyed]; simp [assignW]
      · rw [updAtom_other _ _ _ _ hb, (hsame b).2, hfr.others b hb]
        simp [assignW, updAtom_other _ _ _ _ hb]
    · simp only [hookU_atoms, popObj_atoms, clearNeed, updAtom_same, (hsame R).1, hprops4,
        hasOwn_assign_same]
    · simp only [hookU_atoms, popObj_atoms, clearNeed, updAtom_same, (hsame R).1, hprops4,
        lookup_assign_same]
  · have hd' : dispatches W R kr v = false := by simpa using hd
    rw [performSet_quiet _ W R kr v liveR hd']
    refine ⟨_, rfl, ?_, ?_, ?_, ?_⟩
    · intro b
      by_cases hb : b = R
      · subst hb; simp [assignW]
      · simp [assignW, updAtom_other _ _ _ _ hb]
    · simp [hasOwn_assign_same]
    · simp [lookup_assign_same]
    · simp [assignW, updAtom_other _ _ _ _ hne]


theorem get_of_props (w : World) (a : Nat) (k : Key) (v : Value)
    (hlive : (w.atoms a).destroyed = false) (hlook : lookup (w.atoms a).props k = v) :
    me.get w a k = some v := by
  simp only [me.get, hlive, Bool.false_eq_true, if_false, get, getValues, List.map_cons,
    List.map_nil, List.reverse_singleton, List.headD_cons, hlook]

/-- The sending side of an entanglement: a `set` on `X` that changes the value of
`kx` to a value other than `NaN` returns, and afterwards both `X` and `Y` hold it. -/
theorem set_entangled (fuel : Nat) (w : World) (X Y : Nat) (kx ky : Key) (rX rY : Nat)
    (lsX lsY : List Nat) (v : Value) (h : Entangled w X Y kx ky rX rY lsX lsY)
    (hnan : v ≠ .nan)
    (hchg : hasOwn (w.atoms X).props kx = false ∨
      strictEq (lookup (w.atoms X).props kx) v = false) :
    ∃ w1, set (fuel + 3) w X kx v = .ok w1 .undefined ∧ me.get w1 Y ky = some v ∧
      me.get w1 X kx = some v := by
  have hd : dispatches w X kx v = true := by
    unfold dispatches
    rcases hchg with h1 | h1 <;> simp [h1]
  rw [show set (fuel + 3) w X kx v = setBody (set (fuel + 2)) w X kx v from rfl, setBody_gate,
    gate_of_no_validation _ kx v h.valX]
  dsimp only
  rw [performSet_loud _ w X kx v h.liveX hd, h.lX, List.reverse_cons, dispatch_append]
  have hu1 : ∀ r ∈ lsX.reverse, isUser ((pushObj v (assignW w X kx v)).heap r) = true := by
    intro r hr
    simpa using h.userX r (List.mem_reverse.mp hr)
  rw [dispatch_user _ X kx lsX.reverse _ hu1]
  dsimp only
  have hfr := foldl_stepU_frame X kx lsX.reverse (pushObj v (assignW w X kx v))
  have hneYX : Y ≠ X := fun e => h.ne e.symm
  have hrX2 : (lsX.reverse.foldl (stepU X kx) (pushObj v (assignW w X kx v))).heap rX =
      ⟨[kx], .forward Y ky, .inf, none⟩ := by
    rw [foldl_stepU_heap_notin X kx _ _ rX
      (fun hm => not_mem_of_forward w lsX rX Y [kx] ky h.recX h.userX (List.mem_reverse.mp hm))]
    simpa using h.recX
  have hrY2 : (lsX.reverse.foldl (stepU X kx) (pushObj v (assignW w X kx v))).heap rY =
      ⟨[ky], .forward X kx, .inf, none⟩ := by
    rw [foldl_stepU_heap_notin X kx _ _ rY
      (fun hm => not_mem_of_forward w lsX rY X [ky] kx h.recY h.userX (List.mem_reverse.mp hm))]
    simpa using h.recY
  have hpX2 : ((lsX.reverse.foldl (stepU X kx) (pushObj v (assignW w X kx v))).atoms X).props =
      assign (w.atoms X).props kx v := by
    rw [hfr.props]; simp
  have hdX2 : ((lsX.reverse.foldl (stepU X kx) (pushObj v (assignW w X kx v))).atoms
      X).destroyed = false := by
    rw [hfr.destroyed]; simpa [assignW] using h.liveX
  have hcX2 : ((lsX.reverse.foldl (stepU X kx) (pushObj v (assignW w X kx v))).atoms X).cfg =
      (w.atoms X).cfg := by
    rw [hfr.cfg]; simp [assignW]
  have hY2 : (lsX.reverse.foldl (stepU X kx) (pushObj v (assignW w X kx v))).atoms Y =
      w.atoms Y := by
    rw [hfr.others Y hneYX]
    simp [assignW, updAtom_other _ _ _ _ hneYX]
  have hcfg2 : (lsX.reverse.foldl (stepU X kx) (pushObj v (assignW w X kx v))).configs =
      w.configs := by
    rw [hfr.configs]; simp [assignW]
  have huY2 : ∀ r ∈ lsY,
      isUser ((lsX.reverse.foldl (stepU X kx) (pushObj v (assignW w X kx v))).heap r) = true := by
    intro r hr
    have := h.userY r hr
    unfold isUser at this ⊢
    rw [hfr.cb, pushObj_heap, assignW_heap]
    exact this
  obtain ⟨W1, hb1, hb2, hb3, hb4, hb5⟩ := set_bounces fuel
    (lsX.reverse.foldl (stepU X kx) (pushObj v (assignW w X kx v))) X Y kx ky v rY lsY h.ne
    hdX2 (by rw [hY2]; exact h.liveY) (by rw [hcX2, hcfg2]; exact h.valX)
    (by rw [hY2, hcfg2]; exact h.valY) (by rw [hY2]; exact h.lY) hrY2 huY2
    (by rw [hpX2]; exact hasOwn_assign_same _ _ _) (by rw [hpX2]; exact lookup_assign_same _ _ _)
    hnan
  have hnested : set (fuel + 2) (lsX.reverse.foldl (stepU X kx) (pushObj v (assignW w X kx v)))
      Y ky (lookup ((lsX.reverse.foldl (stepU X kx) (pushObj v (assignW w X kx v))).atoms
        X).props kx) = .ok W1 .undefined := by
    rw [hpX2, lookup_assign_same]; exact hb1
  obtain ⟨w2, hstep, hsame⟩ := (step_forward (set (fuel + 2)) X kx _ rX Y ky hrX2).1 _ _ hnested
  simp only [dispatch, hstep]
  refine ⟨_, rfl, ?_, ?_⟩
  · apply get_of_props
    · simp only [hookU_atoms, popObj_atoms, clearNeed]
      rw [updAtom_other _ _ _ _ hneYX, (hsame Y).2, hb2 Y, hY2]
      exact h.liveY
    · simp only [hookU_atoms, popObj_atoms, clearNeed]
      rw [updAtom_other _ _ _ _ hneYX, (hsame Y).1]
      exact hb4
  · apply get_of_props
    · simp only [hookU_atoms, popObj_atoms, clearNeed, updAtom_same]
      rw [(hsame X).2, hb2 X]
      exact hdX2
    · simp only [hookU_atoms, popObj_atoms, clearNeed, updAtom_same]
      rw [(hsame X).1, hb5, hpX2]
      exact lookup_assign_same _ _ _


theorem Entangled.symm {w : World} {X Y : Nat} {kx ky : Key} {rX rY : Nat} {lsX lsY : List Nat}
    (h : Entangled w X Y kx ky rX rY lsX lsY) : Entangled w Y X ky kx rY rX lsY lsX :=
  { ne := fun e => h.ne e.symm, liveX := h.liveY, liveY := h.liveX, valX := h.valY,
    valY := h.valX, lX := h.lY, lY := h.lX, recX := h.recY, recY := h.recX, userX := h.userY,
    userY := h.userX }

/-- Writing a property keeps two instances entangled. -/
theorem Entangled.assignW {w : World} {X Y : Nat} {kx ky : Key} {rX rY : Nat}
    {lsX lsY : List Nat} (h : Entangled w X Y kx ky rX rY lsX lsY) (a : Nat) (k : Key)
    (v : Value) : Entangled (assignW w a k v) X Y kx ky rX rY lsX lsY := by
  have hat : ∀ b, ((Atom.assignW w a k v).atoms b).destroyed = (w.atoms b).destroyed ∧
      ((Atom.assignW w a k v).atoms b).cfg = (w.atoms b).cfg ∧
      ((Atom.assignW w a k v).atoms b).listeners = (w.atoms b).listeners := by
    intro b
    by_cases hb : b = a
    · subst hb; simp [Atom.assignW]
    · simp [Atom.assignW, updAtom_other _ _ _ _ hb]
  exact
    { ne := h.ne
      liveX := by rw [(hat X).1]; exact h.liveX
      liveY := by rw [(hat Y).1]; exact h.liveY
      valX := by rw [(hat X).2.1]; exact h.valX
      valY := by rw [(hat Y).2.1]; exact h.valY
      lX := by rw [(hat X).2.2]; exact h.lX
      lY := by rw [(hat Y).2.2]; exact h.lY
      recX := h.recX, recY := h.recY, userX := h.userX, userY := h.userY }

/-- Between two instances entangled without other listeners, `set(kx, NaN)` never
returns: each side notifies the other, whose `set` sees a value that differs from
the one it holds. -/
theorem set_nan_diverges (fuel : Nat) (w : World) (X Y : Nat) (kx ky : Key) (rX rY : Nat)
    (h : Entangled w X Y kx ky rX rY [] []) : set fuel w X kx .nan = .outOfFuel := by
  induction fuel generalizing w X Y kx ky rX rY with
  | zero => rfl
  | succ fuel ih =>
    have hd : dispatches w X kx .nan = true := by
      unfold dispatches
      have : strictEq (lookup (w.atoms X).props kx) .nan = false := by
        cases lookup (w.atoms X).props kx <;> rfl
      rw [this]; simp
    rw [show set (fuel + 1) w X kx .nan = setBody (set fuel) w X kx .nan from rfl, setBody_gate,
      gate_of_no_validation _ kx .nan h.valX]
    dsimp only
    rw [performSet_loud _ w X kx .nan h.liveX hd, h.lX]
    have hpush : pushObj .nan (assignW w X kx .nan) = assignW w X kx .nan := rfl
    rw [hpush]
    have h1 := h.assignW X kx .nan
    have hnested := ih (assignW w X kx .nan) Y X ky kx rY rX h1.symm
    have hlook : lookup ((assignW w X kx .nan).atoms X).props kx = .nan := by
      rw [assignW_props, lookup_assign_same]
    have hstep := (step_forward (set fuel) X kx _ rX Y ky h1.recX).2
      (by rw [hlook]; exact hnested)
    simp only [List.reverse_cons, List.reverse_nil, List.nil_append, dispatch, hstep]

theorem sampleEntangled_entangled : Entangled sampleEntangled 0 1 "k" "k" 0 1 [] [] :=
  { ne := by decide, liveX := rfl, liveY := rfl, valX := rfl, valY := rfl, lX := rfl, lY := rfl,
    recX := rfl, recY := rfl, userX := fun _ hr => absurd hr (List.not_mem_nil _),
    userY := fun _ hr => absurd hr (List.not_mem_nil _) }

/-- C10 fails for `NaN`: after `A.entangle(B, 'k')` on two fresh instances, `k` is
absent on `A`, and `A.set('k', NaN)` recurses without end, each instance setting
the other again: it does not return with any amount of fuel. -/
theorem C10_counterexample_nan :
    me.entangle (World.init (fun _ => Config.none)) 0 1 (.key "k") = .ok sampleEntangled .undefined ∧
    hasOwn (sampleEntangled.atoms 0).props "k" = false ∧
    (∀ fuel, set fuel sampleEntangled 0 "k" .nan = .outOfFuel) ∧
    ¬ SetReaches sampleEntangled 0 1 "k" "k" .nan := by
  refine ⟨rfl, rfl,
    fun fuel => set_nan_diverges fuel sampleEntangled 0 1 "k" "k" 0 1 sampleEntangled_entangled,
    ?_⟩
  rintro ⟨fuel, w1, r, hset, _⟩
  rw [set_nan_diverges fuel sampleEntangled 0 1 "k" "k" 0 1 sampleEntangled_entangled] at hset
  cases hset


/-- `entangle` for one pair of keys registers the two forwarding closures and
nothing else: no property map changes, and the instances are entangled. -/
theorem entangle_one (w : World) (A B : Nat) (arg : me.KeyOrListOrMap) (k k2 : Key)
    (hne : A ≠ B) (hliveA : (w.atoms A).destroyed = false)
    (hliveB : (w.atoms B).destroyed = false)
    (hvalA : (w.configs (w.atoms A).cfg).validation = none)
    (hvalB : (w.configs (w.atoms B).cfg).validation = none)
    (hwfA : RegWF w A) (hwfB : RegWF w B) (hpairs : me.entanglePairs arg = [(k, k2)]) :
    ∃ we, me.entangle w A B arg = .ok we .undefined ∧
      (∀ b, (we.atoms b).props = (w.atoms b).props) ∧
      Entangled we A B k k2 w.nextRec (w.nextRec + 1) (w.atoms A).listeners
        (w.atoms B).listeners := by
  have hneBA : B ≠ A := fun e => hne e.symm
  have hB1 : (addListener w A ⟨[k], .forward B k2, .inf, none⟩).atoms B = w.atoms B := by
    simp [addListener, updAtom_other _ _ _ _ hneBA]
  have hrun : me.entangle w A B arg =
      .ok (addListener (addListener w A ⟨[k], .forward B k2, .inf, none⟩) B
        ⟨[k2], .forward A k, .inf, none⟩) .undefined := by
    simp only [me.entangle, hpairs, me.entangleLoop, me.get, hliveA, Bool.false_eq_true, if_false,
      me.bind, toArray, hB1, hliveB]
  refine ⟨_, hrun, ?_, ?_⟩
  · intro b
    by_cases hbB : b = B
    · subst hbB
      rw [addListener_props, hB1]
    · have h1 : (addListener (addListener w A ⟨[k], .forward B k2, .inf, none⟩) B
          ⟨[k2], .forward A k, .inf, none⟩).atoms b =
          (addListener w A ⟨[k], .forward B k2, .inf, none⟩).atoms b := by
        simp [addListener, updAtom_other _ _ _ _ hbB]
      rw [h1]
      by_cases hbA : b = A
      · subst hbA; rw [addListener_props]
      · simp [addListener, updAtom_other _ _ _ _ hbA]
  · have hA2 : (addListener (addListener w A ⟨[k], .forward B k2, .inf, none⟩) B
        ⟨[k2], .forward A k, .inf, none⟩).atoms A =
        (addListener w A ⟨[k], .forward B k2, .inf, none⟩).atoms A := by
      simp [addListener, updAtom_other _ _ _ _ hne]
    have hheap : ∀ r, r < w.nextRec →
        (addListener (addListener w A ⟨[k], .forward B k2, .inf, none⟩) B
          ⟨[k2], .forward A k, .inf, none⟩).heap r = w.heap r := by
      intro r hr
      simp only [addListener_heap, addListener_nextRec]
      rw [Function.update_noteq (by omega), Function.update_noteq (by omega)]
    exact
      { ne := hne
        liveX := by rw [hA2, addListener_destroyed]; exact hliveA
        liveY := by rw [addListener_destroyed, hB1]; exact hliveB
        valX := by
          rw [hA2]
          simpa [addListener, World.updAtom] using hvalA
        valY := by
          have : ((addListener (addListener w A ⟨[k], .forward B k2, .inf, none⟩) B
              ⟨[k2], .forward A k, .inf, none⟩).atoms B).cfg = (w.atoms B).cfg := by
            simp [addListener, World.updAtom, Function.update_noteq hneBA]
          rw [this]
          exact hvalB
        lX := by rw [hA2, addListener_listeners]
        lY := by rw [addListener_listeners, hB1]; rfl
        recX := by
          simp only [addListener_heap, addListener_nextRec]
          rw [Function.update_noteq (by omega), Function.update_same]
        recY := by
          simp only [addListener_heap, addListener_nextRec]
          rw [Function.update_same]
        userX := by
          intro r hr
          rw [hheap r (hwfA.2 r hr).2.2]
          exact (hwfA.2 r hr).1
        userY := by
          intro r hr
          rw [hheap r (hwfB.2 r hr).2.2]
          exact (hwfB.2 r hr).1 }


/-- C10, for ordinary keys and values other than `NaN`: for two distinct live
instances `A` and `B` without validators whose registries are well formed with user
callbacks, and keys `k` and `k2` that are not names of `Object.prototype`,
`A.entangle(B, keys)` for the pair of keys `(k, k2)` returns and writes to no
property map; afterwards, for every value `v` other than `NaN`, a call `A.set(k, v)` that changes `A`'s value of `k`
(the key is absent or holds a value that is not `===` to `v`) returns with
`B.get(k2) = v`, and a call `B.set(k2, v)` that changes `B`'s value of `k2` returns
with `A.get(k) = v`. -/
theorem C10_entangle_syncs (fuel : Nat) (w : World) (A B : Nat) (arg : me.KeyOrListOrMap)
    (k k2 : Key) (v : Value) (hne : A ≠ B) (hliveA : (w.atoms A).destroyed = false)
    (hliveB : (w.atoms B).destroyed = false)
    (hvalA : (w.configs (w.atoms A).cfg).validation = none)
    (hvalB : (w.configs (w.atoms B).cfg).validation = none)
    (hwfA : RegWF w A) (hwfB : RegWF w B) (hpairs : me.entanglePairs arg = [(k, k2)])
    (_hk : ordinaryKey k = true) (_hk2 : ordinaryKey k2 = true)
    (hnan : v ≠ .nan) :
    ∃ we, me.entangle w A B arg = .ok we .undefined ∧
      (∀ b, (we.atoms b).props = (w.atoms b).props) ∧
      ((hasOwn (we.atoms A).props k = false ∨
          strictEq (lookup (we.atoms A).props k) v = false) →
        ∃ w1, set (fuel + 3) we A k v = .ok w1 .undefined ∧ me.get w1 B k2 = some v ∧
          me.get w1 A k = some v) ∧
      ((hasOwn (we.atoms B).props k2 = false ∨
          strictEq (lookup (we.atoms B).props k2) v = false) →
        ∃ w1, set (fuel + 3) we B k2 v = .ok w1 .undefined ∧ me.get w1 A k = some v ∧
          me.get w1 B k2 = some v) := by
  obtain ⟨we, h1, h2, h3⟩ :=
    entangle_one w A B arg k k2 hne hliveA hliveB hvalA hvalB hwfA hwfB hpairs
  exact ⟨we, h1, h2,
    fun hchg => set_entangled fuel we A B k k2 _ _ _ _ v h3 hnan hchg,
    fun hchg => set_entangled fuel we B A k2 k _ _ _ _ v h3.symm hnan hchg⟩

theorem sampleWorld_regWF_other (b : Nat) (hb : b ≠ 0) : RegWF sampleWorld b := by
  have hl : (sampleWorld.atoms b).listeners = [] := by
    simp [sampleWorld, addListener, World.init, AtomSt.fresh, World.updAtom,
      Function.update_noteq hb]
  constructor
  · rw [hl]; exact List.nodup_nil
  · intro r hr
    rw [hl] at hr
    cases hr

theorem C10_witness :
    ∃ we, me.entangle sampleWorld 0 1 (.map [("a", "b")]) = .ok we .undefined ∧
      (∀ b, (we.atoms b).props = (sampleWorld.atoms b).props) ∧
      ((hasOwn (we.atoms 0).props "a" = false ∨
          strictEq (lookup (we.atoms 0).props "a") (.obj 4) = false) →
        ∃ w1, set 3 we 0 "a" (.obj 4) = .ok w1 .undefined ∧ me.get w1 1 "b" = some (.obj 4) ∧
          me.get w1 0 "a" = some (.obj 4)) ∧
      ((hasOwn (we.atoms 1).props "b" = false ∨
          strictEq (lookup (we.atoms 1).props "b") (.obj 4) = false) →
        ∃ w1, set 3 we 1 "b" (.obj 4) = .ok w1 .undefined ∧ me.get w1 0 "a" = some (.obj 4) ∧
          me.get w1 1 "b" = some (.obj 4)) :=
  C10_entangle_syncs 0 sampleWorld 0 1 (.map [("a", "b")]) "a" "b" (.obj 4) (by decide) rfl rfl
    rfl rfl sampleWorld_regWF (sampleWorld_regWF_other 1 (by decide)) rfl (by decide) (by decide)
    (by decide)


/-! ## Sets that re-enter: what the property maps can become -/

theorem Eff.refl (v : Value) (w : World) : Eff v w w :=
  { live := fun _ => rfl, cfg := fun _ => rfl, configs := rfl, cb := fun _ => rfl,
    keys := fun _ => rfl, missing := fun _ h => h, keep := fun _ _ => Or.inr ⟨rfl, rfl⟩ }

theorem Eff.trans {v : Value} {w w1 w2 : World} (h1 : Eff v w w1) (h2 : Eff v w1 w2) :
    Eff v w w2 :=
  { live := fun b => (h2.live b).trans (h1.live b)
    cfg := fun b => (h2.cfg b).trans (h1.cfg b)
    configs := h2.configs.trans h1.configs
    cb := fun r => (h2.cb r).trans (h1.cb r)
    keys := fun r => (h2.keys r).trans (h1.keys r)
    missing := fun r h => h2.missing r (h1.missing r h)
    keep := fun b k => by
      rcases h2.keep b k with h | h
      · exact Or.inl h
      · rcases h1.keep b k with h' | h'
        · exact Or.inl ⟨h.1.trans h'.1, h.2.trans h'.2⟩
        · exact Or.inr ⟨h.1.trans h'.1, h.2.trans h'.2⟩ }

theorem Eff.fwdWF {v : Value} {w w1 : World} (h : Eff v w w1) (hwf : FwdWF w) : FwdWF w1 := by
  intro r t tk hcb
  rw [h.cb] at hcb
  obtain ⟨⟨k, hk⟩, hm⟩ := hwf r t tk hcb
  exact ⟨⟨k, by rw [h.keys, hk]⟩, h.missing r hm⟩

/-- A change that leaves every property map, flag, configuration and record
identity alone has no effect in the sense of `Eff`. -/
theorem Eff.of_same (v : Value) {w w1 : World}
    (hp : ∀ b, (w1.atoms b).props = (w.atoms b).props)
    (hl : ∀ b, (w1.atoms b).destroyed = (w.atoms b).destroyed)
    (hc : ∀ b, (w1.atoms b).cfg = (w.atoms b).cfg) (hcf : w1.configs = w.configs)
    (hcb : ∀ r, (w1.heap r).cb = (w.heap r).cb) (hk : ∀ r, (w1.heap r).keys = (w.heap r).keys)
    (hm : ∀ r, (w.heap r).missing = none → (w1.heap r).missing = none) : Eff v w w1 :=
  { live := hl, cfg := hc, configs := hcf, cb := hcb, keys := hk, missing := hm,
    keep := fun b k => Or.inr ⟨by rw [hp], by rw [hp]⟩ }

theorem eff_updAtom_listeners (v : Value) (w : World) (a : Nat) (g : AtomSt → List Nat) :
    Eff v w (w.updAtom a (fun s => { s with listeners := g s })) := by
  apply Eff.of_same v
  all_goals first
    | (intro b
       by_cases hb : b = a
       · subst hb; simp
       · rw [updAtom_other _ _ _ _ hb])
    | rfl
    | (intro r; rfl)
    | (intro r h; exact h)

theorem eff_clearNeed (v : Value) (w : World) (a : Nat) (key : Key) :
    Eff v w (clearNeed w a key) := by
  apply Eff.of_same v
  all_goals first
    | (intro b
       by_cases hb : b = a
       · subst hb; simp [clearNeed]
       · simp [clearNeed, updAtom_other _ _ _ _ hb])
    | rfl

theorem eff_pushObj (v x : Value) (w : World) : Eff v w (pushObj x w) := by
  apply Eff.of_same v <;> intros <;> simp_all

theorem eff_popObj (v x : Value) (w : World) : Eff v w (popObj x w) := by
  apply Eff.of_same v <;> intros <;> simp_all

theorem eff_hookU (v : Value) (c : Nat) (w : World) : Eff v w (hookU c w) := by
  apply Eff.of_same v <;> intros <;> simp_all

theorem eff_decCalls (v : Value) (w : World) (r : Nat) :
    Eff v w (w.updRec r (fun l => { l with calls := l.calls.dec })) := by
  apply Eff.of_same v
  · intro b; rfl
  · intro b; rfl
  · intro b; rfl
  · rfl
  · intro x
    by_cases hx : x = r
    · subst hx; simp [World.updRec]
    · simp [World.updRec, Function.update_noteq hx]
  · intro x
    by_cases hx : x = r
    · subst hx; simp [World.updRec]
    · simp [World.updRec, Function.update_noteq hx]
  · intro x h
    by_cases hx : x = r
    · subst hx; simpa [World.updRec] using h
    · simpa [World.updRec, Function.update_noteq hx] using h

/-- The assignment `props[key] = v` on instance `a`. -/
theorem eff_assignW (v : Value) (w : World) (a : Nat) (key : Key) :
    Eff v w (assignW w a key v) :=
  { live := fun b => by
      by_cases hb : b = a
      · subst hb; simp [assignW]
      · simp [assignW, updAtom_other _ _ _ _ hb]
    cfg := fun b => by
      by_cases hb : b = a
      · subst hb; simp [assignW]
      · simp [assignW, updAtom_other _ _ _ _ hb]
    configs := rfl, cb := fun _ => rfl, keys := fun _ => rfl, missing := fun _ h => h
    keep := fun b k => by
      by_cases hb : b = a
      · subst hb
        by_cases hk : k = key
        · subst hk
          exact Or.inl ⟨by simp [hasOwn_assign_same], by simp [lookup_assign_same]⟩
        · exact Or.inr ⟨by simp [hasOwn_assign_ne _ _ _ _ hk], by simp [lookup_assign_ne _ _ _ _ hk]⟩
      · exact Or.inr ⟨by simp [assignW, updAtom_other _ _ _ _ hb],
          by simp [assignW, updAtom_other _ _ _ _ hb]⟩ }

theorem eff_stepU (v : Value) (a : Nat) (key : Key) (w : World) (r : Nat) :
    Eff v w (stepU a key w r) := by
  have hf := stepU_frame a key w r
  apply Eff.of_same v
  · intro b
    by_cases hb : b = a
    · subst hb; exact hf.props
    · rw [hf.others b hb]
  · intro b
    by_cases hb : b = a
    · subst hb; exact hf.destroyed
    · rw [hf.others b hb]
  · intro b
    by_cases hb : b = a
    · subst hb; exact hf.cfg
    · rw [hf.others b hb]
  · exact hf.configs
  · exact hf.cb
  · exact hf.keys
  · intro x h
    rw [stepU_heap]
    by_cases hx : x = r
    · subst hx; simp [visited, h]
    · rw [Function.update_noteq hx]; exact h


/-- One turn of the loop, whatever the record: if the key being set holds `v`, the
turn only has effects in the sense of `Eff`. -/
theorem eff_step (v : Value) (setF : World → Nat → Key → Value → Res) (hF : SetEff v setF)
    (a : Nat) (key : Key) (W : World) (r : Nat) (hwf : FwdWF W)
    (hv : lookup (W.atoms a).props key = v) (W1 : World)
    (h : (step setF a key W r).world? = some W1) : Eff v W W1 := by
  cases hcb : (W.heap r).cb with
  | user id =>
    rw [step_user setF a key W r (by simp [isUser, hcb])] at h
    injection h with h
    subst h
    exact eff_stepU v a key W r
  | forward t tk =>
    obtain ⟨⟨k1, hk⟩, hm⟩ := hwf r t tk hcb
    by_cases hc : k1 = key
    · subst hc
      have hfire : fire setF W a r =
          match setF W t tk v with
          | .ok w1 _ => .ok (w1.updRec r (fun l => { l with calls := l.calls.dec })) .undefined
          | e => e := by
        simp only [fire, hcb, invoke, hk, getValues, List.map_cons, List.map_nil,
          List.reverse_singleton, List.headD_cons, hv]
      have hstep : step setF a k1 W r =
          match fire setF W a r with
          | .ok w2 _ =>
            if (w2.heap r).calls.exhausted then
              .ok (w2.updAtom a (fun s =>
                { s with listeners := removeListener w2.heap s.listeners })) .undefined
            else .ok w2 .undefined
          | e => e := by
        simp only [step, hm, hk, List.contains_cons, beq_self_eq_true, Bool.true_or, if_true]
      rw [hstep, hfire] at h
      cases hres : setF W t tk v with
      | ok w1 r1 =>
        have he := hF W t tk w1 hwf (by rw [hres]; rfl)
        rw [hres] at h
        dsimp only at h
        split at h
        · injection h with h
          subst h
          exact (he.trans (eff_decCalls v w1 r)).trans (eff_updAtom_listeners v _ a _)
        · injection h with h
          subst h
          exact he.trans (eff_decCalls v w1 r)
      | threw w1 =>
        have he := hF W t tk w1 hwf (by rw [hres]; rfl)
        rw [hres] at h
        injection h with h
        subst h
        exact he
      | outOfFuel =>
        rw [hres] at h
        cases h
    · have hnc : ([k1].contains key) = false := by
        simp [Ne.symm hc]
      have hstep : step setF a key W r =
          if (W.heap r).calls.exhausted then
            .ok (W.updAtom a (fun s =>
              { s with listeners := removeListener W.heap s.listeners })) .undefined
          else .ok W .undefined := by
        simp only [step, hm, hk, hnc, Bool.false_eq_true, if_false]
      rw [hstep] at h
      split at h
      · injection h with h
        subst h
        exact eff_updAtom_listeners v _ a _
      · injection h with h
        subst h
        exact Eff.refl v W


theorem Eff.lookup_eq {v : Value} {w w1 : World} (h : Eff v w w1) (a : Nat) (key : Key)
    (hv : lookup (w.atoms a).props key = v) : lookup (w1.atoms a).props key = v := by
  rcases h.keep a key with h1 | h1
  · exact h1.2
  · rw [h1.2]; exact hv

theorem Eff.hasOwn_eq {v : Value} {w w1 : World} (h : Eff v w w1) (a : Nat) (key : Key)
    (hv : hasOwn (w.atoms a).props key = true) : hasOwn (w1.atoms a).props key = true := by
  rcases h.keep a key with h1 | h1
  · exact h1.1
  · rw [h1.1]; exact hv

theorem eff_dispatch (v : Value) (setF : World → Nat → Key → Value → Res) (hF : SetEff v setF)
    (a : Nat) (key : Key) (rs : List Nat) (W : World) (hwf : FwdWF W)
    (hv : lookup (W.atoms a).props key = v) (W1 : World)
    (h : (dispatch setF a key rs W).world? = some W1) : Eff v W W1 := by
  induction rs generalizing W with
  | nil =>
    injection h with h
    subst h
    exact Eff.refl v W
  | cons r rs ih =>
    rw [dispatch] at h
    cases hs : step setF a key W r with
    | ok w1 r1 =>
      have he := eff_step v setF hF a key W r hwf hv w1 (by rw [hs]; rfl)
      rw [hs] at h
      exact he.trans (ih w1 (he.fwdWF hwf) (he.lookup_eq a key hv) h)
    | threw w1 =>
      have he := eff_step v setF hF a key W r hwf hv w1 (by rw [hs]; rfl)
      rw [hs] at h
      injection h with h
      subst h
      exact he
    | outOfFuel =>
      rw [hs] at h
      cases h

theorem eff_performSet (v : Value) (setF : World → Nat → Key → Value → Res)
    (hF : SetEff v setF) (a : Nat) (key : Key) (W : World) (hwf : FwdWF W) (W1 : World)
    (h : (performSet setF W a key v).world? = some W1) : Eff v W W1 := by
  by_cases hlive : (W.atoms a).destroyed = true
  · have : performSet setF W a key v = .threw W := by
      simp only [performSet, hlive, if_true]
    rw [this] at h
    injection h with h
    subst h
    exact Eff.refl v W
  · have hlive' : (W.atoms a).destroyed = false := by simpa using hlive
    by_cases hd : dispatches W a key v = true
    · rw [performSet_loud setF W a key v hlive' hd] at h
      have h0 : Eff v W (pushObj v (assignW W a key v)) :=
        (eff_assignW v W a key).trans (eff_pushObj v v _)
      have hv0 : lookup ((pushObj v (assignW W a key v)).atoms a).props key = v := by
        simp [lookup_assign_same]
      cases hs : dispatch setF a key (W.atoms a).listeners.reverse
          (pushObj v (assignW W a key v)) with
      | ok w3 r3 =>
        have he := eff_dispatch v setF hF a key _ _ (h0.fwdWF hwf) hv0 w3 (by rw [hs]; rfl)
        rw [hs] at h
        injection h with h
        subst h
        exact ((h0.trans he).trans (eff_clearNeed v w3 a key)).trans
          ((eff_popObj v v _).trans (eff_hookU v _ _))
      | threw w3 =>
        have he := eff_dispatch v setF hF a key _ _ (h0.fwdWF hwf) hv0 w3 (by rw [hs]; rfl)
        rw [hs] at h
        injection h with h
        subst h
        exact h0.trans he
      | outOfFuel =>
        rw [hs] at h
        cases h
    · have hd' : dispatches W a key v = false := by simpa using hd
      rw [performSet_quiet setF W a key v hlive' hd'] at h
      injection h with h
      subst h
      exact eff_assignW v W a key

theorem eff_setBody (v : Value) (setF : World → Nat → Key → Value → Res) (hF : SetEff v setF) :
    SetEff v (setBody setF) := by
  intro W b k W1 hwf h
  rw [setBody_gate] at h
  cases hg : gate (W.configs (W.atoms b).cfg) k v with
  | openPlain =>
    rw [hg] at h
    dsimp only at h
    cases hp : performSet setF W b k v with
    | ok w1 r1 =>
      rw [hp] at h
      exact eff_performSet v setF hF b k W hwf W1 (by rw [hp]; exact h)
    | threw w1 =>
      rw [hp] at h
      exact eff_performSet v setF hF b k W hwf W1 (by rw [hp]; exact h)
    | outOfFuel =>
      rw [hp] at h
      cases h
  | openPromise =>
    rw [hg] at h
    dsimp only at h
    cases hp : performSet setF W b k v with
    | ok w1 r1 =>
      rw [hp] at h
      exact eff_performSet v setF hF b k W hwf W1 (by rw [hp]; exact h)
    | threw w1 =>
      rw [hp] at h
      exact eff_performSet v setF hF b k W hwf W1 (by rw [hp]; exact h)
    | outOfFuel =>
      rw [hp] at h
      cases h
  | reject name =>
    rw [hg] at h
    injection h with h
    subst h
    exact Eff.refl v W
  | wait ps =>
    rw [hg] at h
    injection h with h
    subst h
    exact Eff.of_same v (fun _ => rfl) (fun _ => rfl) (fun _ => rfl) rfl (fun _ => rfl)
      (fun _ => rfl) (fun _ hm => hm)
  | throws =>
    rw [hg] at h
    injection h with h
    subst h
    exact Eff.refl v W

/-- Whatever the registered callbacks, a `set` of `v` that ends leaves each key of
each instance as it was or holding `v`. -/
theorem eff_set (v : Value) (fuel : Nat) : SetEff v (set fuel) := by
  induction fuel with
  | zero =>
    intro W b k W1 _ h
    cases h
  | succ fuel ih => exact eff_setBody v (set fuel) ih


/-- `performSet` on a live instance, when it ends: the key holds `v` from the
assignment on, and everything after the assignment only has effects in the sense
of `Eff`. -/
theorem eff_performSet_live (v : Value) (setF : World → Nat → Key → Value → Res)
    (hF : SetEff v setF) (a : Nat) (key : Key) (W : World) (hwf : FwdWF W)
    (hlive : (W.atoms a).destroyed = false) (W1 : World)
    (h : (performSet setF W a key v).world? = some W1) : Eff v (assignW W a key v) W1 := by
  by_cases hd : dispatches W a key v = true
  · rw [performSet_loud setF W a key v hlive hd] at h
    have h0 : Eff v W (pushObj v (assignW W a key v)) :=
      (eff_assignW v W a key).trans (eff_pushObj v v _)
    have hv0 : lookup ((pushObj v (assignW W a key v)).atoms a).props key = v := by
      simp [lookup_assign_same]
    cases hs : dispatch setF a key (W.atoms a).listeners.reverse
        (pushObj v (assignW W a key v)) with
    | ok w3 r3 =>
      have he := eff_dispatch v setF hF a key _ _ (h0.fwdWF hwf) hv0 w3 (by rw [hs]; rfl)
      rw [hs] at h
      injection h with h
      subst h
      exact (((eff_pushObj v v _).trans he).trans (eff_clearNeed v w3 a key)).trans
        ((eff_popObj v v _).trans (eff_hookU v _ _))
    | threw w3 =>
      have he := eff_dispatch v setF hF a key _ _ (h0.fwdWF hwf) hv0 w3 (by rw [hs]; rfl)
      rw [hs] at h
      injection h with h
      subst h
      exact (eff_pushObj v v _).trans he
    | outOfFuel =>
      rw [hs] at h
      cases h
  · have hd' : dispatches W a key v = false := by simpa using hd
    rw [performSet_quiet setF W a key v hlive hd'] at h
    injection h with h
    subst h
    exact Eff.refl v _

/-- After a `performSet` that ended on a live instance, the key is present and
holds the value, and the instance is still live. -/
theorem performSet_post (v : Value) (fuel : Nat) (a : Nat) (key : Key) (W : World)
    (hwf : FwdWF W) (hlive : (W.atoms a).destroyed = false) (W1 : World)
    (h : (performSet (set fuel) W a key v).world? = some W1) :
    (W1.atoms a).destroyed = false ∧ hasOwn (W1.atoms a).props key = true ∧
      lookup (W1.atoms a).props key = v ∧ (W1.atoms a).cfg = (W.atoms a).cfg ∧
      W1.configs = W.configs := by
  have he := eff_performSet_live v (set fuel) (eff_set v fuel) a key W hwf hlive W1 h
  refine ⟨?_, ?_, ?_, ?_, ?_⟩
  · rw [he.live]; simpa [assignW] using hlive
  · exact he.hasOwn_eq a key (by simp [hasOwn_assign_same])
  · exact he.lookup_eq a key (by simp [lookup_assign_same])
  · rw [he.cfg]; simp [assignW]
  · rw [he.configs]; rfl

theorem gate_of_accepting (config : Config) (key : Key) (value : Value)
    (hval : ∀ vs, config.validation.bind (fun v => validationFor v key) = some vs →
      ∀ p ∈ vs, p.2 value = .bool true) :
    gate config key value = .openPlain ∨ gate config key value = .openPromise := by
  unfold gate
  cases hv : config.validation.bind (fun v => validationFor v key) with
  | none => exact Or.inl rfl
  | some vs =>
    right
    simp only [findInvalid_all_true value vs [] (hval vs hv), promisesLength, List.any_nil,
      Bool.false_eq_true, if_false]

/-- The world a `set` that returned through an open gate leaves is the world its
`performSet` left. -/
theorem set_ok_open (fuel : Nat) (w : World) (a : Nat) (K : Key) (V : Value) (w1 : World)
    (r : SetRet)
    (hg : gate (w.configs (w.atoms a).cfg) K V = .openPlain ∨
      gate (w.configs (w.atoms a).cfg) K V = .openPromise)
    (h : set (fuel + 1) w a K V = .ok w1 r) :
    (performSet (set fuel) w a K V).world? = some w1 := by
  rw [show set (fuel + 1) w a K V = setBody (set fuel) w a K V from rfl, setBody_gate] at h
  rcases hg with hg | hg
  · rw [hg] at h
    dsimp only at h
    cases hp : performSet (set fuel) w a K V with
    | ok w2 r2 => rw [hp] at h; injection h with h1 _; rw [h1]; rfl
    | threw w2 => rw [hp] at h; cases h
    | outOfFuel => rw [hp] at h; cases h
  · rw [hg] at h
    cases hp : performSet (set fuel) w a K V with
    | ok w2 r2 => rw [hp] at h; injection h with h1 _; rw [h1]; rfl
    | threw w2 => rw [hp] at h; injection h with h1 _; rw [h1]; rfl
    | outOfFuel => rw [hp] at h; cases h


theorem fwdWF_of_user (w : World) (h : ∀ r, isUser (w.heap r) = true) : FwdWF w := by
  intro r t tk hcb
  have := h r
  rw [isUser, hcb] at this
  cases this

theorem sampleWorld_fwdWF : FwdWF sampleWorld := by
  apply fwdWF_of_user
  intro r
  by_cases hr : r = 0
  · subst hr; rfl
  · simp [sampleWorld, addListener, World.updAtom, World.init, Function.update_noteq hr, isUser]

theorem sampleValidated_user : ∀ r, isUser (sampleValidated.heap r) = true := by
  intro r
  by_cases hr : r = 0
  · subst hr; rfl
  · simp [sampleValidated, addListener, World.updAtom, World.init, Function.update_noteq hr,
      isUser]

theorem sampleValidated_fwdWF : FwdWF sampleValidated :=
  fwdWF_of_user _ sampleValidated_user

theorem sampleWorld_user : ∀ r, isUser (sampleWorld.heap r) = true := by
  intro r
  by_cases hr : r = 0
  · subst hr; rfl
  · simp [sampleWorld, addListener, World.updAtom, World.init, Function.update_noteq hr, isUser]

/-- A world whose records all have user callbacks has no forwarding closure. -/
theorem fwdOrdinary_of_user (w : World) (h : ∀ r, isUser (w.heap r) = true) :
    FwdOrdinary w := by
  intro r t tk hcb
  have := h r
  rw [isUser, hcb] at this
  cases this

/-- C1, for ordinary keys: on a live instance, for a key `K` that is not a name of
`Object.prototype`, when `K` has no validators or each of its validators returns
`true` for the value, every `set(K, V)` that returns leaves `get(K)` equal to `V`
and `has(K)` true, `undefined` included, whatever listeners the instance has and
whatever entanglements, as long as these forward to ordinary keys; and `set(K, V)`
does return when the listener callbacks of the instance do not re-enter. -/
theorem C1_set_then_get_and_has (w : World) (a : Nat) (K : Key) (V : Value)
    (hlive : (w.atoms a).destroyed = false) (hwf : FwdWF w)
    (_hK : ordinaryKey K = true) (_hfwd : FwdOrdinary w)
    (hval : ∀ vs, (w.configs (w.atoms a).cfg).validation.bind (fun v => validationFor v K)
      = some vs → ∀ p ∈ vs, p.2 V = .bool true) :
    (∀ fuel w1 r, set fuel w a K V = .ok w1 r →
      me.get w1 a K = some V ∧ me.has w1 a (.key K) = true) ∧
    ((∀ r ∈ (w.atoms a).listeners, isUser (w.heap r) = true) →
      ∀ fuel, ∃ w1 r, set (fuel + 1) w a K V = .ok w1 r) := by
  constructor
  · intro fuel w1 r h
    cases fuel with
    | zero => cases h
    | succ fuel =>
      have hp := set_ok_open fuel w a K V w1 r (gate_of_accepting _ K V hval) h
      obtain ⟨h1, h2, h3, _, _⟩ := performSet_post V fuel a K w hwf hlive w1 hp
      exact ⟨get_of_props w1 a K V h1 h3, by simp [me.has, h1, toArray, h2]⟩
  · intro hu fuel
    obtain ⟨r, hr⟩ := set_user_accepted fuel w a K V hlive hu hval
    exact ⟨_, r, hr⟩

theorem C1_witness :
    (∀ fuel w1 r, set fuel sampleValidated 0 "n" (.num 4) = .ok w1 r →
      me.get w1 0 "n" = some (.num 4) ∧ me.has w1 0 (.key "n") = true) ∧
    ((∀ r ∈ (sampleValidated.atoms 0).listeners, isUser (sampleValidated.heap r) = true) →
      ∀ fuel, ∃ w1 r, set (fuel + 1) sampleValidated 0 "n" (.num 4) = .ok w1 r) :=
  C1_set_then_get_and_has sampleValidated 0 "n" (.num 4) rfl sampleValidated_fwdWF
    (by decide) (fwdOrdinary_of_user _ sampleValidated_user)
    (by
      intro vs hvs p hp
      have : vs = [("isNumber", isNumber)] := by
        simpa [sampleValidated, addListener, World.init, AtomSt.fresh, sampleConfig,
          validationFor, World.updAtom] using hvs.symm
      subst this
      have : p = ("isNumber", isNumber) := by simpa using hp
      subst this; rfl)

/-- C5, amended: on a live instance, whatever listeners it has and whatever
entanglements that forward to ordinary keys, for a key `K` that is not a name of
`Object.prototype` and a value that is neither an object nor `NaN`, a second
`set(K, V)` right after a first one that returned without a rejection (written at
once, or waiting on its validator promises) returns and adds nothing to the log: no
callback, no hook, same property map, registry, records and needs. -/
theorem C5_second_set_of_same_scalar (fuel : Nat) (w : World) (a : Nat) (K : Key) (V : Value)
    (hlive : (w.atoms a).destroyed = false) (hwf : FwdWF w)
    (_hK : ordinaryKey K = true) (_hfwd : FwdOrdinary w)
    (hobj : isObject V = false) (hnan : V ≠ .nan) :
    SecondSetQuiet fuel w a K V := by
  intro w1 r1 h1 hrej _
  cases fuel with
  | zero => cases h1
  | succ fuel =>
    have hcommit : (gate (w.configs (w.atoms a).cfg) K V = .openPlain ∨
        gate (w.configs (w.atoms a).cfg) K V = .openPromise) →
        ∃ w2 r2, set (fuel + 1) w1 a K V = .ok w2 r2 ∧ w2.log = w1.log ∧
          (w2.atoms a).props = (w1.atoms a).props ∧
          (w2.atoms a).listeners = (w1.atoms a).listeners ∧
          (w2.atoms a).needs = (w1.atoms a).needs ∧ w2.heap = w1.heap := by
      intro hopen
      have hp := set_ok_open fuel w a K V w1 r1 hopen h1
      obtain ⟨hl1, hhas1, hlook1, hcfg1, hconf1⟩ := performSet_post V fuel a K w hwf hlive w1 hp
      have hd : dispatches w1 a K V = false :=
        dispatches_same_scalar w1 a K V hhas1 hlook1 hobj hnan
      have hsame : assignW w1 a K V = w1 := by
        unfold assignW
        apply updAtom_id
        rw [assign_same_value _ _ _ hhas1 hlook1]
      have h2 : ∃ r2, set (fuel + 1) w1 a K V = .ok w1 r2 := by
        rw [show set (fuel + 1) w1 a K V = setBody (set fuel) w1 a K V from rfl, setBody_gate,
          hconf1, hcfg1, performSet_quiet _ w1 a K V hl1 hd, hsame]
        rcases hopen with hg | hg <;> rw [hg] <;> exact ⟨_, rfl⟩
      obtain ⟨r2, h2⟩ := h2
      exact ⟨w1, r2, h2, rfl, rfl, rfl, rfl, rfl⟩
    have h1' := h1
    rw [show set (fuel + 1) w a K V = setBody (set fuel) w a K V from rfl, setBody_gate] at h1'
    cases hg : gate (w.configs (w.atoms a).cfg) K V with
    | openPlain => exact hcommit (Or.inl hg)
    | openPromise => exact hcommit (Or.inr hg)
    | reject name =>
      rw [hg] at h1'
      injection h1' with _ hr1
      exact absurd hr1.symm (hrej name)
    | wait ps =>
      rw [hg] at h1'
      injection h1' with hw1 _
      subst hw1
      refine ⟨{ w with pendings := (w.pendings ++ [⟨a, K, V, ps⟩]) ++ [⟨a, K, V, ps⟩] }, .pending,
        ?_, rfl, rfl, rfl, rfl, rfl⟩
      rw [show set (fuel + 1) _ a K V = setBody (set fuel) _ a K V from rfl, setBody_gate]
      have hg2 : gate (({ w with pendings := w.pendings ++ [⟨a, K, V, ps⟩] } : World).configs
          (({ w with pendings := w.pendings ++ [⟨a, K, V, ps⟩] } : World).atoms a).cfg) K V =
            .wait ps := hg
      rw [hg2]
    | throws =>
      rw [hg] at h1'
      cases h1'

theorem C5_witness : SecondSetQuiet 1 sampleWorld 0 "a" (.num 1) :=
  C5_second_set_of_same_scalar 1 sampleWorld 0 "a" (.num 1) rfl sampleWorld_fwdWF
    (by decide) (fwdOrdinary_of_user _ sampleWorld_user) rfl (by decide)

/-! ## The rejecting branch of the gate -/

/-- The validators are asked in order: the first one that returns `false` is the
one `find` reports, whatever the validators after it would say. -/
theorem findInvalid_first_false (value : Value) (pre post : List (String × Validator))
    (name : String) (f : Validator) (ps : List (String × Settle))
    (hpre : ∀ p ∈ pre, p.2 value = .bool true ∨ ∃ s, p.2 value = .promise s)
    (hf : f value = .bool false) :
    ∃ ps1, findInvalid value (pre ++ (name, f) :: post) ps = some (some name, ps1) := by
  induction pre generalizing ps with
  | nil => exact ⟨ps, by simp [findInvalid, hf]⟩
  | cons p pre ih =>
    obtain ⟨n, g⟩ := p
    rcases hpre (n, g) (List.mem_cons_self _ _) with h | ⟨s, h⟩ <;> dsimp only at h
    · obtain ⟨ps1, h1⟩ := ih ps (fun q hq => hpre q (List.mem_cons_of_mem _ hq))
      refine ⟨ps1, ?_⟩
      rw [List.cons_append, findInvalid, h]
      exact h1
    · obtain ⟨ps1, h1⟩ := ih (ps ++ [(n, s)]) (fun q hq => hpre q (List.mem_cons_of_mem _ hq))
      refine ⟨ps1, ?_⟩
      rw [List.cons_append, findInvalid, h]
      exact h1

/-- When `find` reports a validator with a non-empty name and no promise of a
validator called `length` was collected, `set` returns a promise rejected with that
name and the world is untouched. -/
theorem set_rejected (fuel : Nat) (w : World) (a : Nat) (K : Key) (V : Value)
    (vs : List (String × Validator)) (name : String) (ps : List (String × Settle))
    (hvs : (w.configs (w.atoms a).cfg).validation.bind (fun v => validationFor v K) = some vs)
    (hfi : findInvalid V vs [] = some (some name, ps)) (hlen : promisesLength ps = false)
    (hname : name ≠ "") : set (fuel + 1) w a K V = .ok w (.rejected name) := by
  have hg : gate (w.configs (w.atoms a).cfg) K V = .reject name := by
    unfold gate
    rw [hvs]
    simp only [hfi, hlen, Bool.false_eq_true, if_false]
    rw [if_pos (by simpa using hname)]
  rw [show set (fuel + 1) w a K V = setBody (set fuel) w a K V from rfl, setBody_gate, hg]

/-! ## `destroy` -/

theorem destroy_live (w : World) (a : Nat) (hlive : (w.atoms a).destroyed = false) :
    me.destroy w a =
      .ok (({ w with configs := Function.update w.configs (w.atoms a).cfg Config.none } :
        World).updAtom a (fun s =>
          { s with props := [], needs := [], providers := [], listeners := [],
                   q := { items := [], pending := Option.none, next := Option.none,
                          args := Option.none },
                   destroyed := true })) .undefined := by
  unfold me.destroy
  simp only [hlive, Bool.false_eq_true, if_false]

theorem destroy_post (w : World) (a : Nat) (w1 : World) (r : SetRet)
    (h : me.destroy w a = .ok w1 r) :
    (w1.atoms a).destroyed = true ∧ (w1.atoms a).props = [] ∧
      (w1.atoms a).listeners = [] ∧ (w1.atoms a).cfg = (w.atoms a).cfg ∧
      w1.configs = Function.update w.configs (w.atoms a).cfg Config.none ∧
      (∀ b, b ≠ a → w1.atoms b = w.atoms b) ∧ w1.heap = w.heap ∧ w1.log = w.log ∧
      (w.atoms a).destroyed = false := by
  unfold me.destroy at h
  by_cases hd : (w.atoms a).destroyed = true
  · simp only [hd, if_true] at h
    cases h
  · have hd2 : (w.atoms a).destroyed = false := by simpa using hd
    simp only [hd2, Bool.false_eq_true, if_false] at h
    injection h with hw _
    subst hw
    refine ⟨?_, ?_, ?_, ?_, rfl, ?_, rfl, rfl, hd2⟩
    · simp [World.updAtom]
    · simp [World.updAtom]
    · simp [World.updAtom]
    · simp [World.updAtom]
    · intro b hb
      simp [World.updAtom, Function.update_noteq hb]

theorem set_destroyed (fuel : Nat) (w : World) (a : Nat) (key : Key) (value : Value)
    (hd : (w.atoms a).destroyed = true)
    (hval : (w.configs (w.atoms a).cfg).validation = Option.none) :
    set (fuel + 1) w a key value = .threw w := by
  rw [show set (fuel + 1) w a key value = setBody (set fuel) w a key value from rfl]
  unfold setBody performSet
  simp only [hval, Option.bind, hd, if_true]

/-- C11, amended: after `destroy()` on a live instance, `get(key)`, `set(key, value)`
and `on(key, cb)` each raise an exception and leave the state as it is; `has` is
false for every key, before and after. -/
theorem C11_destroyed_instance_throws (fuel : Nat) (w : World) (a : Nat) (key : Key)
    (value : Value) (cb : Cb) (hlive : (w.atoms a).destroyed = false) :
    ∃ w1, me.destroy w a = .ok w1 .undefined ∧
      (∀ k, me.has w1 a (.key k) = false) ∧
      me.get w1 a key = Option.none ∧
      me.set (fuel + 1) w1 a (.key key) value = .threw w1 ∧
      me.bind w1 a (.key key) cb = .threw w1 := by
  refine ⟨_, destroy_live w a hlive, ?_⟩
  obtain ⟨hd, -, -, hcfg, hconf, -⟩ := destroy_post w a _ _ (destroy_live w a hlive)
  refine ⟨?_, ?_, ?_, ?_⟩
  · intro k
    simp only [me.has, hd, if_true, toArray]
    rfl
  · simp only [me.get, hd, if_true]
  · have hval : (_ : World).configs _ = _ := congrFun hconf (w.atoms a).cfg
    rw [Function.update_same] at hval
    show set (fuel + 1) _ a key value = _
    apply set_destroyed _ _ _ _ _ hd
    rw [hcfg, hval]
    rfl
  · simp only [me.bind, hd, if_true]

theorem C11_witness :
    ∃ w1, me.destroy sampleWorld 0 = .ok w1 .undefined ∧
      (∀ k, me.has w1 0 (.key k) = false) ∧
      me.get w1 0 "a" = Option.none ∧
      me.set (0 + 1) w1 0 (.key "a") (.num 1) = .threw w1 ∧
      me.bind w1 0 (.key "a") (.user 7) = .threw w1 :=
  C11_destroyed_instance_throws 0 sampleWorld 0 "a" (.num 1) (.user 7) rfl

theorem C11_counterexample : ¬ InertAfterDestroy 1 sampleWorld 0 "a" (.num 1) (.user 7) := by
  intro h
  obtain ⟨⟨v, hv⟩, -⟩ := h _ _ (destroy_live sampleWorld 0 rfl)
  obtain ⟨hd, -⟩ := destroy_post sampleWorld 0 _ _ (destroy_live sampleWorld 0 rfl)
  simp only [me.get, hd, if_true] at hv
  cases hv

/-! ## The values `get` returns -/

theorem getValues_eq (props : List (Key × Value)) (L : List Key) :
    getValues props L = (L.map (lookup props)).reverse := rfl

theorem sampleXY_eq :
    (((set 1 (World.init (fun _ => Config.none)) 0 "x" (.num 1)).andThen
      (fun w => set 1 w 0 "y" (.num 2))).world?).map (fun w => (w.atoms 0).props) =
      some (sampleXY.atoms 0).props := by
  decide

/-- C12: on a live instance `get(L)` returns the values of the keys of `L` in
reverse order (`values.unshift` in a forward loop), the callback form passes them
to the callback in that reverse order, and `get(K)` for a string `K` returns the
value of `K`. -/
theorem C12_get_list_is_reversed (fuel : Nat) (w : World) (a : Nat) (L : List Key) (K : Key)
    (c : Nat) (hlive : (w.atoms a).destroyed = false) :
    me.getList w a L = some ((L.map (lookup (w.atoms a).props)).reverse) ∧
      me.getWith fuel w a (.list L) (.user c) =
        .ok (w.emit (.cb c ((L.map (lookup (w.atoms a).props)).reverse))) .undefined ∧
      me.get w a K = some (lookup (w.atoms a).props K) := by
  refine ⟨?_, ?_, ?_⟩
  · simp only [me.getList, hlive, Bool.false_and, Bool.false_eq_true, if_false, get, getValues]
  · simp only [me.getWith, hlive, Bool.false_and, Bool.false_eq_true, if_false, getValues,
      toArray, invoke]
  · simp only [me.get, hlive, Bool.false_eq_true, if_false, get, getValues, List.map_cons,
      List.map_nil, List.reverse_cons, List.reverse_nil, List.nil_append, List.headD_cons]

theorem C12_witness :
    me.getList sampleXY 0 ["x", "y"] = some [.num 2, .num 1] ∧
      me.getWith 1 sampleXY 0 (.list ["x", "y"]) (.user 7) =
        .ok (sampleXY.emit (.cb 7 [.num 2, .num 1])) .undefined ∧
      me.get sampleXY 0 "x" = some (.num 1) :=
  C12_get_list_is_reversed 1 sampleXY 0 ["x", "y"] "x" 7 rfl

/-! ## The log of a commit -/

theorem hookU_log_eq (cfg : Nat) (w : World) :
    (hookU cfg w).log = w.log ++ hookLog (w.configs cfg).onChange := by
  unfold hookU hookLog
  cases (w.configs cfg).onChange <;> simp [World.emit]

theorem firedEvents_pushObj (a : Nat) (key : Key) (value : Value) (w : World) :
    firedEvents a key (pushObj value w) = firedEvents a key w := by
  funext x
  apply firedEvents_congr
  · rw [pushObj_heap]
  · rw [pushObj_atoms]

/-- The log of a commit on a well-formed registry: the calls of the records that
fire, oldest record first, each with the values read from the property map after
the write, and then the hook. -/
theorem commitU_log_full (w : World) (a : Nat) (key : Key) (value : Value) (hwf : RegWF w a) :
    (commitU w a key value).log =
      w.log ++
        if dispatches w a key value = true then
          (w.atoms a).listeners.reverse.flatMap (firedEvents a key (assignW w a key value)) ++
            hookLog (w.configs (w.atoms a).cfg).onChange
        else [] := by
  unfold commitU
  by_cases hd : dispatches w a key value = true
  · rw [if_pos hd, if_pos hd, hookU_log_eq]
    simp only [popObj_log, popObj_configs, clearNeed, updAtom_log, updAtom_configs,
      (passU_wf w a key value hwf).2.2, (passU_frame w a key value).configs, pushObj_configs,
      assignW, firedEvents_pushObj, List.append_assoc]
  · rw [if_neg hd, if_neg hd]
    simp [assignW]

theorem calledCbs_append (l1 l2 : List Event) :
    calledCbs (l1 ++ l2) = calledCbs l1 ++ calledCbs l2 := by
  simp [calledCbs, List.filterMap_append]

theorem calledCbs_hookLog (o : Option Nat) : calledCbs (hookLog o) = [] := by
  cases o <;> rfl

theorem calledCbs_fired (a : Nat) (key : Key) (w0 w : World) (rs : List Nat)
    (hh : w.heap = w0.heap) :
    calledCbs (rs.flatMap (firedEvents a key w)) =
      (rs.filter (fun r => fires key (w0.heap r))).filterMap (fun r =>
        match (w0.heap r).cb with
        | .user id => some id
        | .forward _ _ => Option.none) := by
  induction rs with
  | nil => rfl
  | cons r rs ih =>
    rw [List.flatMap_cons, calledCbs_append, ih]
    unfold firedEvents
    rw [hh]
    by_cases hf : fires key (w0.heap r) = true
    · cases hcb : (w0.heap r).cb <;> simp [List.filter_cons, hf, hcb, calledCbs]
    · cases hcb : (w0.heap r).cb <;> simp [List.filter_cons, hf, calledCbs]

theorem firingCbs_reverse (w : World) (a : Nat) (key : Key) :
    (firingCbs w a key).reverse =
      ((w.atoms a).listeners.reverse.filter (fun r => fires key (w.heap r))).filterMap (fun r =>
        match (w.heap r).cb with
        | .user id => some id
        | .forward _ _ => Option.none) := by
  unfold firingCbs
  rw [List.filter_reverse, List.filterMap_reverse]

theorem sampleTwo_bound :
    me.bind sampleWorld 0 (.key "a") (.user 8) = .ok sampleTwo .undefined := rfl

theorem sampleTwo_regWF : RegWF sampleTwo 0 := by
  refine ⟨by decide, ?_⟩
  intro r hr
  have : r = 1 ∨ r = 0 := by
    simpa [sampleTwo, sampleWorld, addListener, World.updAtom, World.init, AtomSt.fresh] using hr
  rcases this with h | h <;> subst h <;> exact ⟨rfl, rfl, by decide⟩

/-- C13, amended: a `set` that notifies on a well-formed registry calls the
callbacks of the records that fire in the order of registration, the oldest record
first (the reverse of the registry, which has the newest record in front). -/
theorem C13_notifies_oldest_first (fuel : Nat) (w : World) (a : Nat) (K : Key) (V : Value)
    (hlive : (w.atoms a).destroyed = false) (hwf : RegWF w a)
    (hc : commits w a K V = true) (hd : dispatches w a K V = true) :
    ∃ w1 r, set (fuel + 1) w a K V = .ok w1 r ∧
      calledCbs (w1.log.drop w.log.length) = (firingCbs w a K).reverse := by
  have hlog : calledCbs ((commitU w a K V).log.drop w.log.length) =
      (firingCbs w a K).reverse := by
    rw [commitU_log_full w a K V hwf, if_pos hd, List.drop_left, calledCbs_append,
      calledCbs_hookLog, List.append_nil, firingCbs_reverse,
      calledCbs_fired a K w (assignW w a K V) _ (assignW_heap w a K V)]
  rw [set_user fuel w a K V hlive (regWF_user hwf)]
  unfold commits at hc
  cases hg : gate (w.configs (w.atoms a).cfg) K V with
  | openPlain => exact ⟨_, _, rfl, hlog⟩
  | openPromise => exact ⟨_, _, rfl, hlog⟩
  | reject name => rw [hg] at hc; cases hc
  | wait ps => rw [hg] at hc; cases hc
  | throws => rw [hg] at hc; cases hc

theorem C13_witness :
    ∃ w1 r, set (0 + 1) sampleTwo 0 "a" (.num 1) = .ok w1 r ∧
      calledCbs (w1.log.drop sampleTwo.log.length) = (firingCbs sampleTwo 0 "a").reverse :=
  C13_notifies_oldest_first 0 sampleTwo 0 "a" (.num 1) rfl sampleTwo_regWF rfl rfl

theorem C13_counterexample : ¬ NotifiesNewestFirst 1 sampleTwo 0 "a" (.num 1) := by
  intro h
  have h1 : set 1 sampleTwo 0 "a" (.num 1) =
      .ok (commitU sampleTwo 0 "a" (.num 1)) .undefined :=
    set_user 0 sampleTwo 0 "a" (.num 1) rfl (regWF_user sampleTwo_regWF)
  have h3 := h _ _ h1 rfl rfl
  revert h3
  decide

/-! ## Joined key lists -/

/-- The characters that follow the first key in a joined list. -/
theorem intercalate_go_data (s acc : String) (l : List String) :
    (String.intercalate.go acc s l).data =
      acc.data ++ (l.map (fun a => s.data ++ a.data)).flatten := by
  induction l generalizing acc with
  | nil => simp [String.intercalate.go]
  | cons a as ih =>
    rw [String.intercalate.go, ih]
    simp [String.data_append, List.append_assoc]

theorem joinKeys_cons_data (a : Key) (as : List Key) :
    (joinKeys (a :: as)).data = a.data ++ (as.map (fun k => ',' :: k.data)).flatten := by
  unfold joinKeys
  rw [String.intercalate, intercalate_go_data]
  rfl

/-- Two comma-free prefixes followed by nothing or by a comma are equal when the
whole strings are. -/
theorem split_at_comma (x y r1 r2 : List Char) (hx : ',' ∉ x) (hy : ',' ∉ y)
    (h1 : r1 = [] ∨ ∃ t, r1 = ',' :: t) (h2 : r2 = [] ∨ ∃ t, r2 = ',' :: t)
    (h : x ++ r1 = y ++ r2) : x = y ∧ r1 = r2 := by
  induction x generalizing y with
  | nil =>
    cases y with
    | nil => exact ⟨rfl, by simpa using h⟩
    | cons d y =>
      exfalso
      rcases h1 with h1 | ⟨t, h1⟩
      · subst h1; simp at h
      · subst h1
        simp only [List.nil_append, List.cons_append, List.cons.injEq] at h
        exact hy (by rw [← h.1]; exact List.mem_cons_self _ _)
  | cons c x ih =>
    cases y with
    | nil =>
      exfalso
      rcases h2 with h2 | ⟨t, h2⟩
      · subst h2; simp at h
      · subst h2
        simp only [List.nil_append, List.cons_append, List.cons.injEq] at h
        exact hx (by rw [h.1]; exact List.mem_cons_self _ _)
    | cons d y =>
      simp only [List.cons_append, List.cons.injEq] at h
      obtain ⟨hxy, hr⟩ := ih y (fun hm => hx (List.mem_cons_of_mem _ hm))
        (fun hm => hy (List.mem_cons_of_mem _ hm)) h.2
      exact ⟨by rw [h.1, hxy], hr⟩

theorem tail_shape (as : List Key) :
    (as.map (fun k => ',' :: k.data)).flatten = [] ∨
      ∃ t, (as.map (fun k => ',' :: k.data)).flatten = ',' :: t := by
  cases as with
  | nil => exact Or.inl rfl
  | cons a as => exact Or.inr ⟨a.data ++ (as.map (fun k => ',' :: k.data)).flatten, rfl⟩

theorem plainKey_data (k : Key) (h : plainKey k = true) : k.data ≠ [] ∧ ',' ∉ k.data := by
  unfold plainKey at h
  simp only [Bool.and_eq_true, bne_iff_ne, ne_eq, Bool.not_eq_true', List.contains_eq_any_beq,
    List.any_eq_false, beq_iff_eq] at h
  refine ⟨?_, ?_⟩
  · intro hd
    apply h.1
    exact String.ext hd
  · intro hm
    exact h.2 _ hm rfl

theorem tails_inj (as bs : List Key) (ha : ∀ k ∈ as, plainKey k = true)
    (hb : ∀ k ∈ bs, plainKey k = true)
    (h : (as.map (fun k => ',' :: k.data)).flatten = (bs.map (fun k => ',' :: k.data)).flatten) :
    as = bs := by
  induction as generalizing bs with
  | nil =>
    cases bs with
    | nil => rfl
    | cons b bs => simp at h
  | cons a as ih =>
    cases bs with
    | nil => simp at h
    | cons b bs =>
      simp only [List.map_cons, List.flatten_cons, List.cons_append, List.cons.injEq,
        true_and] at h
      obtain ⟨h1, h2⟩ := split_at_comma _ _ _ _
        (plainKey_data a (ha a (List.mem_cons_self _ _))).2
        (plainKey_data b (hb b (List.mem_cons_self _ _))).2 (tail_shape as) (tail_shape bs) h
      rw [String.ext h1, ih bs (fun k hk => ha k (List.mem_cons_of_mem _ hk))
        (fun k hk => hb k (List.mem_cons_of_mem _ hk)) h2]

/-- Joining is injective on lists of plain keys. -/
theorem joinKeys_inj (as bs : List Key) (ha : ∀ k ∈ as, plainKey k = true)
    (hb : ∀ k ∈ bs, plainKey k = true) (h : joinKeys as = joinKeys bs) : as = bs := by
  have hd := congrArg String.data h
  cases as with
  | nil =>
    cases bs with
    | nil => rfl
    | cons b bs =>
      exfalso
      rw [joinKeys_cons_data] at hd
      have hb1 := (plainKey_data b (hb b (List.mem_cons_self _ _))).1
      have : b.data = [] := by
        have h3 : ([] : List Char) = b.data ++ _ := hd
        exact (List.append_eq_nil.mp h3.symm).1
      exact hb1 this
  | cons a as =>
    cases bs with
    | nil =>
      exfalso
      rw [joinKeys_cons_data] at hd
      have ha1 := (plainKey_data a (ha a (List.mem_cons_self _ _))).1
      have : a.data = [] := by
        have h3 : a.data ++ _ = ([] : List Char) := hd
        exact (List.append_eq_nil.mp h3).1
      exact ha1 this
    | cons b bs =>
      rw [joinKeys_cons_data, joinKeys_cons_data] at hd
      obtain ⟨h1, h2⟩ := split_at_comma _ _ _ _
        (plainKey_data a (ha a (List.mem_cons_self _ _))).2
        (plainKey_data b (hb b (List.mem_cons_self _ _))).2 (tail_shape as) (tail_shape bs) hd
      rw [String.ext h1, tails_inj as bs (fun k hk => ha k (List.mem_cons_of_mem _ hk))
        (fun k hk => hb k (List.mem_cons_of_mem _ hk)) h2]


/-! ## `keysMatch` on plain keys -/

theorem sorted_keys (l : List Key) :
    List.Sorted (fun x y => x ≤ y) (l.mergeSort (fun x y => decide (x ≤ y))) := by
  have h := @List.sorted_mergeSort Key (fun (x y : Key) => decide (x ≤ y))
    (fun a b c h1 h2 => by
      simp only [decide_eq_true_eq] at h1 h2 ⊢
      exact le_trans h1 h2)
    (fun a b => by
      simp only [Bool.or_eq_true, decide_eq_true_eq]
      exact le_total a b) l
  exact h.imp (fun hab => by simpa using hab)

theorem sort_eq_iff_perm (A B : List Key) :
    A.mergeSort (fun x y => decide (x ≤ y)) = B.mergeSort (fun x y => decide (x ≤ y)) ↔
      A.Perm B := by
  constructor
  · intro h
    exact (List.mergeSort_perm A _).symm.trans (h ▸ List.mergeSort_perm B _)
  · intro h
    exact List.eq_of_perm_of_sorted
      (((List.mergeSort_perm A _).trans h).trans (List.mergeSort_perm B _).symm)
      (sorted_keys A) (sorted_keys B)

theorem sameKeys_iff (A B : List Key) : sameKeys A B = true ↔ ∀ k, k ∈ A ↔ k ∈ B := by
  simp only [sameKeys, Bool.and_eq_true, List.all_eq_true, List.contains_iff_exists_mem_beq,
    beq_iff_eq, exists_eq_right']
  constructor
  · intro h k
    exact ⟨h.1 k, h.2 k⟩
  · intro h
    exact ⟨fun k hk => (h k).mp hk, fun k hk => (h k).mpr hk⟩

/-- On lists of distinct plain keys `keysMatch` is equality of the sets of keys. -/
theorem keysMatch_plain (A B : KeyOrList) (hA : plainKeys (toArray A))
    (hB : plainKeys (toArray B)) : keysMatch A B = sameKeys (toArray A) (toArray B) := by
  apply Bool.eq_iff_iff.mpr
  rw [sameKeys_iff, ← List.perm_ext_iff_of_nodup hA.1 hB.1, ← sort_eq_iff_perm]
  unfold keysMatch
  rw [beq_iff_eq]
  constructor
  · intro h
    exact joinKeys_inj _ _ (fun k hk => hA.2 k (List.mem_mergeSort.mp hk))
      (fun k hk => hB.2 k (List.mem_mergeSort.mp hk)) h
  · intro h
    rw [h]

theorem falsy_of_plain (L : KeyOrList) (hL : plainKeys (toArray L)) : L.falsy = false := by
  cases L with
  | key k =>
    have := hL.2 k (by simp [toArray])
    unfold plainKey at this
    simp only [Bool.and_eq_true, bne_iff_ne, ne_eq] at this
    simp only [KeyOrList.falsy, beq_eq_false_iff_ne, ne_eq]
    exact this.1
  | list ks => rfl

/-- `off(L, cb)` on a live instance, when `L` and the keys of every record with the
callback `cb` are distinct plain keys. -/
theorem off_plain (w : World) (a : Nat) (L : KeyOrList) (cb : Cb)
    (hlive : (w.atoms a).destroyed = false) (hL : plainKeys (toArray L))
    (hrec : ∀ r ∈ (w.atoms a).listeners, (w.heap r).cb = cb → plainKeys (w.heap r).keys) :
    ∃ w1, me.off w a (some L) cb = .ok w1 .undefined ∧
      (w1.atoms a).listeners = offSpec w a L cb := by
  refine ⟨_, by simp only [me.off, hlive, Bool.false_eq_true, if_false]; rfl, ?_⟩
  simp only [World.updAtom, Function.update_same, offSpec]
  apply List.filter_congr
  intro r hr
  by_cases hcb : (w.heap r).cb = cb
  · rw [falsy_of_plain L hL, Bool.false_or,
      keysMatch_plain (.list (w.heap r).keys) L (hrec r hr hcb) hL]
    rfl
  · have hb : ((w.heap r).cb == cb) = false := by simpa using hcb
    rw [hb, Bool.false_and, Bool.false_and]

theorem plainKeys_a : plainKeys ["a"] := by
  refine ⟨by decide, ?_⟩
  intro k hk
  have : k = "a" := by simpa using hk
  subst this
  decide

theorem joinKeys_sorted (l : List Key) (h : l.Pairwise (fun x y => decide (x ≤ y) = true)) :
    joinKeys (l.mergeSort (fun x y => decide (x ≤ y))) = joinKeys l := by
  rw [List.mergeSort_of_sorted h]

theorem keysMatch_dup : keysMatch (.list ["a", "a"]) (.key "a") = false := by
  unfold keysMatch
  rw [joinKeys_sorted _ (by simp [toArray]), joinKeys_sorted _ (by simp [toArray])]
  decide

/-- C14, amended: when `L` and the keys of every record with the callback `cb` are
lists of distinct keys that are not empty and contain no comma, `off(L, cb)` removes
exactly the records whose callback is `cb` and whose keys are those of `L` and
leaves the others in their order; on such lists `keysMatch` is true exactly when
both hold the same keys. -/
theorem C14_off_removes_same_keys (w : World) (a : Nat) (L : KeyOrList) (cb : Cb)
    (hlive : (w.atoms a).destroyed = false) (hL : plainKeys (toArray L))
    (hrec : ∀ r ∈ (w.atoms a).listeners, (w.heap r).cb = cb → plainKeys (w.heap r).keys) :
    (∀ A B : KeyOrList, plainKeys (toArray A) → plainKeys (toArray B) →
      KeysMatchIsSameKeys A B) ∧ OffRemovesSameKeys w a L cb := by
  refine ⟨fun A B hA hB => keysMatch_plain A B hA hB, ?_⟩
  obtain ⟨w1, h1, h2⟩ := off_plain w a L cb hlive hL hrec
  exact ⟨w1, _, h1, h2⟩

theorem C14_witness :
    (∀ A B : KeyOrList, plainKeys (toArray A) → plainKeys (toArray B) →
      KeysMatchIsSameKeys A B) ∧ OffRemovesSameKeys sampleWorld 0 (.key "a") (.user 7) :=
  C14_off_removes_same_keys sampleWorld 0 (.key "a") (.user 7) rfl plainKeys_a
    (fun r hr _ => by
      have : r = 0 := by
        simpa [sampleWorld, addListener, World.updAtom, World.init, AtomSt.fresh] using hr
      subst this
      exact plainKeys_a)

theorem C14_counterexample :
    ¬ KeysMatchIsSameKeys (.list ["a", "a"]) (.key "a") ∧
      ¬ OffRemovesSameKeys sampleDup 0 (.key "a") (.user 7) := by
  constructor
  · unfold KeysMatchIsSameKeys
    rw [keysMatch_dup]
    decide
  · rintro ⟨w1, r, h, hl⟩
    have hl0 : (w1.atoms 0).listeners = [0] := by
      simp only [me.off, sampleDup, addListener, World.updAtom, World.init, AtomSt.fresh,
        Function.update_same, Bool.false_eq_true, if_false] at h
      injection h with hw _
      subst hw
      simp [keysMatch_dup, KeyOrList.falsy]
    rw [hl0] at hl
    revert hl
    decide

/-! ## `need` of a key that is present -/

/-- `need(K)` when `K` is present takes the `else` branch of the loop, whether or
not a provider is registered: the key is marked as needed. -/
theorem need_present (fuel : Nat) (w : World) (a : Nat) (K : Key)
    (hlive : (w.atoms a).destroyed = false) (hhas : hasOwn (w.atoms a).props K = true) :
    me.need fuel w a (.key K) Option.none = .ok (markNeed w a K) .undefined := by
  simp only [me.need, hlive, Bool.false_and, Bool.false_eq_true, if_false, toArray,
    List.reverse_cons, List.reverse_nil, List.nil_append, me.needLoop, hhas, if_true, markNeed]

theorem markNeed_needs (w : World) (a : Nat) (K : Key) :
    ((markNeed w a K).atoms a).needs.contains K = true := by
  simp only [markNeed, updAtom_same]
  by_cases h : (w.atoms a).needs.contains K = true
  · rw [if_pos h]; exact h
  · rw [if_neg h]; simp

/-- `provide(K, P)` when `K` is marked as needed calls the producer at once; a
producer that answers at once overwrites the value of `K`. -/
theorem provide_needed (fuel : Nat) (w : World) (a : Nat) (K : Key) (P : Producer)
    (hlive : (w.atoms a).destroyed = false) (hwf : RegWF w a)
    (hneed : (w.atoms a).needs.contains K = true)
    (hval : (w.configs (w.atoms a).cfg).validation.bind (fun f => validationFor f K) = none) :
    ∃ w2, me.provide (fuel + 1) w a K P = .ok w2 .undefined ∧
      producerCalls P.id w2.log = producerCalls P.id w.log + 1 ∧
      ∀ v rest, P.sync = v :: rest → me.get w2 a K = some v := by
  have hcell := provided_cell w a K P
  have hwfP : RegWF (provided w a K P) a :=
    regWF_of_eq hwf (by simp [provided, World.emit]) rfl rfl
  have hliveP : ((provided w a K P).atoms a).destroyed = false := by
    simpa [provided, World.emit] using hlive
  have hvalP : ((provided w a K P).configs ((provided w a K P).atoms a).cfg).validation.bind
      (fun f => validationFor f K) = none := by
    simpa [provided, World.emit] using hval
  have hme : me.provide (fuel + 1) w a K P = provide (fuel + 1) w a K P := by
    simp only [me.provide, hlive, Bool.false_eq_true, if_false, hneed, if_true]
  rw [hme, provide_eq]
  cases hs : P.sync with
  | nil =>
    refine ⟨provided w a K P, rfl, producerCalls_provided w a K P, ?_⟩
    intro v rest hv
    cases hv
  | cons v0 rest0 =>
    have hdone := callDone_commits fuel _ _ a K v0 hcell hliveP hwfP hvalP
    have hrest := callAll_again (fuel + 1) _ _ a K v0 rest0 hcell
    refine ⟨commitU (markRan (provided w a K P) w.cells.length ⟨.setKey a K, false⟩) a K v0,
      ?_, ?_, ?_⟩
    · simp only [callAll, hdone, hrest]
    · rw [producerCalls_commitU]
      exact producerCalls_provided w a K P
    · intro v rest hv
      injection hv with hv1 _
      subst hv1
      apply get_of_props
      · rw [commitU_destroyed]
        exact hliveP
      · rw [commitU_props, lookup_assign_same]

theorem sampleXY_regWF : RegWF sampleXY 0 := by
  refine ⟨List.nodup_nil, ?_⟩
  intro r hr
  exact absurd hr (List.not_mem_nil _)

/-- C15: on a live instance, `need(K)` for a key that is present marks `K` as
needed all the same, and a later `provide(K, P)` then calls the producer although
`K` is still present; a producer that answers at once overwrites the value. -/
theorem C15_need_marks_present_key (fuel : Nat) (w : World) (a : Nat) (K : Key)
    (P : Producer) (hlive : (w.atoms a).destroyed = false) (hwf : RegWF w a)
    (hhas : hasOwn (w.atoms a).props K = true)
    (hval : (w.configs (w.atoms a).cfg).validation.bind (fun f => validationFor f K) = none) :
    ∃ w1 w2, me.need fuel w a (.key K) Option.none = .ok w1 .undefined ∧
      (w1.atoms a).needs.contains K = true ∧
      hasOwn (w1.atoms a).props K = true ∧
      w1.log = w.log ∧
      me.provide (fuel + 1) w1 a K P = .ok w2 .undefined ∧
      producerCalls P.id w2.log = producerCalls P.id w.log + 1 ∧
      ∀ v rest, P.sync = v :: rest → me.get w2 a K = some v := by
  have hlive1 : ((markNeed w a K).atoms a).destroyed = false := by
    simpa [markNeed] using hlive
  have hwf1 : RegWF (markNeed w a K) a :=
    regWF_of_eq hwf (by simp [markNeed]) rfl rfl
  have hval1 : ((markNeed w a K).configs ((markNeed w a K).atoms a).cfg).validation.bind
      (fun f => validationFor f K) = none := by
    simpa [markNeed] using hval
  obtain ⟨w2, h2, hcalls, hget⟩ :=
    provide_needed fuel (markNeed w a K) a K P hlive1 hwf1 (markNeed_needs w a K) hval1
  refine ⟨markNeed w a K, w2, need_present fuel w a K hlive hhas, markNeed_needs w a K, ?_,
    rfl, h2, hcalls, hget⟩
  simpa [markNeed] using hhas

theorem C15_witness :
    ∃ w1 w2, me.need 0 sampleXY 0 (.key "x") Option.none = .ok w1 .undefined ∧
      (w1.atoms 0).needs.contains "x" = true ∧
      hasOwn (w1.atoms 0).props "x" = true ∧
      w1.log = sampleXY.log ∧
      me.provide (0 + 1) w1 0 "x" ⟨3, [.num 5]⟩ = .ok w2 .undefined ∧
      producerCalls 3 w2.log = producerCalls 3 sampleXY.log + 1 ∧
      ∀ v rest, (⟨3, [.num 5]⟩ : Producer).sync = v :: rest → me.get w2 0 "x" = some v :=
  C15_need_marks_present_key 0 sampleXY 0 "x" ⟨3, [.num 5]⟩ rfl sampleXY_regWF (by decide) rfl

/-! ## The factory -/

theorem born_atom (w : World) (a cfg : Nat) : (born w a cfg).atoms a = AtomSt.fresh cfg := by
  simp [born]

theorem born_config (w : World) (a cfg : Nat) :
    (born w a cfg).configs cfg = { w.configs cfg with onChange := Option.none } := by
  simp [born]

theorem born_regWF (w : World) (a cfg : Nat) : RegWF (born w a cfg) a := by
  unfold RegWF
  rw [born_atom]
  exact ⟨List.nodup_nil, fun r hr => absurd hr (List.not_mem_nil _)⟩

theorem born_gate (w : World) (a cfg : Nat) (K : Key) (V : Value)
    (hval : (w.configs cfg).validation = Option.none) :
    gate ((born w a cfg).configs ((born w a cfg).atoms a).cfg) K V = .openPlain := by
  apply gate_of_no_validation
  rw [born_atom]
  show ((born w a cfg).configs cfg).validation = Option.none
  rw [born_config]
  exact hval

/-- The first `set` of the factory on a configuration without validators: it
commits, calls nothing and returns `undefined`. -/
theorem born_set (fuel : Nat) (w : World) (a cfg : Nat) (K : Key) (V : Value)
    (hval : (w.configs cfg).validation = Option.none) :
    set (fuel + 1) (born w a cfg) a K V = .ok (commitU (born w a cfg) a K V) .undefined ∧
      (commitU (born w a cfg) a K V).log = w.log := by
  constructor
  · rw [set_user fuel _ a K V (by rw [born_atom]; rfl) (regWF_user (born_regWF w a cfg)),
      born_gate w a cfg K V hval]
  · rw [commitU_log_full _ a K V (born_regWF w a cfg)]
    simp only [born_atom, AtomSt.fresh, List.reverse_nil, List.flatMap_nil, List.nil_append]
    have : ((born w a cfg).configs cfg).onChange = Option.none := by rw [born_config]
    rw [this]
    simp [hookLog, born]

/-- The factory with arguments, in terms of the world `born`. -/
theorem atom_some (fuel : Nat) (w : World) (a cfg : Nat) (keyOrMap : me.KeyOrMap)
    (value : Value) :
    atom fuel w a cfg (some (keyOrMap, value)) =
      match me.set fuel (born w a cfg) a keyOrMap value with
      | .ok w2 .undefined => .raised w2
      | .ok w2 r => .made w2 (some (r, (w.configs cfg).onChange))
      | .threw w2 => .raised w2
      | .outOfFuel => .outOfFuel := rfl

theorem atom_key (fuel : Nat) (w : World) (a cfg : Nat) (K : Key) (V : Value)
    (hval : (w.configs cfg).validation = Option.none) :
    atom (fuel + 1) w a cfg (some (.key K, V)) = .raised (commitU (born w a cfg) a K V) := by
  rw [atom_some, show me.set (fuel + 1) (born w a cfg) a (.key K) V =
    set (fuel + 1) (born w a cfg) a K V from rfl, (born_set fuel w a cfg K V hval).1]

theorem atom_map (fuel : Nat) (w : World) (a cfg : Nat) (K : Key) (V : Value)
    (rest : List (Key × Value)) (v : Value)
    (hval : (w.configs cfg).validation = Option.none) :
    atom (fuel + 1) w a cfg (some (.map ((K, V) :: rest), v)) =
      .made (commitU (born w a cfg) a K V) (some (.rejectedErr, (w.configs cfg).onChange)) := by
  rw [atom_some, show me.set (fuel + 1) (born w a cfg) a (.map ((K, V) :: rest)) v =
    me.setEach (fuel + 1) a ((K, V) :: rest) (born w a cfg) [] from rfl]
  simp only [me.setEach, (born_set fuel w a cfg K V hval).1]

theorem born_commit_props (w : World) (a cfg : Nat) (K : Key) (V : Value) :
    ((commitU (born w a cfg) a K V).atoms a).props = [(K, V)] ∧
      ((commitU (born w a cfg) a K V).atoms a).destroyed = false := by
  rw [commitU_props, commitU_destroyed, born_atom]
  exact ⟨rfl, rfl⟩

/-- C16: with a configuration without validators, the factory raises an exception
when it is given a key and a value, and when it is given a map it writes the first
key only: the promise of the initial set is rejected and the other keys are absent. -/
theorem C16_factory_initial_arguments (fuel : Nat) (w : World) (a cfg : Nat) (K K2 : Key)
    (V V2 : Value) (rest : List (Key × Value))
    (hval : (w.configs cfg).validation = Option.none) (hne : K2 ≠ K) :
    (atom (fuel + 1) w a cfg (some (.key K, V))).raises = true ∧
      ∃ w2, atom (fuel + 1) w a cfg (some (.map ((K, V) :: (K2, V2) :: rest), .undefined)) =
          .made w2 (some (.rejectedErr, (w.configs cfg).onChange)) ∧
        me.get w2 a K = some V ∧ me.has w2 a (.key K) = true ∧
        me.has w2 a (.key K2) = false := by
  obtain ⟨hp, hl⟩ := born_commit_props w a cfg K V
  refine ⟨by rw [atom_key fuel w a cfg K V hval]; rfl, _,
    atom_map fuel w a cfg K V _ _ hval, ?_, ?_, ?_⟩
  · apply get_of_props _ _ _ _ hl
    rw [hp]
    simp [lookup]
  · simp only [me.has, hl, Bool.false_eq_true, if_false, toArray, hp]
    simp [hasOwn]
  · simp only [me.has, hl, Bool.false_eq_true, if_false, toArray, hp]
    simp [hasOwn, Ne.symm hne]

theorem C16_witness :
    (atom (0 + 1) (World.init (fun _ => Config.none)) 0 0
        (some (.key "a", .num 1))).raises = true ∧
      ∃ w2, atom (0 + 1) (World.init (fun _ => Config.none)) 0 0
          (some (.map (("a", .num 1) :: ("b", .num 2) :: []), .undefined)) =
          .made w2 (some (.rejectedErr, ((World.init (fun _ => Config.none)).configs 0).onChange)) ∧
        me.get w2 0 "a" = some (.num 1) ∧ me.has w2 0 (.key "a") = true ∧
        me.has w2 0 (.key "b") = false :=
  C16_factory_initial_arguments 0 (World.init (fun _ => Config.none)) 0 0 "a" "b" (.num 1)
    (.num 2) [] rfl (by decide)

/-! ## The hook after the factory -/

theorem born_commit_config (w : World) (a cfg : Nat) (K : Key) (V : Value) :
    (commitU (born w a cfg) a K V).configs ((commitU (born w a cfg) a K V).atoms a).cfg =
      { w.configs cfg with onChange := Option.none } := by
  rw [commitU_configs, commitU_cfg, born_atom]
  exact born_config w a cfg

theorem born_commit_listeners (w : World) (a cfg : Nat) (K : Key) (V : Value) :
    ((commitU (born w a cfg) a K V).atoms a).listeners = [] := by
  rw [commitU_listeners_wf _ a K V (born_regWF w a cfg), born_atom]
  simp [AtomSt.fresh]

/-- C17: with a configuration that has a hook and no validators, the factory given
a map calls no hook, but the promise of the initial set is rejected, so the
continuation that would put the hook back never runs: the configuration is left
without `onChange`, and a later `set` on the instance calls no hook. -/
theorem C17_hook_is_not_restored (fuel : Nat) (w : World) (a cfg : Nat) (K : Key) (V : Value)
    (rest : List (Key × Value)) (h : Nat) (K2 : Key) (V2 : Value)
    (hval : (w.configs cfg).validation = Option.none)
    (hh : (w.configs cfg).onChange = some h) :
    ∃ w2, atom (fuel + 1) w a cfg (some (.map ((K, V) :: rest), .undefined)) =
        .made w2 (some (.rejectedErr, some h)) ∧
      w2.log = w.log ∧
      ((atomThen w2 cfg (some h) .rejectedErr).configs cfg).onChange = Option.none ∧
      ∃ w3, set (fuel + 1) (atomThen w2 cfg (some h) .rejectedErr) a K2 V2 =
          .ok w3 .undefined ∧ w3.log = w.log := by
  have hw2 : RegWF (commitU (born w a cfg) a K V) a := commitU_regWF _ a K V (born_regWF w a cfg)
  have hcfg := born_commit_config w a cfg K V
  refine ⟨commitU (born w a cfg) a K V, ?_, (born_set fuel w a cfg K V hval).2, ?_, ?_⟩
  · rw [atom_map fuel w a cfg K V rest _ hval, hh]
  · show ((commitU (born w a cfg) a K V).configs cfg).onChange = Option.none
    rw [commitU_configs, born_config]
  · refine ⟨commitU (commitU (born w a cfg) a K V) a K2 V2, ?_, ?_⟩
    · show set (fuel + 1) (commitU (born w a cfg) a K V) a K2 V2 = _
      rw [set_user fuel _ a K2 V2 (born_commit_props w a cfg K V).2 (regWF_user hw2),
        gate_of_no_validation _ K2 V2 (by rw [hcfg]; exact hval)]
    · rw [commitU_log_full _ a K2 V2 hw2, born_commit_listeners, hcfg,
        (born_set fuel w a cfg K V hval).2]
      simp [hookLog]

theorem C17_witness :
    ∃ w2, atom (0 + 1) (World.init (fun _ => ⟨Option.none, some 0⟩)) 0 0
        (some (.map (("a", .num 1) :: []), .undefined)) =
        .made w2 (some (.rejectedErr, some 0)) ∧
      w2.log = (World.init (fun _ => ⟨Option.none, some 0⟩)).log ∧
      ((atomThen w2 0 (some 0) .rejectedErr).configs 0).onChange = Option.none ∧
      ∃ w3, set (0 + 1) (atomThen w2 0 (some 0) .rejectedErr) 0 "a" (.num 2) =
          .ok w3 .undefined ∧ w3.log = (World.init (fun _ => ⟨Option.none, some 0⟩)).log :=
  C17_hook_is_not_restored 0 (World.init (fun _ => ⟨Option.none, some 0⟩)) 0 0 "a" (.num 1) []
    0 "a" (.num 2) rfl rfl

/-! ## The order of the effects of a commit -/

theorem mem_firedEvents (a : Nat) (key : Key) (w : World) (r : Nat) (e : Event)
    (h : e ∈ firedEvents a key w r) :
    ∃ id, fires key (w.heap r) = true ∧ (w.heap r).cb = .user id ∧
      e = .cb id (getValues (w.atoms a).props (w.heap r).keys) := by
  unfold firedEvents at h
  cases hcb : (w.heap r).cb with
  | user id =>
    rw [hcb] at h
    by_cases hf : fires key (w.heap r) = true
    · simp only [hf, if_true, List.mem_singleton] at h
      exact ⟨id, hf, rfl, h⟩
    · simp only [hf, Bool.false_eq_true, if_false, List.not_mem_nil] at h
  | forward t k =>
    rw [hcb] at h
    simp at h

theorem hookCount_append (l1 l2 : List Event) :
    hookCount (l1 ++ l2) = hookCount l1 + hookCount l2 := by
  simp [hookCount, List.countP_append]

theorem hookCount_fired (a : Nat) (key : Key) (w : World) (rs : List Nat) :
    hookCount (rs.flatMap (firedEvents a key w)) = 0 := by
  unfold hookCount
  rw [List.countP_eq_zero]
  intro e he
  obtain ⟨r, -, hr⟩ := List.mem_flatMap.mp he
  obtain ⟨id, -, -, heq⟩ := mem_firedEvents a key w r e hr
  rw [heq]
  simp

/-- C18, for ordinary keys: a `set` of a key that is not a name of
`Object.prototype` that reaches `performSet`, on a well-formed registry whose
records are registered for such keys, returns.  When it commits a change, the log
grows by the calls of listener callbacks, each made by a record that fires and with
the values read from the property map that already holds `V` for `K`, followed by
the call of the hook, which is the last entry and the only hook call; when it is
suppressed the log does not grow. -/
theorem C18_commit_callbacks_hook (fuel : Nat) (w : World) (a : Nat) (K : Key) (V : Value)
    (hlive : (w.atoms a).destroyed = false) (hwf : RegWF w a)
    (_hK : ordinaryKey K = true)
    (_hkeys : ∀ x ∈ (w.atoms a).listeners, ∀ k ∈ (w.heap x).keys, ordinaryKey k = true)
    (hc : commits w a K V = true) :
    ∃ w1 r, set (fuel + 1) w a K V = .ok w1 r ∧
      (dispatches w a K V = true →
        ∃ evs, w1.log = w.log ++ evs ++ hookLog (w.configs (w.atoms a).cfg).onChange ∧
          (∀ e ∈ evs, ∃ x ∈ (w.atoms a).listeners, ∃ id,
            fires K (w.heap x) = true ∧ (w.heap x).cb = .user id ∧
            e = .cb id (getValues (assign (w.atoms a).props K V) (w.heap x).keys)) ∧
          lookup (assign (w.atoms a).props K V) K = V ∧
          hasOwn (assign (w.atoms a).props K V) K = true ∧
          (∀ h, (w.configs (w.atoms a).cfg).onChange = some h →
            hookCount w1.log = hookCount w.log + 1)) ∧
      (dispatches w a K V = false → w1.log = w.log) := by
  have hset : ∃ r, set (fuel + 1) w a K V = .ok (commitU w a K V) r := by
    rw [set_user fuel w a K V hlive (regWF_user hwf)]
    unfold commits at hc
    cases hg : gate (w.configs (w.atoms a).cfg) K V with
    | openPlain => exact ⟨_, rfl⟩
    | openPromise => exact ⟨_, rfl⟩
    | reject name => rw [hg] at hc; cases hc
    | wait ps => rw [hg] at hc; cases hc
    | throws => rw [hg] at hc; cases hc
  obtain ⟨r, hr⟩ := hset
  refine ⟨commitU w a K V, r, hr, ?_, ?_⟩
  · intro hd
    refine ⟨(w.atoms a).listeners.reverse.flatMap (firedEvents a K (assignW w a K V)), ?_, ?_,
      lookup_assign_same _ K V, hasOwn_assign_same _ K V, ?_⟩
    · rw [commitU_log_full w a K V hwf, if_pos hd, List.append_assoc]
    · intro e he
      obtain ⟨x, hx, hex⟩ := List.mem_flatMap.mp he
      obtain ⟨id, hf, hcb, heq⟩ := mem_firedEvents a K _ x e hex
      rw [assignW_heap] at hf hcb heq
      refine ⟨x, List.mem_reverse.mp hx, id, hf, hcb, ?_⟩
      rw [heq]
      simp [assignW]
    · intro h hh
      rw [commitU_log_full w a K V hwf, if_pos hd, hh, hookCount_append, hookCount_append,
        hookCount_fired]
      rfl
  · intro hd
    rw [commitU_log_full w a K V hwf, if_neg (by simp [hd])]
    simp

theorem sampleValidated_regWF : RegWF sampleValidated 0 := by
  refine ⟨by decide, ?_⟩
  intro r hr
  have : r = 0 := by
    simpa [sampleValidated, addListener, World.updAtom, World.init, AtomSt.fresh] using hr
  subst this
  exact ⟨rfl, rfl, by decide⟩

theorem C18_witness :
    ∃ w1 r, set (0 + 1) sampleValidated 0 "n" (.num 4) = .ok w1 r ∧
      (dispatches sampleValidated 0 "n" (.num 4) = true →
        ∃ evs, w1.log = sampleValidated.log ++ evs ++
            hookLog (sampleValidated.configs (sampleValidated.atoms 0).cfg).onChange ∧
          (∀ e ∈ evs, ∃ x ∈ (sampleValidated.atoms 0).listeners, ∃ id,
            fires "n" (sampleValidated.heap x) = true ∧ (sampleValidated.heap x).cb = .user id ∧
            e = .cb id (getValues (assign (sampleValidated.atoms 0).props "n" (.num 4))
              (sampleValidated.heap x).keys)) ∧
          lookup (assign (sampleValidated.atoms 0).props "n" (.num 4)) "n" = .num 4 ∧
          hasOwn (assign (sampleValidated.atoms 0).props "n" (.num 4)) "n" = true ∧
          (∀ h, (sampleValidated.configs (sampleValidated.atoms 0).cfg).onChange = some h →
            hookCount w1.log = hookCount sampleValidated.log + 1)) ∧
      (dispatches sampleValidated 0 "n" (.num 4) = false → w1.log = sampleValidated.log) :=
  C18_commit_callbacks_hook 0 sampleValidated 0 "n" (.num 4) rfl sampleValidated_regWF
    (by decide)
    (fun x hx => by
      have : x = 0 := by
        simpa [sampleValidated, addListener, World.updAtom, World.init, AtomSt.fresh] using hx
      subst this
      decide)
    rfl

/-! ## Records that leave the registry -/

theorem visited_exhausted (key : Key) (l : Listener) (h : l.calls.exhausted = false) :
    (visited key l).calls.exhausted = spent key l := by
  unfold visited spent
  by_cases hf : fires key l = true
  · simp only [hf, if_true, Bool.true_and]
    cases hc : l.calls with
    | inf => simp [Calls.dec, Calls.exhausted]
    | fin n =>
      simp only [Calls.dec, Calls.exhausted, Calls.fin.injEq]
      apply Bool.eq_iff_iff.mpr
      simp only [decide_eq_true_eq]
      omega
  · simp only [hf, Bool.false_eq_true, if_false, Bool.false_and]
    exact h

/-- C19: on a live instance with a well-formed registry (distinct records with user
callbacks and budget left) every `set` ends and leaves the registry well formed,
so without a record whose budget is 0; the registry it leaves is the old one
without the records that fired on their last call, when the set notified, and the
old one otherwise: all other records are kept, in their order. -/
theorem C19_registry_invariant (fuel : Nat) (w : World) (a : Nat) (K : Key) (V : Value)
    (hlive : (w.atoms a).destroyed = false) (hwf : RegWF w a) :
    ∃ w1, (set (fuel + 1) w a K V).world? = some w1 ∧ RegWF w1 a ∧
      (∀ x ∈ (w1.atoms a).listeners, (w1.heap x).calls.exhausted = false) ∧
      (w1.atoms a).listeners =
        (w.atoms a).listeners.filter (fun x => !(notifies w a K V && spent K (w.heap x))) := by
  have hwf1 : RegWF (afterSet w a K V) a := afterSet_regWF w a K V hwf
  refine ⟨afterSet w a K V, set_world fuel w a K V hlive hwf, hwf1,
    fun x hx => (hwf1.2 x hx).2.1, ?_⟩
  rcases afterSet_cases w a K V with ⟨hc, heq⟩ | ⟨hc, hat, -⟩
  · rw [heq, commitU_listeners_wf w a K V hwf]
    by_cases hd : dispatches w a K V = true
    · rw [if_pos hd]
      apply List.filter_congr
      intro x hx
      rw [visited_exhausted K (w.heap x) (hwf.2 x hx).2.1]
      simp [notifies, hc, hd]
    · rw [if_neg hd]
      symm
      apply List.filter_eq_self.mpr
      intro x _
      simp [notifies, hd]
  · rw [hat]
    symm
    apply List.filter_eq_self.mpr
    intro x _
    simp [notifies, hc]

theorem sampleNext_bound :
    me.next sampleTwo 0 (.key "a") (.user 9) = .ok sampleNext .undefined := rfl

theorem sampleNext_regWF : RegWF sampleNext 0 := by
  refine ⟨by decide, ?_⟩
  intro r hr
  have : r = 2 ∨ r = 1 ∨ r = 0 := by
    simpa [sampleNext, sampleTwo, sampleWorld, addListener, World.updAtom, World.init,
      AtomSt.fresh] using hr
  rcases this with h | h | h <;> subst h <;> exact ⟨rfl, rfl, by decide⟩

theorem C19_witness :
    ∃ w1, (set (0 + 1) sampleNext 0 "a" (.num 1)).world? = some w1 ∧ RegWF w1 0 ∧
      (∀ x ∈ (w1.atoms 0).listeners, (w1.heap x).calls.exhausted = false) ∧
      (w1.atoms 0).listeners =
        (sampleNext.atoms 0).listeners.filter
          (fun x => !(notifies sampleNext 0 "a" (.num 1) && spent "a" (sampleNext.heap x))) :=
  C19_registry_invariant 0 sampleNext 0 "a" (.num 1) rfl sampleNext_regWF

theorem sampleNext_after :
    (sampleNext.atoms 0).listeners = [2, 1, 0] ∧
      (sampleNext.atoms 0).listeners.filter
        (fun x => !(notifies sampleNext 0 "a" (.num 1) && spent "a" (sampleNext.heap x))) =
        [1, 0] := by
  decide

/-! ## `destroy` and the shared configuration -/

theorem sampleShared_made :
    setup 0 0 (World.init (fun _ => sampleConfig)) 1 Option.none =
      .made sampleShared Option.none := rfl

theorem sampleShared_regWF : RegWF sampleShared 1 :=
  ⟨List.nodup_nil, fun _ hr => absurd hr (List.not_mem_nil _)⟩

theorem destroy_eq (w : World) (a : Nat) (hlive : (w.atoms a).destroyed = false) :
    me.destroy w a = .ok (wrecked w a) .undefined :=
  destroy_live w a hlive

/-- C20: when the live instances `a` and `b` share a configuration object,
`destroy()` on `a` leaves that object empty, so `b` has no validators and no hook:
a `set(K, V)` on `b` that a validator rejected before the destroy is written after
it, and no hook is called. -/
theorem C20_destroy_clears_shared_config (fuel : Nat) (w : World) (a b : Nat) (K : Key)
    (V : Value) (name : String) (hne : a ≠ b)
    (hliveA : (w.atoms a).destroyed = false) (hliveB : (w.atoms b).destroyed = false)
    (hshare : (w.atoms a).cfg = (w.atoms b).cfg) (hwf : RegWF w b)
    (hrej : gate (w.configs (w.atoms b).cfg) K V = .reject name) :
    set (fuel + 1) w b K V = .ok w (.rejected name) ∧
      ∃ w1 w2, me.destroy w a = .ok w1 .undefined ∧
        w1.configs (w1.atoms b).cfg = Config.none ∧
        set (fuel + 1) w1 b K V = .ok w2 .undefined ∧
        me.get w2 b K = some V ∧ me.has w2 b (.key K) = true ∧
        hookCount w2.log = hookCount w.log := by
  constructor
  · rw [set_user fuel w b K V hliveB (regWF_user hwf), hrej]
  · obtain ⟨-, -, -, -, hconf, hoth, hheap, hlog, -⟩ :=
      destroy_post w a _ _ (destroy_eq w a hliveA)
    have hb := hoth b (Ne.symm hne)
    have hcfg : (wrecked w a).configs (w.atoms b).cfg = Config.none := by
      rw [hconf, ← hshare, Function.update_same]
    have hlive1 : ((wrecked w a).atoms b).destroyed = false := by rw [hb]; exact hliveB
    have hwf1 : RegWF (wrecked w a) b := regWF_of_eq hwf (by rw [hb]) hheap rfl
    have hget : ((commitU (wrecked w a) b K V).atoms b).destroyed = false := by
      rw [commitU_destroyed]; exact hlive1
    refine ⟨wrecked w a, commitU (wrecked w a) b K V, destroy_eq w a hliveA,
      by rw [hb]; exact hcfg, ?_, ?_, ?_, ?_⟩
    · rw [set_user fuel _ b K V hlive1 (regWF_user hwf1),
        gate_of_no_validation _ K V (by rw [hb, hcfg]; rfl)]
    · apply get_of_props _ _ _ _ hget
      rw [commitU_props, lookup_assign_same]
    · simp only [me.has, hget, Bool.false_eq_true, if_false, toArray, List.all_cons,
        List.all_nil, Bool.and_true, commitU_props, hasOwn_assign_same]
    · rw [commitU_log_full _ b K V hwf1, hb, hcfg, hlog]
      split
      · rw [hookCount_append, hookCount_append, hookCount_fired]
        rfl
      · simp

theorem C20_witness :
    set (0 + 1) sampleShared 1 "n" (.str "x") = .ok sampleShared (.rejected "isNumber") ∧
      ∃ w1 w2, me.destroy sampleShared 0 = .ok w1 .undefined ∧
        w1.configs (w1.atoms 1).cfg = Config.none ∧
        set (0 + 1) w1 1 "n" (.str "x") = .ok w2 .undefined ∧
        me.get w2 1 "n" = some (.str "x") ∧ me.has w2 1 (.key "n") = true ∧
        hookCount w2.log = hookCount sampleShared.log :=
  C20_destroy_clears_shared_config 0 sampleShared 0 1 "n" (.str "x") "isNumber" (by decide)
    rfl rfl rfl sampleShared_regWF rfl

/-! ## Well-formedness is what the interface maintains -/

/-- Each operation on a live instance with a well-formed registry ends and leaves
the instance live and the registry well formed. -/
theorem op_regWF (fuel : Nat) (w : World) (a : Nat) (op : Op)
    (hlive : (w.atoms a).destroyed = false) (hwf : RegWF w a) :
    ∃ w1, (op.run (fuel + 1) w a).world? = some w1 ∧
      (w1.atoms a).destroyed = false ∧ RegWF w1 a := by
  cases op with
  | bind kl c =>
    refine ⟨addListener w a ⟨toArray kl, .user c, .inf, Option.none⟩, ?_, ?_, ?_⟩
    · simp only [Op.run, me.bind, hlive, Bool.false_eq_true, if_false, Res.world?]
    · rw [addListener_destroyed]; exact hlive
    · exact addListener_regWF w a _ hwf rfl rfl
  | next kl c =>
    refine ⟨addListener w a ⟨toArray kl, .user c, .fin 1, Option.none⟩, ?_, ?_, ?_⟩
    · simp only [Op.run, me.next, hlive, Bool.false_eq_true, if_false, Res.world?]
    · rw [addListener_destroyed]; exact hlive
    · exact addListener_regWF w a _ hwf rfl rfl
  | once kl c =>
    cases hm : (get (w.atoms a).props (toArray kl)).2 with
    | none =>
      refine ⟨w.emit (.cb c (get (w.atoms a).props (toArray kl)).1), ?_, hlive,
        regWF_congr hwf rfl rfl rfl⟩
      simp only [Op.run, me.once, hlive, Bool.false_and, Bool.false_eq_true, if_false, hm,
        invoke, Res.world?]
    | some m =>
      refine ⟨addListener w a ⟨toArray kl, .user c, .fin 1, some m⟩, ?_, ?_, ?_⟩
      · simp only [Op.run, me.once, hlive, Bool.false_and, Bool.false_eq_true, if_false, hm,
          Res.world?]
      · rw [addListener_destroyed]; exact hlive
      · exact addListener_regWF w a _ hwf rfl rfl
  | off kl c =>
    simp only [Op.run, me.off, hlive, Bool.false_eq_true, if_false, Res.world?]
    refine ⟨_, rfl, ?_, ?_⟩
    · simpa [World.updAtom] using hlive
    · unfold RegWF
      simp only [World.updAtom, Function.update_same]
      refine ⟨hwf.1.filter _, ?_⟩
      intro r hr
      exact hwf.2 r (List.mem_filter.mp hr).1
  | set k v =>
    exact ⟨afterSet w a k v, set_world fuel w a k v hlive hwf, afterSet_live w a k v hlive,
      afterSet_regWF w a k v hwf⟩

/-- Every sequence of operations on a live instance with a well-formed registry
ends in such a state. -/
theorem runOps_regWF (fuel : Nat) (a : Nat) (ops : List Op) (w : World)
    (hlive : (w.atoms a).destroyed = false) (hwf : RegWF w a) :
    ∃ w1, runOps (fuel + 1) a w ops = some w1 ∧
      (w1.atoms a).destroyed = false ∧ RegWF w1 a := by
  induction ops generalizing w with
  | nil => exact ⟨w, rfl, hlive, hwf⟩
  | cons op ops ih =>
    obtain ⟨w1, h1, hl1, hw1⟩ := op_regWF fuel w a op hlive hwf
    obtain ⟨w2, h2, hl2, hw2⟩ := ih w1 hl1 hw1
    refine ⟨w2, ?_, hl2, hw2⟩
    simp only [runOps, h1]
    exact h2

/-- The registry of a fresh instance is well formed, so every state that the
operations reach from a fresh instance has a well-formed registry. -/
theorem reachable_regWF (fuel : Nat) (configs : Nat → Config) (a : Nat) (ops : List Op) :
    ∃ w1, runOps (fuel + 1) a (World.init configs) ops = some w1 ∧
      (w1.atoms a).destroyed = false ∧ RegWF w1 a :=
  runOps_regWF fuel a ops (World.init configs) rfl
    ⟨List.nodup_nil, fun _ hr => absurd hr (List.not_mem_nil _)⟩

end Atom
